import Mathlib

/-!
Verification of the weave data structures of the `universal-weave` repository.

The development shallowly embeds the Rust sources:

* `src/src/dependent.rs` — the tree-shaped `DependentWeave`;
* `src/src/independent.rs` — the DAG-shaped `IndependentWeave`;
* `src/tapestry-weave/src/v0.rs` / `v1.rs` — the application layers
  (`NodeContent` payloads with split/merge/deduplication, and the
  `set_active_content` reconciliation algorithm);
* `src/tapestry-weave/src/versioning.rs` — the versioned snapshot envelope.

Modelling conventions:

* Rust's 128-bit identifiers are modelled by `Nat` (only equality is used).
* `IndexSet<K>` is modelled by an insertion-ordered duplicate-free `List Nat`;
  `insert` appends at the end when absent, `shift_remove` is `List.erase`.
* `HashMap<K, N>` is modelled by an association list `List (Nat × N)` with
  first-match lookup; insertion replaces the first binding in place or
  appends at the end.  No semantics of the source depends on hash order.
* `HashSet<K>` (the DAG active store) is modelled by a `List Nat` used purely
  through membership.
* Recursive Rust functions are modelled with an explicit fuel parameter;
  every theorem either quantifies over the fuel or instantiates it with a
  bound that dominates the recursion depth on the states considered.
* Rust code paths that panic (`unwrap`, `assert!`, out-of-bounds
  `Vec::swap_remove`) are modelled by an `Option` result, `none` meaning the
  panic.
-/

namespace UWeave

/-! ## Ordered sets and association-list maps -/

/-- `IndexSet::insert`: append at the end when the element is absent. -/
def sinsert (l : List Nat) (x : Nat) : List Nat :=
  if x ∈ l then l else l ++ [x]

/-- `IndexSet::shift_remove` on a duplicate-free list is `List.erase`. -/
def serase (l : List Nat) (x : Nat) : List Nat :=
  l.erase x

/-- First-match lookup in an association-list map (`HashMap::get`). -/
def mfind {α : Type} (m : List (Nat × α)) (k : Nat) : Option α :=
  match m with
  | [] => none
  | kv :: rest => if kv.1 = k then some kv.2 else mfind rest k

/-- `HashMap::insert`: replace the first binding of the key, else append. -/
def minsert {α : Type} (m : List (Nat × α)) (k : Nat) (v : α) : List (Nat × α) :=
  match m with
  | [] => [(k, v)]
  | kv :: rest => if kv.1 = k then (k, v) :: rest else kv :: minsert rest k v

/-- `HashMap::remove`: drop the first binding of the key. -/
def merase {α : Type} (m : List (Nat × α)) (k : Nat) : List (Nat × α) :=
  match m with
  | [] => []
  | kv :: rest => if kv.1 = k then rest else kv :: merase rest k

/-- Update the value bound to a key in place (`HashMap::get_mut` plus a field
assignment); absent keys leave the map unchanged. -/
def madjust {α : Type} (m : List (Nat × α)) (k : Nat) (f : α → α) : List (Nat × α) :=
  match m with
  | [] => []
  | kv :: rest => if kv.1 = k then (kv.1, f kv.2) :: rest else kv :: madjust rest k f

def mcontains {α : Type} (m : List (Nat × α)) (k : Nat) : Prop :=
  (mfind m k).isSome

instance {α : Type} (m : List (Nat × α)) (k : Nat) : Decidable (mcontains m k) := by
  unfold mcontains; infer_instance

/-- The keys of an association-list map are duplicate-free.  Rust's `HashMap`
guarantees this by construction. -/
def NodupKeys {α : Type} (m : List (Nat × α)) : Prop :=
  (m.map Prod.fst).Nodup

instance {α : Type} (m : List (Nat × α)) : Decidable (NodupKeys m) := by
  unfold NodupKeys; infer_instance

theorem mfind_cons {α : Type} (kv : Nat × α) (rest : List (Nat × α)) (k : Nat) :
    mfind (kv :: rest) k = if kv.1 = k then some kv.2 else mfind rest k := rfl

theorem minsert_cons {α : Type} (kv : Nat × α) (rest : List (Nat × α)) (k : Nat) (v : α) :
    minsert (kv :: rest) k v =
      if kv.1 = k then (k, v) :: rest else kv :: minsert rest k v := rfl

theorem merase_cons {α : Type} (kv : Nat × α) (rest : List (Nat × α)) (k : Nat) :
    merase (kv :: rest) k = if kv.1 = k then rest else kv :: merase rest k := rfl

theorem madjust_cons {α : Type} (kv : Nat × α) (rest : List (Nat × α)) (k : Nat) (f : α → α) :
    madjust (kv :: rest) k f =
      if kv.1 = k then (kv.1, f kv.2) :: rest else kv :: madjust rest k f := rfl

theorem mfind_not_mem {α : Type} (m : List (Nat × α)) (k : Nat)
    (h : k ∉ m.map Prod.fst) : mfind m k = none := by
  induction m with
  | nil => rfl
  | cons kv rest ih =>
    simp only [List.map_cons, List.mem_cons, not_or] at h
    have hne : ¬ kv.1 = k := fun he => h.1 he.symm
    simp only [mfind, if_neg hne, ih h.2]

theorem mfind_minsert {α : Type} (m : List (Nat × α)) (k k' : Nat) (v : α) :
    mfind (minsert m k v) k' = if k' = k then some v else mfind m k' := by
  induction m with
  | nil =>
    simp only [minsert, mfind]
    by_cases h : k' = k
    · rw [if_pos h.symm, if_pos h]
    · rw [if_neg (fun he => h he.symm), if_neg h]
  | cons kv rest ih =>
    by_cases h1 : kv.1 = k
    · subst h1
      rw [minsert_cons, if_pos rfl, mfind_cons, mfind_cons]
      by_cases h2 : k' = kv.1
      · rw [if_pos h2.symm, if_pos h2]
      · rw [if_neg (fun he => h2 he.symm), if_neg h2, if_neg (fun he => h2 he.symm)]
    · rw [minsert_cons, if_neg h1, mfind_cons, mfind_cons]
      by_cases h2 : kv.1 = k'
      · rw [if_pos h2, if_pos h2, if_neg (fun he : k' = k => h1 (h2.trans he))]
      · rw [if_neg h2, if_neg h2, ih]

theorem mfind_merase {α : Type} (m : List (Nat × α)) (k k' : Nat) (hnd : NodupKeys m) :
    mfind (merase m k) k' = if k' = k then none else mfind m k' := by
  induction m with
  | nil => simp [merase, mfind]
  | cons kv rest ih =>
    simp only [NodupKeys, List.map_cons, List.nodup_cons] at hnd
    by_cases h1 : kv.1 = k
    · subst h1
      rw [merase_cons, if_pos rfl]
      by_cases h2 : k' = kv.1
      · rw [if_pos h2, h2, mfind_not_mem rest kv.1 hnd.1]
      · rw [if_neg h2, mfind_cons, if_neg (fun he => h2 he.symm)]
    · rw [merase_cons, if_neg h1, mfind_cons, mfind_cons]
      by_cases h2 : kv.1 = k'
      · rw [if_pos h2, if_pos h2, if_neg (fun he : k' = k => h1 (h2.trans he))]
      · rw [if_neg h2, if_neg h2, ih hnd.2]

theorem mfind_madjust {α : Type} (m : List (Nat × α)) (k k' : Nat) (f : α → α)
    (hnd : NodupKeys m) :
    mfind (madjust m k f) k' =
      if k' = k then (mfind m k).map f else mfind m k' := by
  induction m with
  | nil => simp [madjust, mfind]
  | cons kv rest ih =>
    simp only [NodupKeys, List.map_cons, List.nodup_cons] at hnd
    by_cases h1 : kv.1 = k
    · subst h1
      rw [madjust_cons, if_pos rfl, mfind_cons, mfind_cons, mfind_cons, if_pos rfl]
      by_cases h2 : k' = kv.1
      · rw [if_pos h2.symm, if_pos h2]; rfl
      · rw [if_neg (fun he => h2 he.symm), if_neg h2, if_neg (fun he => h2 he.symm)]
    · rw [madjust_cons, if_neg h1, mfind_cons, mfind_cons, mfind_cons, if_neg h1]
      by_cases h2 : kv.1 = k'
      · rw [if_pos h2, if_pos h2, if_neg (fun he : k' = k => h1 (h2.trans he))]
      · rw [if_neg h2, if_neg h2, ih hnd.2]

/-! ## `IndexMap<String, String>` metadata and its equality

`IndexMap` equality in Rust (`PartialEq`) holds when both maps have the same
length and every key of the left map is bound to an equal value in the right
map; it is independent of insertion order.  `mapEquiv` models this; the
structural-equality disjunct makes the function reflexive also on lists with
duplicated keys, which an `IndexMap` cannot have, so the two definitions agree
on every faithful input. -/

def mlookup (m : List (String × String)) (k : String) : Option String :=
  match m with
  | [] => none
  | kv :: rest => if kv.1 = k then some kv.2 else mlookup rest k

def mapEquiv (a b : List (String × String)) : Bool :=
  a == b ||
    (a.length == b.length && a.all fun kv => mlookup b kv.1 == some kv.2)

theorem mapEquiv_refl (a : List (String × String)) : mapEquiv a a = true := by
  simp [mapEquiv]

end UWeave

namespace UWeave

/-! ## `DiscreteContentResult` (src/src/lib.rs) -/

inductive DiscreteContentResult (T : Type) where
  | one (x : T)
  | two (x y : T)
deriving DecidableEq, Repr

end UWeave

namespace UWeave.V0

/-! ## v0 payloads (src/tapestry-weave/src/v0.rs) -/

structure Model where
  label : String
  metadata : List (String × String)
deriving DecidableEq, Repr

inductive InnerNodeContent where
  | snippet (bytes : List Nat)
  | tokens (toks : List (List Nat × List (String × String)))
deriving DecidableEq, Repr

structure NodeContent where
  content : InnerNodeContent
  metadata : List (String × String)
  model : Option Model
deriving DecidableEq, Repr

/-- Locate the token spanning the byte offset `at_` (the `find_map` over
`tokens.iter().enumerate()` in `InnerNodeContent::split`); returns the token
index together with the byte offset of its first byte. -/
def findTokenLoc (toks : List (List Nat × List (String × String))) (at_ : Nat)
    (loc ci : Nat) : Option (Nat × Nat) :=
  match toks with
  | [] => none
  | t :: rest =>
    if at_ < ci + t.1.length then some (loc, ci)
    else findTokenLoc rest at_ (loc + 1) (ci + t.1.length)

def InnerNodeContent.splitAt (c : InnerNodeContent) (at_ : Nat) :
    DiscreteContentResult InnerNodeContent :=
  if at_ = 0 then .one c
  else
    match c with
    | .snippet s =>
      if s.length ≤ at_ then .one (.snippet s)
      else .two (.snippet (s.take at_)) (.snippet (s.drop at_))
    | .tokens toks =>
      if (toks.map fun t => t.1.length).sum ≤ at_ then .one (.tokens toks)
      else
        match findTokenLoc toks at_ 0 0 with
        | some (loc, ci) =>
          match toks.drop loc with
          | [] => .one (.tokens toks)
          | t0 :: rrest =>
            let left := toks.take loc
            let leftTok := t0.1.take (at_ - ci)
            let rightTok := t0.1.drop (at_ - ci)
            let left := if leftTok ≠ [] then left ++ [(leftTok, t0.2)] else left
            .two (.tokens left) (.tokens ((rightTok, t0.2) :: rrest))
        | none => .one (.tokens toks)

def InnerNodeContent.mergeWith (c v : InnerNodeContent) :
    DiscreteContentResult InnerNodeContent :=
  match c, v with
  | .snippet l, .snippet r => .one (.snippet (l ++ r))
  | .snippet l, .tokens r => .two (.snippet l) (.tokens r)
  | .tokens l, .snippet r => .two (.tokens l) (.snippet r)
  | .tokens l, .tokens r => .one (.tokens (l ++ r))

def InnerNodeContent.asBytes : InnerNodeContent → List Nat
  | .snippet s => s
  | .tokens toks => toks.flatMap fun t => t.1

def InnerNodeContent.byteLen : InnerNodeContent → Nat
  | .snippet s => s.length
  | .tokens toks => (toks.map fun t => t.1.length).sum

def NodeContent.splitAt (c : NodeContent) (at_ : Nat) :
    DiscreteContentResult NodeContent :=
  match c.content.splitAt at_ with
  | .two l r =>
    .two { c with content := l } { content := r, metadata := c.metadata, model := c.model }
  | .one center => .one { c with content := center }

/-- `IndexMap`-style equality of the optional model descriptor. -/
def modelOptEq (a b : Option Model) : Bool :=
  match a, b with
  | none, none => true
  | some x, some y => x.label == y.label && mapEquiv x.metadata y.metadata
  | _, _ => false

def NodeContent.mergeWith (c v : NodeContent) : DiscreteContentResult NodeContent :=
  if ¬ (mapEquiv c.metadata v.metadata && modelOptEq c.model v.model) then .two c v
  else
    match c.content.mergeWith v.content with
    | .two l r => .two { c with content := l } { v with content := r }
    | .one center => .one { c with content := center }

/-- Structural equality of token lists, comparing per-token metadata as maps
(the derived `PartialEq` of the `Tokens` payload). -/
def tokListEq (a b : List (List Nat × List (String × String))) : Bool :=
  a.length == b.length &&
    (a.zip b).all fun p => p.1.1 == p.2.1 && mapEquiv p.1.2 p.2.2

def innerEq (a b : InnerNodeContent) : Bool :=
  match a, b with
  | .snippet x, .snippet y => x == y
  | .tokens x, .tokens y => tokListEq x y
  | _, _ => false

/-- `NodeContent::is_duplicate_of`: the derived structural equality, with
`IndexMap` fields compared as maps. -/
def ncEq (a b : NodeContent) : Bool :=
  innerEq a.content b.content && mapEquiv a.metadata b.metadata &&
    modelOptEq a.model b.model

end UWeave.V0

namespace UWeave.V1

/-! ## v1 payloads (src/tapestry-weave/src/v1.rs) -/

structure Model where
  label : String
  identifier : Option Nat
  metadata : List (String × String)
deriving DecidableEq, Repr

structure Author where
  label : String
  identifier : Option Nat
deriving DecidableEq, Repr

inductive Creator where
  | model (m : Model)
  | human (a : Author)
deriving DecidableEq, Repr

structure InnerNodeToken where
  bytes : List Nat
  metadata : List (String × String)
  modified : Bool
deriving DecidableEq, Repr

inductive InnerNodeContent where
  | snippet (bytes : List Nat)
  | tokens (toks : List InnerNodeToken)
  | link (s : String)
deriving DecidableEq, Repr

structure NodeContent where
  modified : Bool
  content : InnerNodeContent
  metadata : List (String × String)
  creator : Option Creator
deriving DecidableEq, Repr

def findTokenLoc (toks : List InnerNodeToken) (at_ : Nat) (loc ci : Nat) :
    Option (Nat × Nat) :=
  match toks with
  | [] => none
  | t :: rest =>
    if at_ < ci + t.bytes.length then some (loc, ci)
    else findTokenLoc rest at_ (loc + 1) (ci + t.bytes.length)

def InnerNodeContent.splitAt (c : InnerNodeContent) (at_ : Nat) :
    DiscreteContentResult InnerNodeContent :=
  if at_ = 0 then .one c
  else
    match c with
    | .snippet s =>
      if s.length ≤ at_ then .one (.snippet s)
      else .two (.snippet (s.take at_)) (.snippet (s.drop at_))
    | .tokens toks =>
      if (toks.map fun t => t.bytes.length).sum ≤ at_ then .one (.tokens toks)
      else
        match findTokenLoc toks at_ 0 0 with
        | some (loc, ci) =>
          match toks.drop loc with
          | [] => .one (.tokens toks)
          | t0 :: rrest =>
            let left := toks.take loc
            let leftTok := t0.bytes.take (at_ - ci)
            let rightTok := t0.bytes.drop (at_ - ci)
            if leftTok ≠ [] then
              .two (.tokens (left ++ [⟨leftTok, t0.metadata, true⟩]))
                (.tokens (⟨rightTok, t0.metadata, true⟩ :: rrest))
            else
              .two (.tokens left) (.tokens (⟨rightTok, t0.metadata, t0.modified⟩ :: rrest))
        | none => .one (.tokens toks)
    | .link l => .one (.link l)

def InnerNodeContent.mergeWith (c v : InnerNodeContent) :
    DiscreteContentResult InnerNodeContent :=
  match c, v with
  | .snippet l, .snippet r => .one (.snippet (l ++ r))
  | .snippet l, .tokens r => .two (.snippet l) (.tokens r)
  | .snippet l, .link r => .two (.snippet l) (.link r)
  | .tokens l, .snippet r => .two (.tokens l) (.snippet r)
  | .tokens l, .tokens r => .one (.tokens (l ++ r))
  | .tokens l, .link r => .two (.tokens l) (.link r)
  | .link l, v => .two (.link l) v

def InnerNodeContent.asBytes : InnerNodeContent → List Nat
  | .snippet s => s
  | .tokens toks => toks.flatMap fun t => t.bytes
  | .link _ => []

def InnerNodeContent.byteLen : InnerNodeContent → Nat
  | .snippet s => s.length
  | .tokens toks => (toks.map fun t => t.bytes.length).sum
  | .link _ => 0

def NodeContent.splitAt (c : NodeContent) (at_ : Nat) :
    DiscreteContentResult NodeContent :=
  match c.content.splitAt at_ with
  | .two l r =>
    .two { c with content := l, modified := true }
      { modified := true, content := r, metadata := c.metadata, creator := c.creator }
  | .one center => .one { c with content := center }

/-- `IndexMap`-aware equality of the optional creator descriptor (the derived
`PartialEq` of `Option<Creator>`). -/
def creatorOptEq (a b : Option Creator) : Bool :=
  match a, b with
  | none, none => true
  | some (.model x), some (.model y) =>
    x.label == y.label && x.identifier == y.identifier && mapEquiv x.metadata y.metadata
  | some (.human x), some (.human y) => x == y
  | _, _ => false

def NodeContent.mergeWith (c v : NodeContent) : DiscreteContentResult NodeContent :=
  if ¬ (mapEquiv c.metadata v.metadata && creatorOptEq c.creator v.creator) then .two c v
  else
    match c.content.mergeWith v.content with
    | .two l r => .two { c with content := l } { v with content := r }
    | .one center => .one { c with content := center, modified := true }

def tokListEq (a b : List InnerNodeToken) : Bool :=
  a.length == b.length &&
    (a.zip b).all fun p =>
      p.1.bytes == p.2.bytes && mapEquiv p.1.metadata p.2.metadata &&
        p.1.modified == p.2.modified

def innerEq (a b : InnerNodeContent) : Bool :=
  match a, b with
  | .snippet x, .snippet y => x == y
  | .tokens x, .tokens y => tokListEq x y
  | .link x, .link y => x == y
  | _, _ => false

/-- `NodeContent::is_duplicate_of`: derived structural equality with
`IndexMap` fields compared as maps. -/
def ncEq (a b : NodeContent) : Bool :=
  a.modified == b.modified && innerEq a.content b.content &&
    mapEquiv a.metadata b.metadata && creatorOptEq a.creator b.creator

/-- Erase every "modified" marker of a payload; two payloads are equal up to
the modified markers exactly when their erasures coincide. -/
def NodeContent.eraseModified (c : NodeContent) : NodeContent :=
  { c with
    modified := false,
    content :=
      match c.content with
      | .snippet s => .snippet s
      | .tokens toks => .tokens (toks.map fun t => { t with modified := false })
      | .link l => .link l }

end UWeave.V1

namespace UWeave.Versioning

/-! ## Versioned snapshot envelope (src/tapestry-weave/src/versioning.rs) -/

/-- The 24 ASCII bytes of the magic prefix `VersionedTapestryWeave__`. -/
def MAGIC : List Nat :=
  [86, 101, 114, 115, 105, 111, 110, 101, 100,
   84, 97, 112, 101, 115, 116, 114, 121,
   87, 101, 97, 118, 101, 95, 95]

/-- Little-endian byte encoding on `k` bytes (`u64::to_le_bytes` with `k = 8`). -/
def toLE : Nat → Nat → List Nat
  | 0, _ => []
  | k + 1, v => v % 256 :: toLE k (v / 256)

/-- Little-endian byte decoding (`u64::from_le_bytes`). -/
def fromLE : List Nat → Nat
  | [] => 0
  | b :: rest => b + 256 * fromLE rest

/-- `VersionedBytes::to_bytes`: magic prefix, little-endian version, payload. -/
def toBytes (version : Nat) (data : List Nat) : List Nat :=
  MAGIC ++ toLE 8 version ++ data

/-- `VersionedBytes::from_bytes`: accept iff the input starts with the magic
prefix and is at least 32 bytes long; then read the version and split off the
payload. -/
def fromBytes (value : List Nat) : Option (Nat × List Nat) :=
  if MAGIC.isPrefixOf value ∧ 32 ≤ value.length then
    some (fromLE ((value.drop 24).take 8), value.drop 32)
  else none

theorem toLE_length (k v : Nat) : (toLE k v).length = k := by
  induction k generalizing v with
  | zero => rfl
  | succ k ih => simp [toLE, ih]

theorem fromLE_toLE (k v : Nat) (h : v < 256 ^ k) : fromLE (toLE k v) = v := by
  induction k generalizing v with
  | zero => simp at h; simp [toLE, fromLE, h]
  | succ k ih =>
    have hd : v / 256 < 256 ^ k := by
      rw [Nat.div_lt_iff_lt_mul (by norm_num)]
      calc v < 256 ^ (k + 1) := h
        _ = 256 ^ k * 256 := by ring
    simp [toLE, fromLE, ih _ hd]
    omega

end UWeave.Versioning

namespace UWeave.Versioning

theorem magic_length : MAGIC.length = 24 := rfl

/-- **C8.** Serializing the snapshot envelope `{version, data}` yields the
24-byte magic `VersionedTapestryWeave__`, then the version as a little-endian
`u64`, then the payload; parsing accepts a byte sequence exactly when it is at
least 32 bytes long and starts with the magic, and parsing a serialized
envelope returns the original version and payload. -/
theorem snapshot_envelope_roundtrip (v : Nat) (p : List Nat) (hv : v < 2 ^ 64) :
    toBytes v p = MAGIC ++ toLE 8 v ++ p ∧
    fromBytes (toBytes v p) = some (v, p) ∧
    (∀ b : List Nat, (fromBytes b).isSome ↔ (MAGIC.isPrefixOf b ∧ 32 ≤ b.length)) := by
  refine ⟨rfl, ?_, ?_⟩
  · have hpre : MAGIC.isPrefixOf (toBytes v p) = true := by
      rw [List.isPrefixOf_iff_prefix]
      exact ⟨toLE 8 v ++ p, rfl⟩
    have hlen : 32 ≤ (toBytes v p).length := by
      simp only [toBytes, List.length_append, toLE_length, magic_length]
      omega
    rw [fromBytes, if_pos ⟨hpre, hlen⟩]
    have hdrop24 : (toBytes v p).drop 24 = toLE 8 v ++ p :=
      List.drop_left' magic_length
    have htake : ((toBytes v p).drop 24).take 8 = toLE 8 v := by
      rw [hdrop24]
      exact List.take_left' (toLE_length 8 v)
    have hdrop32 : (toBytes v p).drop 32 = p := by
      have hassoc : toBytes v p = (MAGIC ++ toLE 8 v) ++ p := by simp [toBytes]
      rw [hassoc]
      exact List.drop_left' (by rw [List.length_append, magic_length, toLE_length])
    rw [htake, hdrop32, fromLE_toLE 8 v (by norm_num at hv ⊢; exact hv)]
  · intro b
    rw [fromBytes]
    by_cases h : MAGIC.isPrefixOf b ∧ 32 ≤ b.length
    · simp [if_pos h, h.1, h.2]
    · rw [if_neg h]
      simp only [Option.isSome_none, Bool.false_eq_true, false_iff]
      exact fun hc => h ⟨hc.1, hc.2⟩

/-- Witness for the round-trip theorem at version 0 and payload `[7, 9]`. -/
theorem snapshot_envelope_roundtrip_witness :
    toBytes 0 [7, 9] = MAGIC ++ toLE 8 0 ++ [7, 9] ∧
    fromBytes (toBytes 0 [7, 9]) = some (0, [7, 9]) ∧
    (∀ b : List Nat, (fromBytes b).isSome ↔ (MAGIC.isPrefixOf b ∧ 32 ≤ b.length)) :=
  snapshot_envelope_roundtrip 0 [7, 9] (by norm_num)

end UWeave.Versioning

namespace UWeave.V1

/-- One fixed Tokens payload: a single two-byte token. -/
def c6x : NodeContent :=
  { modified := false,
    content := .tokens [⟨[97, 98], [], false⟩],
    metadata := [], creator := none }

def c6l : NodeContent :=
  { modified := true,
    content := .tokens [⟨[97], [], true⟩],
    metadata := [], creator := none }

def c6r : NodeContent :=
  { modified := true,
    content := .tokens [⟨[98], [], true⟩],
    metadata := [], creator := none }

def c6y : NodeContent :=
  { modified := true,
    content := .tokens [⟨[97], [], true⟩, ⟨[98], [], true⟩],
    metadata := [], creator := none }

/-- **C6, counterexample.** Splitting a Tokens payload in the middle of a
token and merging the halves back does not restore the original contents even
modulo the "modified" markers: the spanned token has been divided in two. -/
theorem split_merge_tokens_counterexample :
    c6x.splitAt 1 = .two c6l c6r ∧
    c6l.mergeWith c6r = .one c6y ∧
    c6y.eraseModified ≠ c6x.eraseModified := by
  refine ⟨by decide, by decide, by decide⟩

theorem creatorOptEq_refl (c : Option Creator) : creatorOptEq c c = true := by
  match c with
  | none => rfl
  | some (.model m) => simp [creatorOptEq, mapEquiv_refl]
  | some (.human a) => simp [creatorOptEq]

theorem splitAt_snippet (s : List Nat) (at_ : Nat) :
    (InnerNodeContent.snippet s).splitAt at_ =
      if at_ = 0 then .one (.snippet s)
      else if s.length ≤ at_ then .one (.snippet s)
      else .two (.snippet (s.take at_)) (.snippet (s.drop at_)) := rfl

theorem splitAt_link (l : String) (at_ : Nat) :
    (InnerNodeContent.link l).splitAt at_ =
      if at_ = 0 then .one (.link l) else .one (.link l) := rfl

theorem splitAt_tokens (toks : List InnerNodeToken) (at_ : Nat) :
    (InnerNodeContent.tokens toks).splitAt at_ =
      if at_ = 0 then .one (.tokens toks)
      else if (toks.map fun t => t.bytes.length).sum ≤ at_ then .one (.tokens toks)
      else
        match findTokenLoc toks at_ 0 0 with
        | some (loc, ci) =>
          match toks.drop loc with
          | [] => .one (.tokens toks)
          | t0 :: rrest =>
            if t0.bytes.take (at_ - ci) ≠ [] then
              .two (.tokens (toks.take loc ++
                  [⟨t0.bytes.take (at_ - ci), t0.metadata, true⟩]))
                (.tokens (⟨t0.bytes.drop (at_ - ci), t0.metadata, true⟩ :: rrest))
            else
              .two (.tokens (toks.take loc))
                (.tokens (⟨t0.bytes.drop (at_ - ci), t0.metadata, t0.modified⟩ :: rrest))
        | none => .one (.tokens toks) := rfl

theorem inner_split_two_merge (c : InnerNodeContent) (at_ : Nat)
    (il ir : InnerNodeContent) (h : c.splitAt at_ = .two il ir) :
    ∃ mc : InnerNodeContent, il.mergeWith ir = .one mc ∧
      mc.asBytes = c.asBytes ∧ (∀ s, c = .snippet s → mc = c) := by
  cases c with
  | snippet s =>
    rw [splitAt_snippet] at h
    split at h
    · exact absurd h (by simp)
    · split at h
      · exact absurd h (by simp)
      · injection h with h1 h2
        subst h1; subst h2
        refine ⟨.snippet s, ?_, by simp [InnerNodeContent.asBytes], by
          intro s' hs'; rfl⟩
        simp [InnerNodeContent.mergeWith, List.take_append_drop]
  | link l =>
    rw [splitAt_link] at h
    split at h
    · exact absurd h (by simp)
    · exact absurd h (by simp)
  | tokens toks =>
    rw [splitAt_tokens] at h
    split at h
    · exact absurd h (by simp)
    · split at h
      · exact absurd h (by simp)
      · split at h
        · rename_i loc ci hloc
          split at h
          · exact absurd h (by simp)
          · rename_i t0 rrest hdrop
            have hsplit : toks = toks.take loc ++ (t0 :: rrest) := by
              rw [← hdrop]; exact (List.take_append_drop loc toks).symm
            split at h
            · injection h with h1 h2
              subst h1; subst h2
              refine ⟨_, rfl, ?_, by intro s hs; simp at hs⟩
              conv_rhs => rw [hsplit]
              simp only [InnerNodeContent.asBytes, List.flatMap_append,
                List.flatMap_cons, List.flatMap_nil, List.append_nil,
                List.append_assoc, List.nil_append]
              congr 1
              rw [← List.append_assoc, List.take_append_drop]
            · injection h with h1 h2
              subst h1; subst h2
              rename_i hempty
              simp only [ne_eq, Decidable.not_not] at hempty
              refine ⟨_, rfl, ?_, by intro s hs; simp at hs⟩
              have hb : t0.bytes.drop (at_ - ci) = t0.bytes := by
                rcases Nat.eq_zero_or_pos (at_ - ci) with h0 | hpos
                · rw [h0, List.drop_zero]
                · have hnil : t0.bytes = [] := by
                    by_contra hne
                    rw [List.take_eq_nil_iff] at hempty
                    rcases hempty with h0 | h0
                    · exact absurd h0 (Nat.pos_iff_ne_zero.mp hpos)
                    · exact hne h0
                  simp [hnil]
              conv_rhs => rw [hsplit]
              simp [InnerNodeContent.asBytes, List.flatMap_append, hb]
        · exact absurd h (by simp)

end UWeave.V1

namespace UWeave.V1

/-- **C6 (amended).** If `split(x, at)` on a v1 payload returns `Two(l, r)`,
then `merge(l, r)` returns `One(y)` where `y` keeps the original metadata and
creator and the original byte content; when the inner content is a `Snippet`,
`y` equals `x` up to the "modified" marker.  (For `Tokens` contents split in
the middle of a token the byte content is restored but the spanned token ends
up divided in two — see the counterexample.) -/
theorem split_merge_left_inverse (x : NodeContent) (at_ : Nat) (l r : NodeContent)
    (h : x.splitAt at_ = .two l r) :
    ∃ y, l.mergeWith r = .one y ∧ y.metadata = x.metadata ∧ y.creator = x.creator ∧
      y.content.asBytes = x.content.asBytes ∧
      (∀ s, x.content = .snippet s → y = { x with modified := true }) := by
  unfold NodeContent.splitAt at h
  split at h
  · rename_i il ir heq
    injection h with h1 h2
    subst h1; subst h2
    obtain ⟨mc, hm, hbytes, hsnip⟩ := inner_split_two_merge x.content at_ il ir heq
    refine ⟨{ x with content := mc, modified := true }, ?_, rfl, rfl, hbytes, ?_⟩
    · unfold NodeContent.mergeWith
      rw [if_neg (by simp [mapEquiv_refl, creatorOptEq_refl])]
      simp only
      rw [hm]
    · intro s hs
      have := hsnip s hs
      rw [this]
  · exact absurd h (by simp)

def c6wx : NodeContent :=
  { modified := false, content := .snippet [1, 2], metadata := [], creator := none }

def c6wl : NodeContent :=
  { modified := true, content := .snippet [1], metadata := [], creator := none }

def c6wr : NodeContent :=
  { modified := true, content := .snippet [2], metadata := [], creator := none }

/-- Witness for the amended split/merge theorem at a concrete snippet. -/
theorem split_merge_left_inverse_witness :
    ∃ y, c6wl.mergeWith c6wr = .one y ∧ y.metadata = c6wx.metadata ∧
      y.creator = c6wx.creator ∧
      y.content.asBytes = c6wx.content.asBytes ∧
      (∀ s, c6wx.content = .snippet s → y = { c6wx with modified := true }) :=
  split_merge_left_inverse c6wx 1 c6wl c6wr (by decide)

end UWeave.V1

namespace UWeave.Ind

/-! ## The DAG weave (src/src/independent.rs)

`IndependentNode.from`/`to` are the parent and child identifier sets; the
field `from` is renamed `fro` because `from` is a Lean keyword. -/

structure INode where
  id : Nat
  fro : List Nat
  too : List Nat
  active : Bool
  bookmarked : Bool
  contents : V1.NodeContent
deriving DecidableEq, Repr

structure IWeave where
  nodes : List (Nat × INode)
  roots : List Nat
  active : List Nat
  bookmarked : List Nat
  metadata : List (String × String)
deriving DecidableEq, Repr

/-- `IndependentNode::validate`. -/
def INode.validate (n : INode) : Bool :=
  n.fro.all (fun x => decide (x ∉ n.too)) &&
    decide (n.id ∉ n.fro) && decide (n.id ∉ n.too)

/-- `IndependentWeave::all_parent_ids_or_roots`. -/
def allParentIdsOrRoots (w : IWeave) (n : INode) : List Nat :=
  if n.fro = [] then w.roots.filter (fun x => decide (x ≠ n.id)) else n.fro

/-- `IndependentWeave::sibling_ids_from_all_parents_including_roots`. -/
def siblingIdsAllParents (w : IWeave) (n : INode) : List Nat :=
  if n.fro = [] then w.roots.filter (fun x => decide (x ≠ n.id))
  else (n.fro.filterMap (mfind w.nodes)).flatMap
    (fun pn => pn.too.filter (fun x => decide (x ≠ n.id)))

/-- `IndependentWeave::siblings_from_active_parents`. -/
def siblingsFromActiveParents (w : IWeave) (n : INode) : List INode :=
  ((n.fro.filterMap (mfind w.nodes)).filter (fun pn => pn.active)).flatMap
    (fun pn => (pn.too.filter (fun x => decide (x ≠ n.id))).filterMap (mfind w.nodes))

/-- `IndependentWeave::update_removed_child_activity` (fueled). -/
def urca (fuel : Nat) (w : IWeave) (id : Nat) : IWeave × Bool :=
  match fuel with
  | 0 => (w, false)
  | fuel + 1 =>
    match mfind w.nodes id with
    | some n =>
      if n.active = false then (w, true)
      else if n.fro.any (fun p => decide (p ∈ w.active)) then (w, true)
      else
        let w1 : IWeave := { w with
          nodes := madjust w.nodes id (fun m => { m with active := false }),
          active := w.active.erase id }
        (n.too.foldl (fun acc c => (urca fuel acc c).1) w1, true)
    | none => (w, false)

/-- `IndependentWeave::update_node_activity_in_place_inner` (fueled).  The
shared `scratchpad_list` queue is threaded explicitly as `q`; the `start`
frame clears it on entry and drains it through
`update_removed_child_activity` on exit, exactly as the source does. -/
def innerAct (fuel : Nat) (w : IWeave) (q : List Nat) (id : Nat)
    (value : Bool) (start : Bool) : IWeave × List Nat × Bool :=
  match fuel with
  | 0 => (w, q, false)
  | fuel + 1 =>
    match mfind w.nodes id with
    | none => (w, q, false)
    | some n =>
      if n.active = value then (w, q, true)
      else
        let q0 := if start then [] else q
        let res : IWeave × List Nat :=
          if value then
            if (allParentIdsOrRoots w n).any (fun p => decide (p ∈ w.active)) then
              let sibs := (siblingIdsAllParents w n).filter
                (fun s => decide (s ∈ w.active ∧ s ∉ n.fro ∧ s ∉ n.too))
              sibs.foldl (fun acc s =>
                let r := innerAct fuel acc.1 acc.2 s false false
                (r.1, r.2.1)) (w, q0)
            else
              match n.fro.head? with
              | some p =>
                let r := innerAct fuel w q0 p true false
                (r.1, r.2.1)
              | none => (w, q0)
          else
            (w, q0 ++ n.too)
        match mfind res.1.nodes id with
        | some _ =>
          let w2 : IWeave := { res.1 with
            nodes := madjust res.1.nodes id (fun m => { m with active := value }),
            active := if value then sinsert res.1.active id else res.1.active.erase id }
          if start then
            (res.2.foldl (fun acc item => (urca fuel acc item).1) w2, res.2, true)
          else (w2, res.2, true)
        | none => (res.1, res.2, false)

/-- `IndependentWeave::update_node_activity_in_place`: the `start = true`
entry point, with enough fuel for every acyclic state. -/
def updateInPlace (w : IWeave) (id : Nat) (value : Bool) : IWeave × Bool :=
  let r := innerAct (w.nodes.length + 2) w [] id value true
  (r.1, r.2.2)

/-- `Weave::set_node_active_status_in_place` for `IndependentWeave`. -/
def setActiveInPlace (w : IWeave) (id : Nat) (value : Bool) : IWeave × Bool :=
  updateInPlace w id value

/-- The `active_child` probe at the head of `set_node_active_status`. -/
def setActiveChild (w : IWeave) (id : Nat) (value : Bool) : Option INode :=
  if value then
    match mfind w.nodes id with
    | some n => (n.too.filterMap (mfind w.nodes)).find? (fun c => c.active)
    | none => none
  else none

/-- `Weave::set_node_active_status` for `IndependentWeave` (the pull-up
behavior for a node with an active child). -/
def setActive (w : IWeave) (id : Nat) (value : Bool) (alternate : Bool) :
    IWeave × Bool :=
  match setActiveChild w id value with
  | some c =>
    if (¬ alternate ∧ c.fro.length = 1) ∨ (alternate ∧ c.fro.length > 1) then
      let r1 := updateInPlace w id true
      let r2 := updateInPlace r1.1 c.id false
      (r2.1, r1.2)
    else updateInPlace w id value
  | none => updateInPlace w id value

/-- Validity check at the top of `IndependentWeave::add_node`. -/
def addNodeInvalid (w : IWeave) (n : INode) : Bool :=
  decide (mcontains w.nodes n.id) || ! n.validate ||
    ! (n.fro.all fun p => decide (mcontains w.nodes p)) ||
    ! (n.too.all fun c => decide (mcontains w.nodes c))

/-- First loop of `add_node`: referenced active root children force the node
active and leave `roots`. -/
def addNodeInherit (w : IWeave) (n : INode) : IWeave × Bool :=
  n.too.foldl (fun (acc : IWeave × Bool) c =>
      match mfind acc.1.nodes c with
      | some cn =>
        if cn.fro = [] ∧ cn.active then
          ({ acc.1 with roots := acc.1.roots.erase cn.id }, true)
        else acc
      | none => acc) (w, n.active)

/-- The rootless branch of `add_node`: deactivate every active root when the
new node is active, then insert it into `roots`. -/
def addNodeRootCase (w1 : IWeave) (n : INode) (nActive : Bool) : IWeave :=
  let w2 :=
    if nActive then
      (w1.roots.filter (fun r => decide (r ∈ w1.active))).foldl
        (fun acc r => (updateInPlace acc r false).1) w1
    else w1
  { w2 with roots := sinsert w2.roots n.id }

/-- The parented branch of `add_node`: activate the first parent when no
parent is active, deactivate active siblings, then add the child edges. -/
def addNodeParentCase (w1 : IWeave) (n : INode) (nActive : Bool) : IWeave :=
  let w2 :=
    if nActive then
      let w2a :=
        if ¬ (n.fro.any fun p => decide (p ∈ w1.active)) then
          match n.fro.head? with
          | some p => (updateInPlace w1 p true).1
          | none => w1
        else w1
      let sibs := ((n.fro.filterMap (mfind w2a.nodes)).flatMap
          (fun pn => pn.too.filter (fun x => decide (x ≠ n.id)))).filter
        (fun s => decide (s ∈ w2a.active))
      sibs.foldl (fun acc s => (updateInPlace acc s false).1) w2a
    else w1
  n.fro.foldl (fun acc p =>
    { acc with nodes :=
        madjust acc.nodes p (fun pn => { pn with too := sinsert pn.too n.id }) }) w2

/-- Final phase of `add_node`: back-edges into the inherited children, the
active and bookmark stores, and the node map itself. -/
def addNodeFinish (w3 : IWeave) (n : INode) (nActive : Bool) : IWeave :=
  let w4 := n.too.foldl (fun acc c =>
      { acc with nodes :=
          madjust acc.nodes c (fun cn => { cn with fro := sinsert cn.fro n.id }) }) w3
  let w5 := if nActive then { w4 with active := sinsert w4.active n.id } else w4
  let w6 := if n.bookmarked then { w5 with bookmarked := sinsert w5.bookmarked n.id } else w5
  { w6 with nodes := minsert w6.nodes n.id { n with active := nActive } }

/-- `Weave::add_node` for `IndependentWeave`. -/
def addNode (w : IWeave) (n : INode) : IWeave × Bool :=
  if addNodeInvalid w n then (w, false)
  else
    (addNodeFinish
      (if n.fro = [] then addNodeRootCase (addNodeInherit w n).1 n (addNodeInherit w n).2
       else addNodeParentCase (addNodeInherit w n).1 n (addNodeInherit w n).2)
      n (addNodeInherit w n).2, true)

/-- `Weave::set_node_bookmarked_status` for `IndependentWeave`. -/
def setBookmarked (w : IWeave) (id : Nat) (value : Bool) : IWeave × Bool :=
  match mfind w.nodes id with
  | some _ =>
    let w1 := { w with nodes := madjust w.nodes id (fun m => { m with bookmarked := value }) }
    if value then ({ w1 with bookmarked := sinsert w1.bookmarked id }, true)
    else ({ w1 with bookmarked := w1.bookmarked.erase id }, true)
  | none => (w, false)

/-- `IndependentWeave::remove_node_unverified` (fueled). -/
def removeAux (fuel : Nat) (w : IWeave) (id : Nat) : IWeave × Option INode :=
  match fuel with
  | 0 => (w, none)
  | fuel + 1 =>
    match mfind w.nodes id with
    | none => (w, none)
    | some n =>
      let w1 : IWeave := { w with
        nodes := merase w.nodes id,
        roots := w.roots.erase id,
        bookmarked := w.bookmarked.erase id,
        active := w.active.erase id }
      let w2 := n.fro.foldl (fun acc p =>
          { acc with nodes :=
              madjust acc.nodes p (fun pn => { pn with too := pn.too.erase n.id }) }) w1
      let w3 := n.too.foldl (fun acc c =>
          match mfind acc.nodes c with
          | some _ =>
            let acc1 : IWeave :=
              { acc with nodes :=
                  madjust acc.nodes c (fun cn => { cn with fro := cn.fro.erase n.id }) }
            match mfind acc1.nodes c with
            | some cn1 =>
              if cn1.fro = [] then (removeAux fuel acc1 c).1
              else if n.active ∧ cn1.active then (urca fuel acc1 c).1
              else acc1
            | none => acc1
          | none => acc) w2
      (w3, some n)

/-- `Weave::remove_node` for `IndependentWeave`. -/
def removeNode (w : IWeave) (id : Nat) : IWeave × Option INode :=
  removeAux (2 * w.nodes.length + 2) w id

/-- `DiscreteWeave::split_node` for `IndependentWeave`. -/
def splitNode (w : IWeave) (id : Nat) (at_ : Nat) (newId : Nat) : IWeave × Bool :=
  if mcontains w.nodes newId ∨ id = newId then (w, false)
  else
    match mfind w.nodes id with
    | none => (w, false)
    | some node =>
      let nodes1 := merase w.nodes id
      match node.contents.splitAt at_ with
      | .two l r =>
        let leftNode : INode :=
          { id := node.id, fro := node.fro, too := [newId],
            active := node.active, bookmarked := node.bookmarked, contents := l }
        let step := node.too.foldl (fun (acc : List (Nat × INode) × Bool) c =>
            match mfind acc.1 c with
            | some cn =>
              let newFro :=
                match cn.fro.findIdx? (fun x => decide (x = leftNode.id)) with
                | some i => if newId ∈ cn.fro then cn.fro.eraseIdx i else cn.fro.set i newId
                | none => sinsert cn.fro newId
              (madjust acc.1 c (fun m => { m with fro := newFro }), acc.2 || cn.active)
            | none => acc) (nodes1, false)
        let rightNode : INode :=
          { id := newId, fro := [node.id], too := node.too,
            active := step.2, bookmarked := false, contents := r }
        ({ w with nodes := minsert (minsert step.1 leftNode.id leftNode) newId rightNode }, true)
      | .one c =>
        ({ w with nodes := minsert nodes1 id { node with contents := c } }, false)

/-- `DiscreteWeave::merge_with_parent` for `IndependentWeave`. -/
def mergeWithParent (w : IWeave) (id : Nat) : IWeave × Option Nat :=
  match mfind w.nodes id with
  | none => (w, none)
  | some node =>
    let nodes1 := merase w.nodes id
    if node.fro.length ≠ 1 then ({ w with nodes := minsert nodes1 id node }, none)
    else
      match node.fro.head? with
      | none => ({ w with nodes := minsert nodes1 id node }, none)
      | some pid =>
        match mfind nodes1 pid with
        | none => ({ w with nodes := minsert nodes1 id node }, none)
        | some parent =>
          let nodes2 := merase nodes1 pid
          if parent.too.length > 1 then
            ({ w with nodes := minsert (minsert nodes2 pid parent) id node }, none)
          else
            match parent.contents.mergeWith node.contents with
            | .two l r =>
              ({ w with nodes :=
                  (minsert (minsert nodes2 pid { parent with contents := l }) id
                    { node with contents := r }) }, none)
            | .one c =>
              let parent1 : INode := { parent with contents := c, too := node.too }
              let nodes3 := parent1.too.foldl (fun acc ch =>
                  match mfind acc ch with
                  | some cn =>
                    let newFro :=
                      match cn.fro.findIdx? (fun x => decide (x = node.id)) with
                      | some i =>
                        if parent1.id ∈ cn.fro then cn.fro.eraseIdx i
                        else cn.fro.set i parent1.id
                      | none => sinsert cn.fro parent1.id
                    madjust acc ch (fun m => { m with fro := newFro })
                  | none => acc) nodes2
              ({ w with
                  nodes := minsert nodes3 parent1.id parent1,
                  bookmarked := w.bookmarked.erase node.id,
                  active := w.active.erase node.id }, some parent1.id)

/-- `IndexSet::from_iter` over a slice keeps the first occurrence of each
element, in order. -/
def dedupFirst (l : List Nat) : List Nat :=
  l.foldl sinsert []

/-- `IndependentWeave::move_node`. -/
def moveNode (w : IWeave) (id : Nat) (newParents : List Nat) : IWeave × Bool :=
  if ¬ newParents.all (fun p => decide (mcontains w.nodes p)) then (w, false)
  else
    let hasActiveNewParents := newParents.any (fun p =>
      match mfind w.nodes p with
      | some pn => pn.active
      | none => false)
    let nps := dedupFirst newParents
    if id ∈ nps then (w, false)
    else
      match mfind w.nodes id with
      | none => (w, false)
      | some node =>
        if node.too.any (fun c => decide (c ∈ nps)) then (w, false)
        else
          let oldParents := node.fro
          let w1 := oldParents.foldl (fun acc op =>
              if op ∉ nps then
                { acc with nodes :=
                    madjust acc.nodes op (fun m => { m with too := m.too.erase id }) }
              else acc) w
          let w2 := nps.foldl (fun acc np =>
              if np ∉ oldParents then
                { acc with nodes :=
                    madjust acc.nodes np (fun m => { m with too := sinsert m.too id }) }
              else acc) w1
          let w3 := { w2 with nodes := madjust w2.nodes id (fun m => { m with fro := nps }) }
          let w4 :=
            if nps = [] then { w3 with roots := sinsert w3.roots id }
            else { w3 with roots := w3.roots.erase id }
          match mfind w4.nodes id with
          | some n4 =>
            if n4.active ∧ ¬ hasActiveNewParents then
              match n4.fro.head? with
              | some fp => ((updateInPlace w4 fp true).1, true)
              | none => (w4, true)
            else (w4, true)
          | none => (w4, true)

/-- `DeduplicatableWeave::find_duplicates` for `IndependentWeave`. -/
def findDuplicates (w : IWeave) (id : Nat) : List Nat :=
  match mfind w.nodes id with
  | none => []
  | some node =>
    let sibs : List INode :=
      if node.active ∧ node.fro ≠ [] then siblingsFromActiveParents w node
      else (siblingIdsAllParents w node).filterMap (mfind w.nodes)
    (sibs.filter (fun s => V1.ncEq node.contents s.contents)).map (fun s => s.id)

end UWeave.Ind

namespace UWeave.Ind

/-! ## Thread reconstruction and validation (src/src/independent.rs) -/

/-- `build_thread` (fueled): Kahn-like DFS from an active root, descending
only into active children; a node is emitted only once every active member of
its `to` set already sits in the emitted set. -/
def buildThread (fuel : Nat) (nodes : List (Nat × INode)) (active : List Nat)
    (id : Nat) (tl ts : List Nat) : List Nat × List Nat :=
  match fuel with
  | 0 => (tl, ts)
  | fuel + 1 =>
    match mfind nodes id with
    | some n =>
      if (n.too.filter (fun p => decide (p ∈ active))).all (fun p => decide (p ∈ ts)) then
        n.too.foldl (fun (acc : List Nat × List Nat) c =>
            if c ∈ active then buildThread fuel nodes active c acc.1 acc.2 else acc)
          (tl ++ [id], ts ++ [id])
      else (tl, ts)
    | none => (tl, ts)

/-- `IndependentWeave::get_active_thread`: build from every active root, then
reverse (deepest first). -/
def getActiveThread (w : IWeave) (fuel : Nat) : List Nat :=
  ((w.roots.filter (fun r => decide (r ∈ w.active))).foldl
    (fun (acc : List Nat × List Nat) r => buildThread fuel w.nodes w.active r acc.1 acc.2)
    ([], [])).1.reverse

/-- `build_thread_from` (fueled): climb through first parents, stopping as
soon as a node has an active parent. -/
def buildThreadFrom (fuel : Nat) (nodes : List (Nat × INode)) (active : List Nat)
    (id : Nat) (tl ts : List Nat) : List Nat × List Nat :=
  match fuel with
  | 0 => (tl, ts)
  | fuel + 1 =>
    match mfind nodes id with
    | some n =>
      if n.fro.any (fun p => decide (p ∈ active)) then (tl ++ [id], ts ++ [id])
      else
        match n.fro.head? with
        | some p => buildThreadFrom fuel nodes active p (tl ++ [id]) (ts ++ [id])
        | none => (tl ++ [id], ts ++ [id])
    | none => (tl, ts)

/-- `build_thread_until` (fueled): as `build_thread` but stopping at the
`stop_at` set. -/
def buildThreadUntil (fuel : Nat) (nodes : List (Nat × INode)) (active : List Nat)
    (id : Nat) (stopAt : List Nat) (tl ts : List Nat) : List Nat × List Nat :=
  match fuel with
  | 0 => (tl, ts)
  | fuel + 1 =>
    if id ∈ stopAt then (tl, ts)
    else
      match mfind nodes id with
      | some n =>
        if (n.too.filter (fun p => decide (p ∈ active))).all (fun p => decide (p ∈ ts)) then
          n.too.foldl (fun (acc : List Nat × List Nat) c =>
              if c ∈ active then buildThreadUntil fuel nodes active c stopAt acc.1 acc.2
              else acc)
            (tl ++ [id], ts ++ [id])
        else (tl, ts)
      | none => (tl, ts)

/-- `IndependentWeave::get_thread_from`; `none` models the `unwrap` panic. -/
def getThreadFrom (w : IWeave) (fuel : Nat) (id : Nat) : Option (List Nat) :=
  let r := buildThreadFrom fuel w.nodes w.active id [] []
  let tl := r.1
  match tl.getLast? with
  | some last =>
    if last ∉ w.roots then
      match mfind w.nodes last with
      | none => none
      | some ln =>
        let stopAt := ln.fro.filter (fun p => decide (p ∈ w.active))
        let r2 := (w.roots.filter (fun rt => decide (rt ∈ w.active))).foldl
          (fun (acc : List Nat × List Nat) rt =>
            buildThreadUntil fuel w.nodes w.active rt stopAt acc.1 acc.2) ([], [])
        some (tl ++ r2.1.reverse)
    else some tl
  | none => some tl

/-- `Vec` index update used by `build_path`. -/
def listUpdate (l : List (List Nat)) (i : Nat) (f : List Nat → List Nat) :
    List (List Nat) :=
  match l.get? i with
  | some t => l.set i (f t)
  | none => l

/-- `IndependentWeave::build_path` (fueled). -/
def buildPath (fuel : Nat) (w : IWeave) (id : Nat) (threads : List (List Nat))
    (index : Nat) : List (List Nat) × Bool :=
  match fuel with
  | 0 => (threads, false)
  | fuel + 1 =>
    match mfind w.nodes id with
    | none => (threads, false)
    | some n =>
      let threads1 := listUpdate threads index (fun t => t ++ [n.id])
      let r := (n.too.filter (fun c => decide (c ∈ w.active))).foldl
        (fun (acc : List (List Nat) × Bool × Bool) c =>
          if ¬ acc.2.2 then acc
          else if ¬ acc.2.1 then
            let rr := buildPath fuel w c acc.1 index
            (rr.1, true, rr.2)
          else
            let t2 := acc.1 ++ [acc.1.getD index []]
            let rr := buildPath fuel w c t2 (t2.length - 1)
            (rr.1, true, rr.2)) (threads1, false, true)
      (r.1, r.2.2)

/-- `IndependentWeave::validate_active`; `none` models the panic of
`Vec::swap_remove` when there is no thread at the selected index. -/
def validateActive (w : IWeave) (fuel : Nat) : Option Bool :=
  let r := (w.roots.filter (fun rt => decide (rt ∈ w.active))).foldl
    (fun (acc : List (List Nat) × Bool) rt =>
      if ¬ acc.2 then acc
      else
        let t1 := acc.1 ++ [[]]
        let rr := buildPath fuel w rt t1 (t1.length - 1)
        (rr.1, rr.2)) ([], true)
  if ¬ r.2 then some false
  else
    let longest := r.1.enum.foldl
      (fun (best : Nat × Nat) ti => if ti.2.length > best.1 then (ti.2.length, ti.1) else best)
      (0, 0)
    match r.1.get? longest.2 with
    | none => none
    | some t => some (t.all (fun x => decide (x ∈ w.active)))

/-- The per-node conjunct of `IndependentWeave::validate`. -/
def nodeCheck (w : IWeave) (k : Nat) (v : INode) : Bool :=
  v.validate && decide (v.id = k) &&
    v.fro.all (fun p => decide (mcontains w.nodes p)) &&
    v.too.all (fun c => decide (mcontains w.nodes c)) &&
    (decide (v.fro = []) == decide (k ∈ w.roots)) &&
    (v.active == decide (k ∈ w.active)) &&
    (v.bookmarked == decide (k ∈ w.bookmarked)) &&
    v.fro.all (fun p =>
      match mfind w.nodes p with
      | some pn => decide (k ∈ pn.too)
      | none => false) &&
    v.too.all (fun c =>
      match mfind w.nodes c with
      | some cn => decide (k ∈ cn.fro)
      | none => false) &&
    (if v.active ∧ v.fro ≠ [] then v.fro.any (fun p => decide (p ∈ w.active)) else true)

/-- `IndependentWeave::validate`; `none` models a panic inside
`validate_active`. -/
def validate (w : IWeave) (fuel : Nat) : Option Bool :=
  if ¬ (w.roots.all fun r => decide (mcontains w.nodes r)) then some false
  else
    match validateActive w fuel with
    | none => none
    | some false => some false
    | some true =>
      if ¬ (w.active.all fun a => decide (mcontains w.nodes a)) then some false
      else if ¬ (w.bookmarked.all fun b => decide (mcontains w.nodes b)) then some false
      else some (w.nodes.all fun kv => nodeCheck w kv.1 kv.2)

/-- The empty DAG weave (`with_capacity`). -/
def emptyWeave : IWeave :=
  { nodes := [], roots := [], active := [], bookmarked := [], metadata := [] }

/-- A trivial payload for graph-level scenarios. -/
def nc0 : V1.NodeContent :=
  { modified := false, content := .snippet [], metadata := [], creator := none }

/-- A two-byte snippet payload. -/
def ncAB : V1.NodeContent :=
  { modified := false, content := .snippet [97, 98], metadata := [], creator := none }

end UWeave.Ind

namespace UWeave.Ind

/-! ## Concrete reachable scenarios -/

/-- C2 scenario: a diamond.  `1` is an active root, `2` an active child of
`1`, `3` an inactive node with parents `{1, 2}`. -/
def c2w1 : IWeave × Bool := addNode emptyWeave ⟨1, [], [], true, false, nc0⟩

def c2w2 : IWeave × Bool := addNode c2w1.1 ⟨2, [1], [], true, false, nc0⟩

def c2w3 : IWeave × Bool := addNode c2w2.1 ⟨3, [1, 2], [], false, false, nc0⟩

def c2w4 : IWeave × Bool := setActiveInPlace c2w3.1 3 true

/-- **C2, counterexample.** In a state reached from the empty DAG weave by
four public operations that each return success, activating node `3` (whose
parents `1` and `2` are both active) leaves node `1` active with the two
active children `2` and `3`: the no-two-active-children half of the
active-path invariant fails.  Node `2` is not deactivated because the sibling
filter of `update_node_activity_in_place_inner` skips siblings that are also
parents of the node being activated. -/
theorem activation_two_active_children_counterexample :
    c2w1.2 = true ∧ c2w2.2 = true ∧ c2w3.2 = true ∧ c2w4.2 = true ∧
    1 ∈ c2w4.1.active ∧ 2 ∈ c2w4.1.active ∧ 3 ∈ c2w4.1.active ∧
    (mfind c2w4.1.nodes 1).map INode.active = some true ∧
    (mfind c2w4.1.nodes 1).map INode.too = some [2, 3] ∧
    (mfind c2w4.1.nodes 2).map INode.active = some true ∧
    (mfind c2w4.1.nodes 3).map INode.active = some true := by decide

/-- C4 scenario: an inactive root `1`, an active root `2` (so that
`validate_active` does not panic), then `3` inserted above `1` via its `to`
set. -/
def c4w1 : IWeave × Bool := addNode emptyWeave ⟨1, [], [], false, false, nc0⟩

def c4w2 : IWeave × Bool := addNode c4w1.1 ⟨2, [], [], true, false, nc0⟩

def c4w3 : IWeave × Bool := addNode c4w2.1 ⟨3, [], [1], false, false, nc0⟩

/-- **C4.** Inserting node `3` above the existing inactive root `1` succeeds,
but `1` is *not* removed from `roots` (the source only unroots referenced
children that are active), even though `1`'s parent set gains `3`; the
root-membership invariant `k ∈ roots ↔ parents(k) = ∅` is broken, and
`validate()` — which `add_node` itself asserts via `debug_ensures` — returns
`false` on the resulting weave. -/
theorem add_node_inactive_root_child_bug :
    c4w1.2 = true ∧ c4w2.2 = true ∧ c4w3.2 = true ∧
    1 ∈ c4w3.1.roots ∧
    (mfind c4w3.1.nodes 1).map INode.fro = some [3] ∧
    validate c4w3.1 8 = some false := by decide

/-- C5 scenario: active root `1` (two-byte snippet) with active child `2`;
then `1` is split at byte 1 creating node `3`. -/
def c5w1 : IWeave × Bool := addNode emptyWeave ⟨1, [], [], true, false, ncAB⟩

def c5w2 : IWeave × Bool := addNode c5w1.1 ⟨2, [1], [], true, false, nc0⟩

def c5w3 : IWeave × Bool := splitNode c5w2.1 1 1 3

/-- **C5.** `split_node` succeeds on the active chain `1 → 2`, and the newly
created right node `3` ends with its `active` flag set to `true` (because its
inherited child `2` is active) while `3` is never inserted into the weave's
active store: the flag/store consistency invariant fails, and `validate()` —
which `split_node` itself asserts via `debug_ensures` — returns `false`. -/
theorem split_node_active_flag_store_bug :
    c5w1.2 = true ∧ c5w2.2 = true ∧ c5w3.2 = true ∧
    (mfind c5w3.1.nodes 3).map INode.active = some true ∧
    3 ∉ c5w3.1.active ∧
    validate c5w3.1 8 = some false := by decide

/-- C9 scenario: active root `1` with inactive child `2`. -/
def c9w1 : IWeave × Bool := addNode emptyWeave ⟨1, [], [], true, false, nc0⟩

def c9w2 : IWeave × Bool := addNode c9w1.1 ⟨2, [1], [], false, false, nc0⟩

/-- **C9, counterexample.** In a state reached from the empty DAG weave by two
successful `add_node` calls, `get_thread_from(2)` returns the non-empty
sequence `[2]`, which does not end at a root: the walk stops at `2` because
its parent `1` is active, and the active-thread extension is empty because the
only active root `1` is in the walk's stop set.  (The returned value is `some`
— the call terminates without panicking — yet the thread ends at a node with a
non-empty parent set.) -/
theorem thread_from_does_not_end_at_root :
    c9w1.2 = true ∧ c9w2.2 = true ∧
    getThreadFrom c9w2.1 8 2 = some [2] ∧
    2 ∉ c9w2.1.roots ∧
    (mfind c9w2.1.nodes 2).map INode.fro = some [1] := by decide

end UWeave.Ind

namespace UWeave.Ind

theorem buildThread_fold_prefix (fuel : Nat) (nodes : List (Nat × INode))
    (active : List Nat)
    (h : ∀ id tl ts, ∃ suff, (buildThread fuel nodes active id tl ts).1 = tl ++ suff)
    (l : List Nat) :
    ∀ tl ts, ∃ suff,
      (l.foldl (fun (acc : List Nat × List Nat) c =>
        if c ∈ active then buildThread fuel nodes active c acc.1 acc.2 else acc)
        (tl, ts)).1 = tl ++ suff := by
  induction l with
  | nil => intro tl ts; exact ⟨[], by simp⟩
  | cons c rest ihl =>
    intro tl ts
    simp only [List.foldl_cons]
    by_cases hc : c ∈ active
    · rw [if_pos hc]
      obtain ⟨s1, hs1⟩ := h c tl ts
      obtain ⟨s2, hs2⟩ := ihl (buildThread fuel nodes active c tl ts).1
        (buildThread fuel nodes active c tl ts).2
      exact ⟨s1 ++ s2, by rw [hs2, hs1, List.append_assoc]⟩
    · rw [if_neg hc]
      exact ihl tl ts

theorem buildThread_stem (nodes : List (Nat × INode)) (active : List Nat) :
    ∀ fuel id tl ts, ∃ suff, (buildThread fuel nodes active id tl ts).1 = tl ++ suff := by
  intro fuel
  induction fuel with
  | zero => intro id tl ts; exact ⟨[], by simp [buildThread]⟩
  | succ fuel ih =>
    intro id tl ts
    unfold buildThread
    cases hf : mfind nodes id with
    | none => exact ⟨[], by simp⟩
    | some n =>
      simp only
      by_cases hg : ((n.too.filter (fun p => decide (p ∈ active))).all
          (fun p => decide (p ∈ ts))) = true
      · rw [if_pos hg]
        obtain ⟨suff, hsuff⟩ :=
          buildThread_fold_prefix fuel nodes active ih n.too (tl ++ [id]) (ts ++ [id])
        exact ⟨[id] ++ suff, by rw [hsuff, List.append_assoc]⟩
      · rw [if_neg hg]
        exact ⟨[], by simp⟩

theorem buildThread_head (nodes : List (Nat × INode)) (active : List Nat)
    (fuel id : Nat) (ts : List Nat) :
    (buildThread fuel nodes active id [] ts).1 = [] ∨
    ∃ suff, (buildThread fuel nodes active id [] ts).1 = id :: suff := by
  cases fuel with
  | zero => exact Or.inl rfl
  | succ fuel =>
    unfold buildThread
    cases hf : mfind nodes id with
    | none => exact Or.inl rfl
    | some n =>
      simp only
      by_cases hg : ((n.too.filter (fun p => decide (p ∈ active))).all
          (fun p => decide (p ∈ ts))) = true
      · rw [if_pos hg]
        obtain ⟨suff, hsuff⟩ := buildThread_fold_prefix fuel nodes active
          (buildThread_stem nodes active fuel) n.too ([] ++ [id]) (ts ++ [id])
        exact Or.inr ⟨suff, by simpa using hsuff⟩
      · rw [if_neg hg]
        exact Or.inl rfl

/-- Head invariant of the fold over active roots in `get_active_thread`. -/
theorem getActiveThread_fold_head (w : IWeave) (fuel : Nat) :
    ∀ (rs : List Nat), (∀ r ∈ rs, r ∈ w.roots ∧ r ∈ w.active) →
    ∀ (tl ts : List Nat),
      (tl = [] ∨ ∃ r0 suff, tl = r0 :: suff ∧ r0 ∈ w.roots ∧ r0 ∈ w.active) →
      ((rs.foldl (fun (acc : List Nat × List Nat) r =>
          buildThread fuel w.nodes w.active r acc.1 acc.2) (tl, ts)).1 = [] ∨
        ∃ r0 suff,
          (rs.foldl (fun (acc : List Nat × List Nat) r =>
            buildThread fuel w.nodes w.active r acc.1 acc.2) (tl, ts)).1 = r0 :: suff ∧
          r0 ∈ w.roots ∧ r0 ∈ w.active) := by
  intro rs
  induction rs with
  | nil => intro _ tl ts hinv; simpa using hinv
  | cons r rest ihr =>
    intro hmem tl ts hinv
    simp only [List.foldl_cons]
    have hstep : (buildThread fuel w.nodes w.active r tl ts).1 = [] ∨
        ∃ r0 suff, (buildThread fuel w.nodes w.active r tl ts).1 = r0 :: suff ∧
          r0 ∈ w.roots ∧ r0 ∈ w.active := by
      rcases hinv with hnil | ⟨r0, suff, htl, hr0, ha0⟩
      · subst hnil
        rcases buildThread_head w.nodes w.active fuel r ts with hne | ⟨suff, hsuff⟩
        · exact Or.inl hne
        · exact Or.inr ⟨r, suff, hsuff, (hmem r (by simp)).1, (hmem r (by simp)).2⟩
      · obtain ⟨s2, hs2⟩ := buildThread_stem w.nodes w.active fuel r tl ts
        exact Or.inr ⟨r0, suff ++ s2, by rw [hs2, htl]; simp, hr0, ha0⟩
    have := ihr (fun x hx => hmem x (by simp [hx]))
      (buildThread fuel w.nodes w.active r tl ts).1
      (buildThread fuel w.nodes w.active r tl ts).2 hstep
    simpa using this

/-- **C9 (amended).** For every DAG weave state satisfying the
root-membership invariant and every fuel, the sequence produced by
`get_active_thread` is either empty or ends (its last element, the shallowest
node of the reversed output) at a node that is a member of `roots`, is
active, and has an empty parent set.  (The original claim also asserted this
of `get_thread_from`, which is refuted by the counterexample: its walk can
stop at a node with an active parent and an empty extension.) -/
theorem active_thread_empty_or_ends_at_root (w : IWeave) (fuel : Nat)
    (hrm : ∀ r ∈ w.roots, ∀ n, mfind w.nodes r = some n → n.fro = []) :
    getActiveThread w fuel = [] ∨
    ∃ r, (getActiveThread w fuel).getLast? = some r ∧ r ∈ w.roots ∧ r ∈ w.active ∧
      (∀ n, mfind w.nodes r = some n → n.fro = []) := by
  unfold getActiveThread
  have hfold := getActiveThread_fold_head w fuel
    (w.roots.filter (fun r => decide (r ∈ w.active)))
    (fun r hr => by
      simp only [List.mem_filter, decide_eq_true_eq] at hr
      exact ⟨hr.1, hr.2⟩)
    [] [] (Or.inl rfl)
  rcases hfold with hnil | ⟨r0, suff, hlist, hr0, ha0⟩
  · left; rw [hnil]; rfl
  · right
    refine ⟨r0, ?_, hr0, ha0, fun n hn => hrm r0 hr0 n hn⟩
    rw [List.getLast?_reverse, hlist]
    rfl

/-- Witness scenario for the amended C9 theorem: one active root. -/
def c9aw : IWeave :=
  { nodes := [(1, ⟨1, [], [], true, false, nc0⟩)],
    roots := [1], active := [1], bookmarked := [], metadata := [] }

/-- Witness: on a single-active-root weave the active thread ends at that
root. -/
theorem active_thread_empty_or_ends_at_root_witness :
    getActiveThread c9aw 4 = [] ∨
    ∃ r, (getActiveThread c9aw 4).getLast? = some r ∧ r ∈ c9aw.roots ∧
      r ∈ c9aw.active ∧ (∀ n, mfind c9aw.nodes r = some n → n.fro = []) :=
  active_thread_empty_or_ends_at_root c9aw 4 (by decide)

end UWeave.Ind

namespace UWeave

theorem foldl_induction {α β : Type} (f : α → β → α) (P : α → Prop)
    (hf : ∀ a b, P a → P (f a b)) :
    ∀ (l : List β) (a : α), P a → P (l.foldl f a) := by
  intro l
  induction l with
  | nil => intro a ha; exact ha
  | cons b rest ih => intro a ha; exact ih (f a b) (hf a b ha)

theorem mcontains_iff_mem {α : Type} (m : List (Nat × α)) (k : Nat) :
    mcontains m k ↔ k ∈ m.map Prod.fst := by
  induction m with
  | nil => simp [mcontains, mfind]
  | cons kv rest ih =>
    by_cases h : kv.1 = k
    · simp [mcontains, mfind, h]
    · have hstep : mcontains (kv :: rest) k ↔ mcontains rest k := by
        simp [mcontains, mfind, h]
      rw [hstep, ih, List.map_cons, List.mem_cons]
      constructor
      · exact Or.inr
      · rintro (he | hm)
        · exact absurd he.symm h
        · exact hm

theorem keys_madjust {α : Type} (m : List (Nat × α)) (k : Nat) (f : α → α) :
    (madjust m k f).map Prod.fst = m.map Prod.fst := by
  induction m with
  | nil => rfl
  | cons kv rest ih =>
    by_cases h : kv.1 = k
    · simp [madjust, h]
    · simp [madjust, h, ih]

theorem keys_merase {α : Type} (m : List (Nat × α)) (k : Nat) :
    (merase m k).map Prod.fst = (m.map Prod.fst).erase k := by
  induction m with
  | nil => rfl
  | cons kv rest ih =>
    by_cases h : kv.1 = k
    · subst h; simp [merase, List.erase_cons]
    · simp [merase, h, ih, List.erase_cons, fun he => h he]

theorem keys_minsert {α : Type} (m : List (Nat × α)) (k : Nat) (v : α) :
    (minsert m k v).map Prod.fst =
      if k ∈ m.map Prod.fst then m.map Prod.fst else m.map Prod.fst ++ [k] := by
  induction m with
  | nil => simp [minsert]
  | cons kv rest ih =>
    by_cases h : kv.1 = k
    · simp [minsert, h]
    · simp only [minsert, if_neg h, List.map_cons, ih]
      have h' : ¬ k = kv.1 := fun he => h he.symm
      by_cases hm : k ∈ rest.map Prod.fst
      · simp [hm, h']
      · simp [hm, h']

theorem nodup_madjust {α : Type} (m : List (Nat × α)) (k : Nat) (f : α → α)
    (h : NodupKeys m) : NodupKeys (madjust m k f) := by
  unfold NodupKeys at *
  rw [keys_madjust]; exact h

theorem nodup_merase {α : Type} (m : List (Nat × α)) (k : Nat)
    (h : NodupKeys m) : NodupKeys (merase m k) := by
  unfold NodupKeys at *
  rw [keys_merase]; exact List.Nodup.erase k h

theorem nodup_minsert {α : Type} (m : List (Nat × α)) (k : Nat) (v : α)
    (h : NodupKeys m) : NodupKeys (minsert m k v) := by
  unfold NodupKeys at *
  rw [keys_minsert]
  by_cases hm : k ∈ m.map Prod.fst
  · simpa [hm] using h
  · simp only [hm, if_false]
    exact List.Nodup.append h (List.nodup_singleton k) (by simpa using hm)

end UWeave

namespace UWeave.Ind

/-- The node-key list of a weave. -/
def keys (w : IWeave) : List Nat := w.nodes.map Prod.fst

theorem urca_keys : ∀ (fuel : Nat) (w : IWeave) (id : Nat),
    keys (urca fuel w id).1 = keys w := by
  intro fuel
  induction fuel with
  | zero => intro w id; rfl
  | succ fuel ih =>
    intro w id
    unfold urca
    cases hf : mfind w.nodes id with
    | none => rfl
    | some n =>
      simp only
      by_cases ha : n.active = false
      · rw [if_pos ha]
      · rw [if_neg ha]
        by_cases hp : (n.fro.any fun p => decide (p ∈ w.active)) = true
        · rw [if_pos hp]
        · rw [if_neg hp]
          simp only
          refine foldl_induction _ (fun x => keys x = keys w) ?_ n.too _ ?_
          · intro a c hkeys
            rw [ih a c]; exact hkeys
          · simp [keys, keys_madjust]

theorem innerAct_keys : ∀ (fuel : Nat) (w : IWeave) (q : List Nat) (id : Nat)
    (value start : Bool), keys (innerAct fuel w q id value start).1 = keys w := by
  intro fuel
  induction fuel with
  | zero => intro w q id value start; rfl
  | succ fuel ih =>
    intro w q id value start
    unfold innerAct
    cases hf : mfind w.nodes id with
    | none => rfl
    | some n =>
      simp only
      by_cases hv : n.active = value
      · rw [if_pos hv]
      · rw [if_neg hv]
        have hres : ∀ res : IWeave × List Nat,
            keys res.1 = keys w →
            keys (match mfind res.1.nodes id with
              | some _ =>
                let w2 : IWeave := { res.1 with
                  nodes := madjust res.1.nodes id (fun m => { m with active := value }),
                  active := if value then sinsert res.1.active id else res.1.active.erase id }
                if start then
                  (res.2.foldl (fun acc item => (urca fuel acc item).1) w2, res.2, true)
                else (w2, res.2, true)
              | none => (res.1, res.2, false) : IWeave × List Nat × Bool).1 = keys w := by
          intro res hkeys
          cases hfi : mfind res.1.nodes id with
          | none => simpa using hkeys
          | some _ =>
            simp only
            by_cases hs : start = true
            · rw [if_pos hs]
              refine foldl_induction _ (fun x => keys x = keys w) ?_ res.2 _ ?_
              · intro a c hk; rw [urca_keys fuel a c]; exact hk
              · simpa [keys, keys_madjust] using hkeys
            · rw [if_neg hs]
              simpa [keys, keys_madjust] using hkeys
        apply hres
        by_cases hval : value = true
        · subst hval
          simp only [if_pos rfl]
          by_cases hap : ((allParentIdsOrRoots w n).any fun p => decide (p ∈ w.active)) = true
          · rw [if_pos hap]
            refine foldl_induction _ (fun x : IWeave × List Nat => keys x.1 = keys w) ?_ _ _ rfl
            intro a s hk
            simp only
            rw [ih a.1 a.2 s false false]; exact hk
          · rw [if_neg hap]
            cases n.fro.head? with
            | some p => simpa using ih w _ p true false
            | none => rfl
        · have : value = false := by revert hval; cases value <;> simp
          subst this
          rfl

theorem removeAux_keys_subset : ∀ (fuel : Nat) (w : IWeave) (id : Nat),
    keys (removeAux fuel w id).1 ⊆ keys w := by
  intro fuel
  induction fuel with
  | zero => intro w id; exact fun x hx => hx
  | succ fuel ih =>
    intro w id
    unfold removeAux
    cases hf : mfind w.nodes id with
    | none => exact fun x hx => hx
    | some n =>
      simp only
      have h1 : keys ({ w with
          nodes := merase w.nodes id,
          roots := w.roots.erase id,
          bookmarked := w.bookmarked.erase id,
          active := w.active.erase id } : IWeave) ⊆ keys w := by
        simp only [keys, keys_merase]
        exact fun x hx => List.erase_subset _ _ hx
      refine List.Subset.trans ?_ h1
      refine foldl_induction _
        (fun x => keys x ⊆ keys { w with
          nodes := merase w.nodes id,
          roots := w.roots.erase id,
          bookmarked := w.bookmarked.erase id,
          active := w.active.erase id }) ?_ n.too _ ?_
      · intro a c hsub
        cases mfind a.nodes c with
        | none => exact hsub
        | some _ =>
          simp only
          cases hfi : mfind (madjust a.nodes c fun cn => { cn with fro := cn.fro.erase n.id }) c with
          | none => simpa [keys, keys_madjust] using hsub
          | some cn1 =>
            simp only
            by_cases he : cn1.fro = []
            · rw [if_pos he]
              refine List.Subset.trans (ih _ c) ?_
              simpa [keys, keys_madjust] using hsub
            · rw [if_neg he]
              by_cases hna : n.active ∧ cn1.active
              · rw [if_pos hna]
                rw [urca_keys]
                simpa [keys, keys_madjust] using hsub
              · rw [if_neg hna]
                simpa [keys, keys_madjust] using hsub
      · refine foldl_induction _ (fun x => keys x ⊆ _) ?_ n.fro _ (fun x hx => hx)
        intro a p hsub
        simpa [keys, keys_madjust] using hsub

theorem removeAux_not_mem (fuel : Nat) (w : IWeave) (id : Nat)
    (hnd : NodupKeys w.nodes) (hfuel : 1 ≤ fuel) :
    id ∉ keys (removeAux fuel w id).1 := by
  cases fuel with
  | zero => omega
  | succ fuel =>
    unfold removeAux
    cases hf : mfind w.nodes id with
    | none =>
      simp only
      intro hmem
      have hc : mcontains w.nodes id := (mcontains_iff_mem w.nodes id).mpr hmem
      simp [mcontains, hf] at hc
    | some n =>
      simp only
      refine foldl_induction _ (fun x => id ∉ keys x) ?_ n.too _ ?_
      · intro a c hna
        cases mfind a.nodes c with
        | none => exact hna
        | some _ =>
          simp only
          cases hfi : mfind (madjust a.nodes c fun cn => { cn with fro := cn.fro.erase n.id }) c with
          | none => simpa [keys, keys_madjust] using hna
          | some cn1 =>
            simp only
            by_cases he : cn1.fro = []
            · rw [if_pos he]
              intro hmm
              refine absurd (removeAux_keys_subset fuel _ c hmm) ?_
              simpa [keys, keys_madjust] using hna
            · rw [if_neg he]
              by_cases hact : n.active ∧ cn1.active
              · rw [if_pos hact]
                rw [urca_keys]
                simpa [keys, keys_madjust] using hna
              · rw [if_neg hact]
                simpa [keys, keys_madjust] using hna
      · refine foldl_induction _ (fun x => id ∉ keys x) ?_ n.fro _ ?_
        · intro a p hna
          simpa [keys, keys_madjust] using hna
        · simp only [keys, keys_merase]
          exact List.Nodup.not_mem_erase hnd

end UWeave.Ind

namespace UWeave.Ind

theorem updateInPlace_keys (w : IWeave) (id : Nat) (value : Bool) :
    keys (updateInPlace w id value).1 = keys w := by
  unfold updateInPlace
  exact innerAct_keys _ w [] id value true

theorem addNodeInherit_keys (w : IWeave) (n : INode) :
    keys (addNodeInherit w n).1 = keys w := by
  unfold addNodeInherit
  refine foldl_induction _ (fun x : IWeave × Bool => keys x.1 = keys w) ?_ n.too _ rfl
  intro a c ha
  cases mfind a.1.nodes c with
  | none => exact ha
  | some cn =>
    simp only
    split
    · exact ha
    · exact ha

theorem addNodeRootCase_keys (w1 : IWeave) (n : INode) (nActive : Bool) :
    keys (addNodeRootCase w1 n nActive) = keys w1 := by
  unfold addNodeRootCase
  split
  · refine foldl_induction _ (fun x : IWeave => keys x = keys w1) ?_ _ _ rfl
    intro a r ha
    rw [show keys (updateInPlace a r false).1 = keys a from updateInPlace_keys a r false]
    exact ha
  · rfl

theorem addNodeParentCase_keys (w1 : IWeave) (n : INode) (nActive : Bool) :
    keys (addNodeParentCase w1 n nActive) = keys w1 := by
  unfold addNodeParentCase
  have hbase : ∀ w2 : IWeave, keys w2 = keys w1 →
      keys (n.fro.foldl (fun acc p =>
        { acc with nodes :=
            madjust acc.nodes p (fun pn => { pn with too := sinsert pn.too n.id }) }) w2) =
        keys w1 := by
    intro w2 h2
    refine foldl_induction _ (fun x : IWeave => keys x = keys w1) ?_ n.fro w2 h2
    intro a p ha
    simpa [keys, keys_madjust] using ha
  apply hbase
  split
  · have h2a : ∀ w2a : IWeave, keys w2a = keys w1 →
        keys ((((n.fro.filterMap (mfind w2a.nodes)).flatMap
            (fun pn => pn.too.filter (fun x => decide (x ≠ n.id)))).filter
          (fun s => decide (s ∈ w2a.active))).foldl
          (fun acc s => (updateInPlace acc s false).1) w2a) = keys w1 := by
      intro w2a h
      refine foldl_induction _ (fun x : IWeave => keys x = keys w1) ?_ _ w2a h
      intro a s ha
      rw [updateInPlace_keys]; exact ha
    apply h2a
    split
    · split
      · rw [updateInPlace_keys]
      · rfl
    · rfl
  · rfl

theorem addNode_nodup (w : IWeave) (n : INode) (hnd : NodupKeys w.nodes) :
    NodupKeys ((addNode w n).1.nodes) := by
  unfold addNode
  split
  · exact hnd
  · simp only
    unfold addNodeFinish
    apply nodup_minsert
    have h4 : ∀ w3 : IWeave, NodupKeys w3.nodes →
        NodupKeys ((n.too.foldl (fun acc c =>
          { acc with nodes :=
              madjust acc.nodes c (fun cn => { cn with fro := sinsert cn.fro n.id }) }) w3).nodes) := by
      intro w3 h3
      refine foldl_induction _ (fun x : IWeave => NodupKeys x.nodes) ?_ n.too w3 h3
      intro a c ha
      exact nodup_madjust _ _ _ ha
    have hnd3 : NodupKeys ((if n.fro = [] then
        addNodeRootCase (addNodeInherit w n).1 n (addNodeInherit w n).2
        else addNodeParentCase (addNodeInherit w n).1 n (addNodeInherit w n).2)).nodes := by
      have hkeys : keys (if n.fro = [] then
          addNodeRootCase (addNodeInherit w n).1 n (addNodeInherit w n).2
          else addNodeParentCase (addNodeInherit w n).1 n (addNodeInherit w n).2) = keys w := by
        split
        · rw [addNodeRootCase_keys, addNodeInherit_keys]
        · rw [addNodeParentCase_keys, addNodeInherit_keys]
      show ((keys _).Nodup)
      rw [hkeys]
      exact hnd
    split <;> split <;> exact h4 _ hnd3

theorem updateInPlace_nodup (w : IWeave) (id : Nat) (value : Bool)
    (hnd : NodupKeys w.nodes) : NodupKeys (updateInPlace w id value).1.nodes := by
  show (keys _).Nodup
  rw [updateInPlace_keys]
  exact hnd

end UWeave.Ind

namespace UWeave.V1App

open UWeave.Ind

/-! ## The v1 application layer (src/tapestry-weave/src/v1.rs) -/

/-- `v1::TapestryWeave`: the DAG weave plus the cached active thread and the
change flags. -/
structure TapestryWeave where
  weave : IWeave
  active : List Nat
  changed : Bool
  changedShape : Bool

/-- `TapestryWeave::update_shape_and_active` (the thread rebuild is fueled). -/
def updateShapeAndActive (w : TapestryWeave) (fuel : Nat) : TapestryWeave :=
  { w with
    changed := true,
    changedShape := true,
    active := getActiveThread w.weave fuel }

/-- `v1::TapestryWeave::add_node`: insert through the underlying weave, then
remove the node again if its contents duplicate a sibling's, re-activating a
duplicate when the removed node was active. -/
def addNodeDedup (w : TapestryWeave) (n : INode) (fuel : Nat) :
    TapestryWeave × Bool :=
  let lastActiveSet := if n.active then w.active else []
  let r := addNode w.weave n
  if r.2 then
    let dups := findDuplicates r.1 n.id
    let w2 :=
      if dups ≠ [] then
        let w1 :=
          if n.active then
            match dups.find? (fun d => decide (d ∈ lastActiveSet)) with
            | some d => (setActiveInPlace r.1 d true).1
            | none =>
              match dups.head? with
              | some d => (setActiveInPlace r.1 d true).1
              | none => r.1
          else r.1
        (removeNode w1 n.id).1
      else r.1
    (updateShapeAndActive { w with weave := w2 } fuel, true)
  else ({ w with weave := r.1 }, false)

/-- **C10.** For the v1 application-level `add_node`: whenever the underlying
weave insertion succeeds but the inserted node's contents duplicate an
existing sibling's (`find_duplicates` is non-empty after insertion), the call
still returns `true`, yet the weave no longer contains the added node's id —
so a `true` return does not imply membership of the id. -/
theorem add_node_dedup_true_but_absent (w : TapestryWeave) (n : INode)
    (fuel : Nat) (hnd : NodupKeys w.weave.nodes)
    (hstatus : (addNode w.weave n).2 = true)
    (hdups : findDuplicates (addNode w.weave n).1 n.id ≠ []) :
    (addNodeDedup w n fuel).2 = true ∧
    ¬ mcontains (addNodeDedup w n fuel).1.weave.nodes n.id := by
  have hnd1 : NodupKeys ((addNode w.weave n).1.nodes) := addNode_nodup w.weave n hnd
  have hrem : ∀ w1 : IWeave, NodupKeys w1.nodes →
      ¬ mcontains (removeNode w1 n.id).1.nodes n.id := by
    intro w1 h1 hmem
    rw [mcontains_iff_mem] at hmem
    exact removeAux_not_mem _ w1 n.id h1 (by omega) hmem
  unfold addNodeDedup
  rw [if_pos hstatus]
  simp only [hdups, ne_eq, not_false_eq_true, if_true]
  refine ⟨trivial, ?_⟩
  apply hrem
  split
  · split
    · exact updateInPlace_nodup _ _ _ hnd1
    · split
      · exact updateInPlace_nodup _ _ _ hnd1
      · exact hnd1
  · exact hnd1

/-- Witness scenario for C10: a root `1` with content `x`, then a second
root `2` with identical content added active. -/
def c10w0 : TapestryWeave :=
  { weave := (addNode emptyWeave ⟨1, [], [], false, false, nc0⟩).1,
    active := [], changed := false, changedShape := false }

def c10n : INode := ⟨2, [], [], true, false, nc0⟩

/-- Witness: the duplicate insertion returns `true` and the id is absent. -/
theorem add_node_dedup_true_but_absent_witness :
    (addNodeDedup c10w0 c10n 8).2 = true ∧
    ¬ mcontains (addNodeDedup c10w0 c10n 8).1.weave.nodes c10n.id :=
  add_node_dedup_true_but_absent c10w0 c10n 8 (by decide) (by decide) (by decide)

end UWeave.V1App

namespace UWeave.Dep

/-! ## The tree weave (src/src/dependent.rs)

`DependentNode.from` is renamed `fro` and `to` is renamed `too` (Lean
keywords). -/

structure DNode where
  id : Nat
  fro : Option Nat
  too : List Nat
  active : Bool
  bookmarked : Bool
  contents : V0.NodeContent
deriving DecidableEq, Repr

structure DWeave where
  nodes : List (Nat × DNode)
  roots : List Nat
  active : Option Nat
  bookmarked : List Nat
  metadata : List (String × String)
deriving DecidableEq, Repr

/-- `DependentNode::validate`. -/
def DNode.validate (n : DNode) : Bool :=
  (match n.fro with
   | some f => decide (f ∉ n.too)
   | none => true) &&
    decide (n.fro ≠ some n.id) && decide (n.id ∉ n.too)

/-- `dependent::build_thread` (fueled): the node, then its ancestors. -/
def buildThread (fuel : Nat) (nodes : List (Nat × DNode)) (id : Nat) : List Nat :=
  match fuel with
  | 0 => []
  | fuel + 1 =>
    match mfind nodes id with
    | some n =>
      id :: (match n.fro with
             | some p => buildThread fuel nodes p
             | none => [])
    | none => []

/-- `Weave::get_active_thread` for `DependentWeave`. -/
def getActiveThread (w : DWeave) (fuel : Nat) : List Nat :=
  match w.active with
  | some a => buildThread fuel w.nodes a
  | none => []

/-- `Weave::get_thread_from` for `DependentWeave`. -/
def getThreadFrom (w : DWeave) (fuel : Nat) (id : Nat) : List Nat :=
  buildThread fuel w.nodes id

/-- Validity check at the top of `DependentWeave::add_node`. -/
def addNodeInvalid (w : DWeave) (n : DNode) : Bool :=
  decide (mcontains w.nodes n.id) || ! n.validate || ! decide (n.too = [])

/-- `Weave::add_node` for `DependentWeave`. -/
def addNode (w : DWeave) (n : DNode) : DWeave × Bool :=
  if addNodeInvalid w n then (w, false)
  else
    match n.fro with
    | some f =>
      match mfind w.nodes f with
      | some _ => (addNodeFinish
          { w with nodes :=
              madjust w.nodes f (fun pn => { pn with too := sinsert pn.too n.id }) } n, true)
      | none => (w, false)
    | none => (addNodeFinish { w with roots := sinsert w.roots n.id } n, true)
where
  /-- Active takeover, bookmark insertion and the map insertion. -/
  addNodeFinish (w1 : DWeave) (n : DNode) : DWeave :=
    let w2 :=
      if n.active then
        let w1a :=
          match w1.active with
          | some a =>
            { w1 with nodes := madjust w1.nodes a (fun m => { m with active := false }) }
          | none => w1
        { w1a with active := some n.id }
      else w1
    let w3 := if n.bookmarked then { w2 with bookmarked := sinsert w2.bookmarked n.id } else w2
    { w3 with nodes := minsert w3.nodes n.id n }

/-- `Weave::set_node_active_status_in_place` for `DependentWeave`. -/
def setActiveInPlace (w : DWeave) (id : Nat) (value : Bool) : DWeave × Bool :=
  match mfind w.nodes id with
  | none => (w, false)
  | some _ =>
    let w1 : DWeave :=
      { w with nodes := madjust w.nodes id (fun m => { m with active := value }) }
    if value then
      let w2 :=
        if w1.active ≠ some id then
          match w1.active with
          | some a =>
            { w1 with nodes := madjust w1.nodes a (fun m => { m with active := false }) }
          | none => w1
        else w1
      ({ w2 with active := some id }, true)
    else
      if w1.active = some id then ({ w1 with active := none }, true)
      else (w1, true)

/-- `Weave::set_node_active_status` for `DependentWeave`: both modes delegate
to the in-place variant. -/
def setActive (w : DWeave) (id : Nat) (value : Bool) (_alternate : Bool) :
    DWeave × Bool :=
  setActiveInPlace w id value

/-- `Weave::set_node_bookmarked_status` for `DependentWeave`. -/
def setBookmarked (w : DWeave) (id : Nat) (value : Bool) : DWeave × Bool :=
  match mfind w.nodes id with
  | some _ =>
    let w1 : DWeave :=
      { w with nodes := madjust w.nodes id (fun m => { m with bookmarked := value }) }
    if value then ({ w1 with bookmarked := sinsert w1.bookmarked id }, true)
    else ({ w1 with bookmarked := w1.bookmarked.erase id }, true)
  | none => (w, false)

/-- Stage of `DependentWeave::remove_node_unverified` after the cascade: when
the removed node was active, hand the active state to its parent (flag and
store) if that parent survived, else clear the store. -/
def removeStage3 (n : DNode) (w2 : DWeave) : DWeave :=
  if n.active then
    match n.fro with
    | some p =>
      if mcontains w2.nodes p then
        { w2 with
          nodes := madjust w2.nodes p (fun m => { m with active := true }),
          active := some p }
      else { w2 with active := none }
    | none => { w2 with active := none }
  else w2

/-- Final stage of `remove_node_unverified`: drop the removed id from the
parent's child set. -/
def removeStage4 (n : DNode) (id : Nat) (w3 : DWeave) : DWeave :=
  match n.fro with
  | some p =>
    { w3 with nodes := madjust w3.nodes p (fun m => { m with too := m.too.erase id }) }
  | none => w3

/-- `DependentWeave::remove_node_unverified` (fueled): remove the node, then
every descendant, then hand the active state to the parent of an active
removed node, then fix the parent's child set. -/
def removeAux (fuel : Nat) (w : DWeave) (id : Nat) : DWeave × Option DNode :=
  match fuel with
  | 0 => (w, none)
  | fuel + 1 =>
    match mfind w.nodes id with
    | none => (w, none)
    | some n =>
      let w1 : DWeave := { w with
        nodes := merase w.nodes id,
        roots := w.roots.erase id,
        bookmarked := w.bookmarked.erase id }
      let w2 := n.too.foldl (fun acc c => (removeAux fuel acc c).1) w1
      (removeStage4 n id (removeStage3 n w2), some n)

/-- `Weave::remove_node` for `DependentWeave`. -/
def removeNode (w : DWeave) (id : Nat) : DWeave × Option DNode :=
  removeAux (w.nodes.length + 1) w id

/-- `DiscreteWeave::split_node` for `DependentWeave`. -/
def splitNode (w : DWeave) (id : Nat) (at_ : Nat) (newId : Nat) : DWeave × Bool :=
  if mcontains w.nodes newId ∨ id = newId then (w, false)
  else
    match mfind w.nodes id with
    | none => (w, false)
    | some node =>
      let nodes1 := merase w.nodes id
      match node.contents.splitAt at_ with
      | .two l r =>
        let leftNode : DNode :=
          { id := node.id, fro := node.fro, too := [newId],
            active := node.active, bookmarked := node.bookmarked, contents := l }
        let rightNode : DNode :=
          { id := newId, fro := some node.id, too := node.too,
            active := false, bookmarked := false, contents := r }
        let nodes2 := node.too.foldl
          (fun m c => madjust m c (fun cn => { cn with fro := some newId })) nodes1
        ({ w with nodes := minsert (minsert nodes2 leftNode.id leftNode) newId rightNode }, true)
      | .one c =>
        ({ w with nodes := minsert nodes1 id { node with contents := c } }, false)

/-- `DiscreteWeave::merge_with_parent` for `DependentWeave`. -/
def mergeWithParent (w : DWeave) (id : Nat) : DWeave × Option Nat :=
  match mfind w.nodes id with
  | none => (w, none)
  | some node =>
    let nodes1 := merase w.nodes id
    match node.fro with
    | none => ({ w with nodes := minsert nodes1 id node }, none)
    | some pid =>
      match mfind nodes1 pid with
      | none => ({ w with nodes := minsert nodes1 id node }, none)
      | some parent =>
        let nodes2 := merase nodes1 pid
        if parent.too.length > 1 then
          ({ w with nodes := minsert (minsert nodes2 pid parent) id node }, none)
        else
          match parent.contents.mergeWith node.contents with
          | .two l r =>
            ({ w with nodes :=
                (minsert (minsert nodes2 pid { parent with contents := l }) id
                  { node with contents := r }) }, none)
          | .one c =>
            let parent1 : DNode :=
              { parent with
                contents := c,
                too := node.too,
                active := if node.active then true else parent.active }
            let nodes3 := parent1.too.foldl
              (fun m ch => madjust m ch (fun cn => { cn with fro := some parent1.id })) nodes2
            ({ w with
                nodes := minsert nodes3 parent1.id parent1,
                active := if node.active then some parent1.id else w.active,
                bookmarked := w.bookmarked.erase node.id }, some parent1.id)

/-- `DeduplicatableWeave::find_duplicates` for `DependentWeave`. -/
def findDuplicates (w : DWeave) (id : Nat) : List Nat :=
  match mfind w.nodes id with
  | none => []
  | some node =>
    let sibs : List DNode :=
      match node.fro with
      | some p =>
        match mfind w.nodes p with
        | some pn => (pn.too.filter (fun x => decide (x ≠ id))).filterMap (mfind w.nodes)
        | none => []
      | none => (w.roots.filter (fun x => decide (x ≠ id))).filterMap (mfind w.nodes)
    (sibs.filter (fun s => V0.ncEq node.contents s.contents)).map (fun s => s.id)

/-- The empty tree weave. -/
def emptyWeave : DWeave :=
  { nodes := [], roots := [], active := none, bookmarked := [], metadata := [] }

/-- A trivial v0 payload. -/
def dnc0 : V0.NodeContent :=
  { content := .snippet [], metadata := [], model := none }

end UWeave.Dep

namespace UWeave.Dep

theorem keys_removeStage3 (n : DNode) (v : DWeave) :
    (removeStage3 n v).nodes.map Prod.fst = v.nodes.map Prod.fst := by
  unfold removeStage3
  split
  · split
    · split
      · exact keys_madjust v.nodes _ _
      · rfl
    · rfl
  · rfl

theorem keys_removeStage4 (n : DNode) (id : Nat) (v : DWeave) :
    (removeStage4 n id v).nodes.map Prod.fst = v.nodes.map Prod.fst := by
  unfold removeStage4
  split
  · exact keys_madjust v.nodes _ _
  · rfl

theorem active_removeStage4 (n : DNode) (id : Nat) (v : DWeave) :
    (removeStage4 n id v).active = v.active := by
  unfold removeStage4
  split
  · rfl
  · rfl

theorem removeStage3_active_none (n : DNode) (v : DWeave)
    (hact : n.active = true) (hfro : n.fro = none) :
    removeStage3 n v = { v with active := none } := by
  unfold removeStage3
  rw [if_pos hact, hfro]

theorem removeStage3_active_some_in (n : DNode) (v : DWeave) (p : Nat)
    (hact : n.active = true) (hfro : n.fro = some p) (hp : mcontains v.nodes p) :
    removeStage3 n v =
      { v with
        nodes := madjust v.nodes p (fun m => { m with active := true }),
        active := some p } := by
  unfold removeStage3
  rw [if_pos hact, hfro]
  exact if_pos hp

theorem removeStage3_active_some_out (n : DNode) (v : DWeave) (p : Nat)
    (hact : n.active = true) (hfro : n.fro = some p) (hp : ¬ mcontains v.nodes p) :
    removeStage3 n v = { v with active := none } := by
  unfold removeStage3
  rw [if_pos hact, hfro]
  exact if_neg hp

theorem removeStage4_some (n : DNode) (id : Nat) (v : DWeave) (p : Nat)
    (hfro : n.fro = some p) :
    removeStage4 n id v =
      { v with nodes := madjust v.nodes p (fun m => { m with too := m.too.erase id }) } := by
  unfold removeStage4
  rw [hfro]

theorem removeAux_keys_sublist : ∀ (fuel : Nat) (w : DWeave) (id : Nat),
    List.Sublist ((removeAux fuel w id).1.nodes.map Prod.fst) (w.nodes.map Prod.fst) := by
  intro fuel
  induction fuel with
  | zero => intro w id; exact List.Sublist.refl _
  | succ fuel ih =>
    intro w id
    unfold removeAux
    cases hf : mfind w.nodes id with
    | none => exact List.Sublist.refl _
    | some n =>
      simp only
      rw [keys_removeStage4, keys_removeStage3]
      have h1 : List.Sublist ((merase w.nodes id).map Prod.fst) (w.nodes.map Prod.fst) := by
        rw [keys_merase]
        exact List.erase_sublist _ _
      refine List.Sublist.trans ?_ h1
      refine foldl_induction _
        (fun x : DWeave => List.Sublist (x.nodes.map Prod.fst) ((merase w.nodes id).map Prod.fst))
        ?_ n.too _ (List.Sublist.refl _)
      intro a c ha
      exact List.Sublist.trans (ih a c) ha

theorem removeAux_succ_handoff (fuel : Nat) (w : DWeave) (id : Nat) (n : DNode)
    (hnd : NodupKeys w.nodes) (hfind : mfind w.nodes id = some n)
    (hact : n.active = true) :
    ¬ mcontains (removeAux (fuel + 1) w id).1.nodes id ∧
    (n.fro = none → (removeAux (fuel + 1) w id).1.active = none) ∧
    (∀ p, n.fro = some p →
      (removeAux (fuel + 1) w id).1.active =
        if mcontains (removeAux (fuel + 1) w id).1.nodes p then some p else none) ∧
    (∀ p, n.fro = some p → mcontains (removeAux (fuel + 1) w id).1.nodes p →
      (mfind (removeAux (fuel + 1) w id).1.nodes p).map DNode.active = some true) := by
  have hred : removeAux (fuel + 1) w id =
      (removeStage4 n id (removeStage3 n
        (n.too.foldl (fun acc c => (removeAux fuel acc c).1)
          { w with
            nodes := merase w.nodes id,
            roots := w.roots.erase id,
            bookmarked := w.bookmarked.erase id })), some n) := by
    have h0 : removeAux (fuel + 1) w id =
        (match mfind w.nodes id with
         | none => (w, none)
         | some n =>
           (removeStage4 n id (removeStage3 n
             (n.too.foldl (fun acc c => (removeAux fuel acc c).1)
               { w with
                 nodes := merase w.nodes id,
                 roots := w.roots.erase id,
                 bookmarked := w.bookmarked.erase id })), some n)) := rfl
    rw [h0, hfind]
  rw [hred]
  set W2 : DWeave := n.too.foldl (fun acc c => (removeAux fuel acc c).1)
    { w with
      nodes := merase w.nodes id,
      roots := w.roots.erase id,
      bookmarked := w.bookmarked.erase id } with hW2
  have hnd1 : NodupKeys (merase w.nodes id) := nodup_merase _ _ hnd
  have hid1 : id ∉ (merase w.nodes id).map Prod.fst := by
    rw [keys_merase]
    exact List.Nodup.not_mem_erase hnd
  have hsub : List.Sublist (W2.nodes.map Prod.fst) ((merase w.nodes id).map Prod.fst) := by
    rw [hW2]
    refine foldl_induction _
      (fun x : DWeave => List.Sublist (x.nodes.map Prod.fst) ((merase w.nodes id).map Prod.fst))
      ?_ n.too _ (List.Sublist.refl _)
    intro a c ha
    exact List.Sublist.trans (removeAux_keys_sublist fuel a c) ha
  have hndW2 : NodupKeys W2.nodes := List.Nodup.sublist hsub hnd1
  have hidW2 : id ∉ W2.nodes.map Prod.fst := fun hmem => hid1 (hsub.subset hmem)
  have hkeys34 : (removeStage4 n id (removeStage3 n W2)).nodes.map Prod.fst =
      W2.nodes.map Prod.fst := by
    rw [keys_removeStage4, keys_removeStage3]
  have hiff : ∀ p, (mcontains (removeStage4 n id (removeStage3 n W2)).nodes p ↔
      mcontains W2.nodes p) := by
    intro p
    rw [mcontains_iff_mem, mcontains_iff_mem, hkeys34]
  refine ⟨?_, ?_, ?_, ?_⟩
  · intro hc
    rw [mcontains_iff_mem, hkeys34] at hc
    exact hidW2 hc
  · intro hfro
    rw [removeStage3_active_none n W2 hact hfro, active_removeStage4]
  · intro p hfro
    by_cases hp : mcontains W2.nodes p
    · rw [if_pos ((hiff p).mpr hp),
        removeStage3_active_some_in n W2 p hact hfro hp, active_removeStage4]
    · rw [if_neg (fun hc => hp ((hiff p).mp hc)),
        removeStage3_active_some_out n W2 p hact hfro hp, active_removeStage4]
  · intro p hfro hcont
    have hWp : mcontains W2.nodes p := (hiff p).mp hcont
    have hWp' : ((mfind W2.nodes p).isSome : Prop) := hWp
    obtain ⟨m, hm⟩ := Option.isSome_iff_exists.mp hWp'
    rw [removeStage3_active_some_in n W2 p hact hfro hWp,
      removeStage4_some n id _ p hfro]
    show (mfind (madjust
        (madjust W2.nodes p (fun m => { m with active := true })) p
        (fun m => { m with too := m.too.erase id })) p).map DNode.active = some true
    rw [mfind_madjust _ p p _ (nodup_madjust _ _ _ hndW2), if_pos rfl,
      mfind_madjust _ p p _ hndW2, if_pos rfl, hm]
    rfl

/-- C3 scenario: the chain `1 → 2 → 3` built by three successful `add_node`
calls, each node added active (so `3` ends as the active node). -/
def c3w1 : DWeave × Bool := addNode emptyWeave ⟨1, none, [], true, false, dnc0⟩

def c3w2 : DWeave × Bool := addNode c3w1.1 ⟨2, some 1, [], true, false, dnc0⟩

def c3w3 : DWeave × Bool := addNode c3w2.1 ⟨3, some 2, [], true, false, dnc0⟩

def c3r : DWeave × Option DNode := removeNode c3w3.1 2

/-- **C3, counterexample.** In the tree `1 → 2 → 3` (built from the empty
weave by three successful `add_node` calls) with `3` active, `remove_node(2)`
removes `2` and its descendant `3` as claimed, but the active store ends
*empty* and node `1`'s `active` flag stays `false` — not, as the claim and
the spec's scenario state, `active = 1` with `1.active = true`.  The cascade
removes `2` before recursing into `3`, so when the removal of the active node
`3` hands the active state to `3`'s parent `2`, that parent is already gone
and the store is cleared; the unwinding of `2` does nothing because `2`
itself was not active. -/
theorem remove_cascade_active_lost_counterexample :
    c3w1.2 = true ∧ c3w2.2 = true ∧ c3w3.2 = true ∧
    c3w3.1.active = some 3 ∧
    mfind c3r.1.nodes 2 = none ∧ mfind c3r.1.nodes 3 = none ∧
    (mfind c3r.1.nodes 1).map DNode.active = some false ∧
    c3r.1.active = none := by decide

/-- **C3 (amended).** For the tree weave, the claimed active hand-off happens
exactly when the removed subtree root `id` *itself* carries the active flag:
for every weave with duplicate-free keys, if `nodes[id] = n` with
`n.active = true`, then after `remove_node(id)` the id is gone, and the
active store holds `n`'s parent `p` with `p`'s flag set whenever `p` is still
present, while it is empty when `n` has no parent (or `p` was itself removed
by the cascade).  When the active node is a strict descendant of the removed
node, the hand-off fails and the store is simply emptied, as the
counterexample shows. -/
theorem remove_active_root_handoff (w : DWeave) (id : Nat) (n : DNode)
    (hnd : NodupKeys w.nodes) (hfind : mfind w.nodes id = some n)
    (hact : n.active = true) :
    ¬ mcontains (removeNode w id).1.nodes id ∧
    (n.fro = none → (removeNode w id).1.active = none) ∧
    (∀ p, n.fro = some p →
      (removeNode w id).1.active =
        if mcontains (removeNode w id).1.nodes p then some p else none) ∧
    (∀ p, n.fro = some p → mcontains (removeNode w id).1.nodes p →
      (mfind (removeNode w id).1.nodes p).map DNode.active = some true) := by
  unfold removeNode
  exact removeAux_succ_handoff w.nodes.length w id n hnd hfind hact

/-- The node `3` as it sits in the C3 scenario weave. -/
def c3n : DNode := ⟨3, some 2, [], true, false, dnc0⟩

/-- Witness: removing the active leaf `3` of the C3 scenario hands the active
state to its parent `2`, whose flag is set. -/
theorem remove_active_root_handoff_witness :
    NodupKeys c3w3.1.nodes ∧ mfind c3w3.1.nodes 3 = some c3n ∧ c3n.active = true ∧
    (¬ mcontains (removeNode c3w3.1 3).1.nodes 3 ∧
      (c3n.fro = none → (removeNode c3w3.1 3).1.active = none) ∧
      (∀ p, c3n.fro = some p →
        (removeNode c3w3.1 3).1.active =
          if mcontains (removeNode c3w3.1 3).1.nodes p then some p else none) ∧
      (∀ p, c3n.fro = some p → mcontains (removeNode c3w3.1 3).1.nodes p →
        (mfind (removeNode c3w3.1 3).1.nodes p).map DNode.active = some true)) :=
  ⟨by decide, by decide, by decide,
    remove_active_root_handoff c3w3.1 3 c3n (by decide) (by decide) (by decide)⟩

end UWeave.Dep

namespace UWeave

/-- Erasing a present key and re-inserting its value leaves the map unchanged
as a function. -/
theorem mfind_reinsert {α : Type} (m : List (Nat × α)) (id : Nat) (v : α)
    (hnd : NodupKeys m) (hv : mfind m id = some v) (k : Nat) :
    mfind (minsert (merase m id) id v) k = mfind m k := by
  rw [mfind_minsert, mfind_merase _ _ _ hnd]
  by_cases hk : k = id
  · rw [if_pos hk, hk, hv]
  · rw [if_neg hk, if_neg hk]

/-- Erasing two distinct present keys and re-inserting their values leaves
the map unchanged as a function. -/
theorem mfind_reinsert2 {α : Type} (m : List (Nat × α)) (id pid : Nat)
    (node parent : α) (hnd : NodupKeys m) (hid : mfind m id = some node)
    (hpid : mfind (merase m id) pid = some parent) (k : Nat) :
    mfind (minsert (minsert (merase (merase m id) pid) pid parent) id node) k =
      mfind m k := by
  have hne : pid ≠ id := by
    intro he
    rw [he, mfind_merase _ _ _ hnd, if_pos rfl] at hpid
    exact absurd hpid (by simp)
  have hmp : mfind m pid = some parent := by
    rw [mfind_merase _ _ _ hnd, if_neg hne] at hpid
    exact hpid
  rw [mfind_minsert, mfind_minsert, mfind_merase _ _ _ (nodup_merase _ _ hnd),
    mfind_merase _ _ _ hnd]
  by_cases hk : k = id
  · rw [if_pos hk, hk, hid]
  · rw [if_neg hk]
    by_cases hk2 : k = pid
    · rw [if_pos hk2, hk2, hmp]
    · rw [if_neg hk2, if_neg hk2, if_neg hk]

end UWeave

namespace UWeave.V0

/-- When the v0 inner split does not divide, it returns its input. -/
theorem v0_inner_split_one (c : InnerNodeContent) (at_ : Nat) (y : InnerNodeContent)
    (h : c.splitAt at_ = .one y) : y = c := by
  unfold InnerNodeContent.splitAt at h
  by_cases h0 : at_ = 0
  · rw [if_pos h0] at h
    injection h with h1
    exact h1.symm
  · rw [if_neg h0] at h
    split at h
    · split at h
      · injection h with h1; exact h1.symm
      · exact absurd h (by simp)
    · split at h
      · injection h with h1; exact h1.symm
      · split at h
        · split at h
          · injection h with h1; exact h1.symm
          · exact absurd h (by simp)
        · injection h with h1; exact h1.symm

/-- When the v0 payload split does not divide, it returns its input. -/
theorem v0_split_one (c : NodeContent) (at_ : Nat) (y : NodeContent)
    (h : c.splitAt at_ = .one y) : y = c := by
  unfold NodeContent.splitAt at h
  split at h
  · exact absurd h (by simp)
  · rename_i center heq
    injection h with h1
    rw [← h1, v0_inner_split_one c.content at_ center heq]

/-- When the v0 inner merge refuses (returns `Two`), it returns its inputs. -/
theorem v0_inner_merge_two (c v x y : InnerNodeContent)
    (h : c.mergeWith v = .two x y) : x = c ∧ y = v := by
  unfold InnerNodeContent.mergeWith at h
  split at h
  · exact absurd h (by simp)
  · injection h with h1 h2; exact ⟨h1.symm, h2.symm⟩
  · injection h with h1 h2; exact ⟨h1.symm, h2.symm⟩
  · exact absurd h (by simp)

/-- When the v0 payload merge refuses (returns `Two`), it returns its
inputs. -/
theorem v0_merge_two (c v x y : NodeContent)
    (h : c.mergeWith v = .two x y) : x = c ∧ y = v := by
  unfold NodeContent.mergeWith at h
  split at h
  · injection h with h1 h2; exact ⟨h1.symm, h2.symm⟩
  · split at h
    · rename_i l r heq
      injection h with h1 h2
      obtain ⟨hl, hr⟩ := v0_inner_merge_two c.content v.content l r heq
      constructor
      · rw [← h1, hl]
      · rw [← h2, hr]
    · exact absurd h (by simp)

end UWeave.V0

namespace UWeave.V1

/-- When the v1 inner split does not divide, it returns its input. -/
theorem v1_inner_split_one (c : InnerNodeContent) (at_ : Nat) (y : InnerNodeContent)
    (h : c.splitAt at_ = .one y) : y = c := by
  unfold InnerNodeContent.splitAt at h
  by_cases h0 : at_ = 0
  · rw [if_pos h0] at h
    injection h with h1
    exact h1.symm
  · rw [if_neg h0] at h
    split at h
    · split at h
      · injection h with h1; exact h1.symm
      · exact absurd h (by simp)
    · split at h
      · injection h with h1; exact h1.symm
      · split at h
        · split at h
          · injection h with h1; exact h1.symm
          · simp only [] at h
            split at h
            · exact absurd h (by simp)
            · exact absurd h (by simp)
        · injection h with h1; exact h1.symm
    · injection h with h1; exact h1.symm

/-- When the v1 payload split does not divide, it returns its input. -/
theorem v1_split_one (c : NodeContent) (at_ : Nat) (y : NodeContent)
    (h : c.splitAt at_ = .one y) : y = c := by
  unfold NodeContent.splitAt at h
  split at h
  · exact absurd h (by simp)
  · rename_i center heq
    injection h with h1
    rw [← h1, v1_inner_split_one c.content at_ center heq]

/-- When the v1 inner merge refuses (returns `Two`), it returns its inputs. -/
theorem v1_inner_merge_two (c v x y : InnerNodeContent)
    (h : c.mergeWith v = .two x y) : x = c ∧ y = v := by
  unfold InnerNodeContent.mergeWith at h
  split at h
  · exact absurd h (by simp)
  · injection h with h1 h2; exact ⟨h1.symm, h2.symm⟩
  · injection h with h1 h2; exact ⟨h1.symm, h2.symm⟩
  · injection h with h1 h2; exact ⟨h1.symm, h2.symm⟩
  · exact absurd h (by simp)
  · injection h with h1 h2; exact ⟨h1.symm, h2.symm⟩
  · injection h with h1 h2; exact ⟨h1.symm, h2.symm⟩

/-- When the v1 payload merge refuses (returns `Two`), it returns its
inputs. -/
theorem v1_merge_two (c v x y : NodeContent)
    (h : c.mergeWith v = .two x y) : x = c ∧ y = v := by
  unfold NodeContent.mergeWith at h
  split at h
  · injection h with h1 h2; exact ⟨h1.symm, h2.symm⟩
  · split at h
    · rename_i l r heq
      injection h with h1 h2
      obtain ⟨hl, hr⟩ := v1_inner_merge_two c.content v.content l r heq
      constructor
      · rw [← h1, hl]
      · rw [← h2, hr]
    · exact absurd h (by simp)

end UWeave.V1

namespace UWeave.Dep

/-- Observable equality of tree weaves: the node map as a function, plus the
root list, active store, bookmark store and metadata. -/
def obsEqD (a b : DWeave) : Prop :=
  (∀ k, mfind a.nodes k = mfind b.nodes k) ∧ a.roots = b.roots ∧
    a.active = b.active ∧ a.bookmarked = b.bookmarked ∧ a.metadata = b.metadata

theorem obsEqD_refl (a : DWeave) : obsEqD a a :=
  ⟨fun _ => rfl, rfl, rfl, rfl, rfl⟩

theorem dep_addNode_failure (w : DWeave) (n : DNode)
    (h : (addNode w n).2 = false) : (addNode w n).1 = w := by
  unfold addNode at h ⊢
  by_cases hi : addNodeInvalid w n = true
  · rw [if_pos hi]
  · rw [if_neg hi] at h ⊢
    cases hfro : n.fro with
    | none => rw [hfro] at h; simp at h
    | some f =>
      rw [hfro] at h
      simp only [] at h ⊢
      cases hw : mfind w.nodes f with
      | some pn => rw [hw] at h; simp at h
      | none => rfl

theorem dep_removeAux_failure (fuel : Nat) (w : DWeave) (id : Nat)
    (hfuel : 1 ≤ fuel) (h : (removeAux fuel w id).2 = none) :
    (removeAux fuel w id).1 = w := by
  cases fuel with
  | zero => omega
  | succ fuel =>
    unfold removeAux at h ⊢
    cases hf : mfind w.nodes id with
    | none => rfl
    | some n => rw [hf] at h; simp at h

theorem dep_split_failure (w : DWeave) (id at_ newId : Nat)
    (hnd : NodupKeys w.nodes) (h : (splitNode w id at_ newId).2 = false) :
    obsEqD (splitNode w id at_ newId).1 w := by
  unfold splitNode at h ⊢
  by_cases h0 : (mcontains w.nodes newId ∨ id = newId)
  · rw [if_pos h0]
    exact obsEqD_refl w
  · rw [if_neg h0] at h ⊢
    cases hf : mfind w.nodes id with
    | none => exact obsEqD_refl w
    | some node =>
      rw [hf] at h
      simp only [] at h ⊢
      cases hsp : node.contents.splitAt at_ with
      | two l r => rw [hsp] at h; simp at h
      | one c =>
        have hc : c = node.contents := V0.v0_split_one node.contents at_ c hsp
        refine ⟨?_, rfl, rfl, rfl, rfl⟩
        intro k
        show mfind (minsert (merase w.nodes id) id { node with contents := c }) k =
          mfind w.nodes k
        rw [hc]
        have e1 : ({ node with contents := node.contents } : DNode) = node := rfl
        rw [e1]
        exact mfind_reinsert w.nodes id node hnd hf k

theorem dep_merge_failure (w : DWeave) (id : Nat) (hnd : NodupKeys w.nodes)
    (h : (mergeWithParent w id).2 = none) :
    obsEqD (mergeWithParent w id).1 w := by
  unfold mergeWithParent at h ⊢
  cases hf : mfind w.nodes id with
  | none => exact obsEqD_refl w
  | some node =>
    rw [hf] at h
    simp only [] at h ⊢
    cases hfro : node.fro with
    | none =>
      refine ⟨?_, rfl, rfl, rfl, rfl⟩
      intro k
      show mfind (minsert (merase w.nodes id) id node) k = mfind w.nodes k
      exact mfind_reinsert w.nodes id node hnd hf k
    | some pid =>
      rw [hfro] at h
      simp only [] at h ⊢
      cases hp : mfind (merase w.nodes id) pid with
      | none =>
        refine ⟨?_, rfl, rfl, rfl, rfl⟩
        intro k
        show mfind (minsert (merase w.nodes id) id node) k = mfind w.nodes k
        exact mfind_reinsert w.nodes id node hnd hf k
      | some parent =>
        rw [hp] at h
        simp only [] at h ⊢
        by_cases hlen : parent.too.length > 1
        · rw [if_pos hlen]
          refine ⟨?_, rfl, rfl, rfl, rfl⟩
          intro k
          show mfind (minsert (minsert (merase (merase w.nodes id) pid) pid parent)
            id node) k = mfind w.nodes k
          exact mfind_reinsert2 w.nodes id pid node parent hnd hf hp k
        · rw [if_neg hlen] at h ⊢
          cases hm : parent.contents.mergeWith node.contents with
          | one c => rw [hm] at h; simp at h
          | two l r =>
            obtain ⟨hl, hr⟩ := V0.v0_merge_two parent.contents node.contents l r hm
            refine ⟨?_, rfl, rfl, rfl, rfl⟩
            intro k
            show mfind (minsert (minsert (merase (merase w.nodes id) pid) pid
                { parent with contents := l }) id
                { node with fro := some pid, contents := r }) k =
              mfind w.nodes k
            rw [hl, hr, ← hfro]
            have e1 : ({ parent with contents := parent.contents } : DNode) = parent := rfl
            have e2 : ({ node with fro := node.fro, contents := node.contents } : DNode) =
              node := rfl
            rw [e1, e2]
            exact mfind_reinsert2 w.nodes id pid node parent hnd hf hp k

theorem dep_setActiveInPlace_failure (w : DWeave) (id : Nat) (value : Bool)
    (h : (setActiveInPlace w id value).2 = false) :
    (setActiveInPlace w id value).1 = w := by
  unfold setActiveInPlace at h ⊢
  cases hf : mfind w.nodes id with
  | none => rfl
  | some n =>
    rw [hf] at h
    simp only [] at h
    split at h
    · simp at h
    · split at h
      · simp at h
      · simp at h

theorem dep_setBookmarked_failure (w : DWeave) (id : Nat) (value : Bool)
    (h : (setBookmarked w id value).2 = false) :
    (setBookmarked w id value).1 = w := by
  unfold setBookmarked at h ⊢
  cases hf : mfind w.nodes id with
  | none => rfl
  | some n =>
    rw [hf] at h
    simp only [] at h
    split at h
    · simp at h
    · simp at h

/-- The public mutators of the tree weave. -/
inductive DOp where
  | add (n : DNode)
  | remove (id : Nat)
  | split (id at_ newId : Nat)
  | merge (id : Nat)
  | setAct (id : Nat) (value alternate : Bool)
  | setActInPlace (id : Nat) (value : Bool)
  | setBook (id : Nat) (value : Bool)

/-- Run a mutator, reporting its status as a boolean (`None` counts as
failure for the option-valued mutators). -/
def applyD (w : DWeave) : DOp → DWeave × Bool
  | .add n => addNode w n
  | .remove id => ((removeNode w id).1, (removeNode w id).2.isSome)
  | .split id at_ newId => splitNode w id at_ newId
  | .merge id => ((mergeWithParent w id).1, (mergeWithParent w id).2.isSome)
  | .setAct id v alt => setActive w id v alt
  | .setActInPlace id v => setActiveInPlace w id v
  | .setBook id v => setBookmarked w id v

theorem dep_mutator_failure (w : DWeave) (op : DOp) (hnd : NodupKeys w.nodes)
    (h : (applyD w op).2 = false) : obsEqD (applyD w op).1 w := by
  cases op with
  | add n =>
    show obsEqD (addNode w n).1 w
    rw [dep_addNode_failure w n h]
    exact obsEqD_refl w
  | remove id =>
    show obsEqD (removeNode w id).1 w
    have h' : ((removeNode w id).2).isSome = false := h
    cases ho : (removeNode w id).2 with
    | some x => rw [ho] at h'; simp at h'
    | none =>
      have e : (removeNode w id).1 = w :=
        dep_removeAux_failure (w.nodes.length + 1) w id (by omega) ho
      rw [e]
      exact obsEqD_refl w
  | split id at_ newId => exact dep_split_failure w id at_ newId hnd h
  | merge id =>
    show obsEqD (mergeWithParent w id).1 w
    have h' : ((mergeWithParent w id).2).isSome = false := h
    cases ho : (mergeWithParent w id).2 with
    | some x => rw [ho] at h'; simp at h'
    | none => exact dep_merge_failure w id hnd ho
  | setAct id v alt =>
    show obsEqD (setActiveInPlace w id v).1 w
    rw [dep_setActiveInPlace_failure w id v h]
    exact obsEqD_refl w
  | setActInPlace id v =>
    show obsEqD (setActiveInPlace w id v).1 w
    rw [dep_setActiveInPlace_failure w id v h]
    exact obsEqD_refl w
  | setBook id v =>
    show obsEqD (setBookmarked w id v).1 w
    rw [dep_setBookmarked_failure w id v h]
    exact obsEqD_refl w

end UWeave.Dep

namespace UWeave.Ind

/-- With positive fuel, `update_node_activity_in_place_inner` either reports
success or the node is absent and the state is untouched. -/
theorem innerAct_start_status (fuel : Nat) (w : IWeave) (q : List Nat) (id : Nat)
    (value start : Bool) :
    (innerAct (fuel + 1) w q id value start).2.2 = true ∨
    (mfind w.nodes id = none ∧ innerAct (fuel + 1) w q id value start = (w, q, false)) := by
  unfold innerAct
  cases hf : mfind w.nodes id with
  | none => exact Or.inr ⟨rfl, rfl⟩
  | some n =>
    simp only
    by_cases hv : n.active = value
    · rw [if_pos hv]
      exact Or.inl rfl
    · rw [if_neg hv]
      left
      have hres : ∀ res : IWeave × List Nat, keys res.1 = keys w →
          ((match mfind res.1.nodes id with
            | some _ =>
              let w2 : IWeave := { res.1 with
                nodes := madjust res.1.nodes id (fun m => { m with active := value }),
                active := if value then sinsert res.1.active id else res.1.active.erase id }
              if start then
                (res.2.foldl (fun acc item => (urca fuel acc item).1) w2, res.2, true)
              else (w2, res.2, true)
            | none => (res.1, res.2, false)) : IWeave × List Nat × Bool).2.2 = true := by
        intro res hkeys
        cases hfi : mfind res.1.nodes id with
        | none =>
          exfalso
          have hc : mcontains w.nodes id := by
            unfold mcontains
            rw [hf]
            rfl
          have hmem : id ∈ w.nodes.map Prod.fst := (mcontains_iff_mem _ _).mp hc
          have hmem2 : id ∈ keys res.1 := by
            rw [hkeys]
            exact hmem
          have hc2 : mcontains res.1.nodes id := (mcontains_iff_mem _ _).mpr hmem2
          unfold mcontains at hc2
          rw [hfi] at hc2
          simp at hc2
        | some _ =>
          simp only
          split
          · rfl
          · rfl
      apply hres
      by_cases hval : value = true
      · subst hval
        simp only [if_pos rfl]
        by_cases hap : ((allParentIdsOrRoots w n).any fun p => decide (p ∈ w.active)) = true
        · rw [if_pos hap]
          refine foldl_induction _ (fun x : IWeave × List Nat => keys x.1 = keys w) ?_ _ _ rfl
          intro a s hk
          simp only
          rw [innerAct_keys fuel a.1 a.2 s false false]
          exact hk
        · rw [if_neg hap]
          cases n.fro.head? with
          | some p => simpa using innerAct_keys fuel w _ p true false
          | none => rfl
      · have hvf : value = false := by revert hval; cases value <;> simp
        subst hvf
        rfl

theorem updateInPlace_false (w : IWeave) (id : Nat) (value : Bool)
    (h : (updateInPlace w id value).2 = false) :
    (updateInPlace w id value).1 = w := by
  have h2 : (innerAct (w.nodes.length + 1 + 1) w [] id value true).2.2 = false := h
  rcases innerAct_start_status (w.nodes.length + 1) w [] id value true with ht | ⟨_, heq⟩
  · rw [ht] at h2
    exact absurd h2 (by simp)
  · show (innerAct (w.nodes.length + 1 + 1) w [] id value true).1 = w
    rw [heq]

/-- When the node exists, `update_node_activity_in_place` reports success. -/
theorem updateInPlace_status (w : IWeave) (id : Nat) (value : Bool) (n : INode)
    (hf : mfind w.nodes id = some n) : (updateInPlace w id value).2 = true := by
  rcases innerAct_start_status (w.nodes.length + 1) w [] id value true with ht | ⟨hnone, _⟩
  · exact ht
  · rw [hf] at hnone
    exact absurd hnone (by simp)

theorem setActiveChild_some (w : IWeave) (id : Nat) (value : Bool) (c : INode)
    (h : setActiveChild w id value = some c) :
    ∃ n, mfind w.nodes id = some n ∧ value = true := by
  unfold setActiveChild at h
  split at h
  · rename_i hv
    split at h
    · rename_i n heq
      exact ⟨n, heq, hv⟩
    · exact absurd h (by simp)
  · exact absurd h (by simp)

theorem ind_setActive_failure (w : IWeave) (id : Nat) (value alternate : Bool)
    (h : (setActive w id value alternate).2 = false) :
    (setActive w id value alternate).1 = w := by
  unfold setActive at h ⊢
  cases hc : setActiveChild w id value with
  | none =>
    rw [hc] at h
    exact updateInPlace_false w id value h
  | some c =>
    rw [hc] at h
    simp only [] at h ⊢
    by_cases hcond : ((¬ alternate ∧ c.fro.length = 1) ∨ (alternate ∧ c.fro.length > 1))
    · exfalso
      rw [if_pos hcond] at h
      obtain ⟨n, hn, hv⟩ := setActiveChild_some w id value c hc
      have hx : (updateInPlace w id true).2 = false := h
      rw [updateInPlace_status w id true n hn] at hx
      exact absurd hx (by simp)
    · rw [if_neg hcond] at h ⊢
      exact updateInPlace_false w id value h

theorem ind_addNode_failure (w : IWeave) (n : INode)
    (h : (addNode w n).2 = false) : (addNode w n).1 = w := by
  unfold addNode at h ⊢
  by_cases hi : addNodeInvalid w n = true
  · rw [if_pos hi]
  · rw [if_neg hi] at h
    simp at h

theorem ind_removeAux_failure (fuel : Nat) (w : IWeave) (id : Nat)
    (hfuel : 1 ≤ fuel) (h : (removeAux fuel w id).2 = none) :
    (removeAux fuel w id).1 = w := by
  cases fuel with
  | zero => omega
  | succ fuel =>
    unfold removeAux at h ⊢
    cases hf : mfind w.nodes id with
    | none => rfl
    | some n => rw [hf] at h; simp at h

theorem ind_setBookmarked_failure (w : IWeave) (id : Nat) (value : Bool)
    (h : (setBookmarked w id value).2 = false) :
    (setBookmarked w id value).1 = w := by
  unfold setBookmarked at h ⊢
  cases hf : mfind w.nodes id with
  | none => rfl
  | some n =>
    rw [hf] at h
    simp only [] at h
    split at h
    · simp at h
    · simp at h

theorem ind_moveNode_failure (w : IWeave) (id : Nat) (nps : List Nat)
    (h : (moveNode w id nps).2 = false) : (moveNode w id nps).1 = w := by
  unfold moveNode at h ⊢
  by_cases h1 : ¬ (nps.all fun p => decide (mcontains w.nodes p)) = true
  · rw [if_pos h1]
  · rw [if_neg h1] at h ⊢
    simp only [] at h ⊢
    by_cases h2 : id ∈ dedupFirst nps
    · rw [if_pos h2]
    · rw [if_neg h2] at h ⊢
      cases hf : mfind w.nodes id with
      | none => rfl
      | some node =>
        rw [hf] at h
        simp only [] at h ⊢
        by_cases h3 : (node.too.any fun c => decide (c ∈ dedupFirst nps)) = true
        · rw [if_pos h3]
        · rw [if_neg h3] at h
          split at h
          · split at h
            · split at h
              · simp at h
              · simp at h
            · simp at h
          · simp at h

/-- Observable equality of DAG weaves: the node map as a function, the root
list, the active store as a set, the bookmark store and the metadata. -/
def obsEqI (a b : IWeave) : Prop :=
  (∀ k, mfind a.nodes k = mfind b.nodes k) ∧ a.roots = b.roots ∧
    (∀ k, k ∈ a.active ↔ k ∈ b.active) ∧ a.bookmarked = b.bookmarked ∧
    a.metadata = b.metadata

theorem obsEqI_refl (a : IWeave) : obsEqI a a :=
  ⟨fun _ => rfl, rfl, fun _ => Iff.rfl, rfl, rfl⟩

theorem ind_split_failure (w : IWeave) (id at_ newId : Nat)
    (hnd : NodupKeys w.nodes) (h : (splitNode w id at_ newId).2 = false) :
    obsEqI (splitNode w id at_ newId).1 w := by
  unfold splitNode at h ⊢
  by_cases h0 : (mcontains w.nodes newId ∨ id = newId)
  · rw [if_pos h0]
    exact obsEqI_refl w
  · rw [if_neg h0] at h ⊢
    cases hf : mfind w.nodes id with
    | none => exact obsEqI_refl w
    | some node =>
      rw [hf] at h
      simp only [] at h ⊢
      cases hsp : node.contents.splitAt at_ with
      | two l r => rw [hsp] at h; simp at h
      | one c =>
        have hc : c = node.contents := V1.v1_split_one node.contents at_ c hsp
        refine ⟨?_, rfl, fun k => Iff.rfl, rfl, rfl⟩
        intro k
        show mfind (minsert (merase w.nodes id) id { node with contents := c }) k =
          mfind w.nodes k
        rw [hc]
        have e1 : ({ node with contents := node.contents } : INode) = node := rfl
        rw [e1]
        exact mfind_reinsert w.nodes id node hnd hf k

theorem ind_merge_failure (w : IWeave) (id : Nat) (hnd : NodupKeys w.nodes)
    (h : (mergeWithParent w id).2 = none) :
    obsEqI (mergeWithParent w id).1 w := by
  unfold mergeWithParent at h ⊢
  cases hf : mfind w.nodes id with
  | none => exact obsEqI_refl w
  | some node =>
    rw [hf] at h
    simp only [] at h ⊢
    by_cases hlen : node.fro.length ≠ 1
    · rw [if_pos hlen]
      refine ⟨?_, rfl, fun k => Iff.rfl, rfl, rfl⟩
      intro k
      show mfind (minsert (merase w.nodes id) id node) k = mfind w.nodes k
      exact mfind_reinsert w.nodes id node hnd hf k
    · rw [if_neg hlen] at h ⊢
      cases hh : node.fro.head? with
      | none =>
        refine ⟨?_, rfl, fun k => Iff.rfl, rfl, rfl⟩
        intro k
        show mfind (minsert (merase w.nodes id) id node) k = mfind w.nodes k
        exact mfind_reinsert w.nodes id node hnd hf k
      | some pid =>
        rw [hh] at h
        simp only [] at h ⊢
        cases hp : mfind (merase w.nodes id) pid with
        | none =>
          refine ⟨?_, rfl, fun k => Iff.rfl, rfl, rfl⟩
          intro k
          show mfind (minsert (merase w.nodes id) id node) k = mfind w.nodes k
          exact mfind_reinsert w.nodes id node hnd hf k
        | some parent =>
          rw [hp] at h
          simp only [] at h ⊢
          by_cases hl2 : parent.too.length > 1
          · rw [if_pos hl2]
            refine ⟨?_, rfl, fun k => Iff.rfl, rfl, rfl⟩
            intro k
            show mfind (minsert (minsert (merase (merase w.nodes id) pid) pid parent)
              id node) k = mfind w.nodes k
            exact mfind_reinsert2 w.nodes id pid node parent hnd hf hp k
          · rw [if_neg hl2] at h ⊢
            cases hm : parent.contents.mergeWith node.contents with
            | one c => rw [hm] at h; simp at h
            | two l r =>
              obtain ⟨hl, hr⟩ := V1.v1_merge_two parent.contents node.contents l r hm
              refine ⟨?_, rfl, fun k => Iff.rfl, rfl, rfl⟩
              intro k
              show mfind (minsert (minsert (merase (merase w.nodes id) pid) pid
                  { parent with contents := l }) id { node with contents := r }) k =
                mfind w.nodes k
              rw [hl, hr]
              have e1 : ({ parent with contents := parent.contents } : INode) = parent := rfl
              have e2 : ({ node with contents := node.contents } : INode) = node := rfl
              rw [e1, e2]
              exact mfind_reinsert2 w.nodes id pid node parent hnd hf hp k

/-- The public mutators of the DAG weave. -/
inductive IOp where
  | add (n : INode)
  | remove (id : Nat)
  | split (id at_ newId : Nat)
  | merge (id : Nat)
  | move (id : Nat) (newParents : List Nat)
  | setAct (id : Nat) (value alternate : Bool)
  | setActInPlace (id : Nat) (value : Bool)
  | setBook (id : Nat) (value : Bool)

/-- Run a mutator, reporting its status as a boolean (`None` counts as
failure for the option-valued mutators). -/
def applyI (w : IWeave) : IOp → IWeave × Bool
  | .add n => addNode w n
  | .remove id => ((removeNode w id).1, (removeNode w id).2.isSome)
  | .split id at_ newId => splitNode w id at_ newId
  | .merge id => ((mergeWithParent w id).1, (mergeWithParent w id).2.isSome)
  | .move id nps => moveNode w id nps
  | .setAct id v alt => setActive w id v alt
  | .setActInPlace id v => setActiveInPlace w id v
  | .setBook id v => setBookmarked w id v

theorem ind_mutator_failure (w : IWeave) (op : IOp) (hnd : NodupKeys w.nodes)
    (h : (applyI w op).2 = false) : obsEqI (applyI w op).1 w := by
  cases op with
  | add n =>
    show obsEqI (addNode w n).1 w
    rw [ind_addNode_failure w n h]
    exact obsEqI_refl w
  | remove id =>
    show obsEqI (removeNode w id).1 w
    have h' : ((removeNode w id).2).isSome = false := h
    cases ho : (removeNode w id).2 with
    | some x => rw [ho] at h'; simp at h'
    | none =>
      have e : (removeNode w id).1 = w :=
        ind_removeAux_failure (2 * w.nodes.length + 2) w id (by omega) ho
      rw [e]
      exact obsEqI_refl w
  | split id at_ newId => exact ind_split_failure w id at_ newId hnd h
  | merge id =>
    show obsEqI (mergeWithParent w id).1 w
    have h' : ((mergeWithParent w id).2).isSome = false := h
    cases ho : (mergeWithParent w id).2 with
    | some x => rw [ho] at h'; simp at h'
    | none => exact ind_merge_failure w id hnd ho
  | move id nps =>
    show obsEqI (moveNode w id nps).1 w
    rw [ind_moveNode_failure w id nps h]
    exact obsEqI_refl w
  | setAct id v alt =>
    show obsEqI (setActive w id v alt).1 w
    rw [ind_setActive_failure w id v alt h]
    exact obsEqI_refl w
  | setActInPlace id v =>
    show obsEqI (updateInPlace w id v).1 w
    rw [updateInPlace_false w id v h]
    exact obsEqI_refl w
  | setBook id v =>
    show obsEqI (setBookmarked w id v).1 w
    rw [ind_setBookmarked_failure w id v h]
    exact obsEqI_refl w

end UWeave.Ind

namespace UWeave

/-- **C7.** Failure atomicity of every public mutator of both weaves: for
each of the tree weave's mutators (`add_node`, `remove_node`, `split_node`,
`merge_with_parent`, `set_node_active_status`,
`set_node_active_status_in_place`, `set_node_bookmarked_status`) and each of
the DAG weave's mutators (the same operations plus `move_node`), whenever the
call reports failure (`false`, or `None` for the option-valued mutators), the
weave afterwards is observably equal to the weave before on every
invariant-observable field: the node map as a function, the root list, the
active store, the bookmark store and the metadata. -/
theorem mutator_failure_atomic :
    (∀ (w : Dep.DWeave) (op : Dep.DOp), NodupKeys w.nodes →
      (Dep.applyD w op).2 = false → Dep.obsEqD (Dep.applyD w op).1 w) ∧
    (∀ (w : Ind.IWeave) (op : Ind.IOp), NodupKeys w.nodes →
      (Ind.applyI w op).2 = false → Ind.obsEqI (Ind.applyI w op).1 w) :=
  ⟨fun w op hnd h => Dep.dep_mutator_failure w op hnd h,
   fun w op hnd h => Ind.ind_mutator_failure w op hnd h⟩

/-- Witness: removing a missing id from either empty weave fails and leaves
the weave observably unchanged. -/
theorem mutator_failure_atomic_witness :
    Dep.obsEqD (Dep.applyD Dep.emptyWeave (Dep.DOp.remove 5)).1 Dep.emptyWeave ∧
    Ind.obsEqI (Ind.applyI Ind.emptyWeave (Ind.IOp.remove 5)).1 Ind.emptyWeave :=
  ⟨mutator_failure_atomic.1 Dep.emptyWeave (Dep.DOp.remove 5) (by decide) (by decide),
   mutator_failure_atomic.2 Ind.emptyWeave (Ind.IOp.remove 5) (by decide) (by decide)⟩

end UWeave

namespace UWeave

theorem mem_sinsert_self (l : List Nat) (x : Nat) : x ∈ sinsert l x := by
  unfold sinsert
  by_cases h : x ∈ l
  · rw [if_pos h]; exact h
  · rw [if_neg h]; simp

theorem mem_sinsert_of_mem (l : List Nat) (x y : Nat) (h : y ∈ l) :
    y ∈ sinsert l x := by
  unfold sinsert
  by_cases hx : x ∈ l
  · rw [if_pos hx]; exact h
  · rw [if_neg hx]; simp [h]

end UWeave

namespace UWeave.Ind

/-- Activating a node with an active parent whose sibling-deactivation set is
empty: the inner update reduces to the flag assignment and the store
insertion. -/
theorem innerAct_easy_activation (fuel : Nat) (w : IWeave) (id : Nat)
    (n : INode) (p : Nat) (hf : mfind w.nodes id = some n)
    (hinact : n.active = false) (hp : p ∈ n.fro) (hpa : p ∈ w.active)
    (hsibs : (siblingIdsAllParents w n).filter
      (fun s => decide (s ∈ w.active ∧ s ∉ n.fro ∧ s ∉ n.too)) = []) :
    innerAct (fuel + 1) w [] id true true =
      ({ w with
         nodes := madjust w.nodes id (fun m => { m with active := true }),
         active := sinsert w.active id }, [], true) := by
  have hfro_ne : ¬ n.fro = [] := by
    intro he
    rw [he] at hp
    exact absurd hp (List.not_mem_nil p)
  have hap : ((allParentIdsOrRoots w n).any fun x => decide (x ∈ w.active)) = true := by
    unfold allParentIdsOrRoots
    rw [if_neg hfro_ne]
    exact List.any_eq_true.mpr ⟨p, hp, by simpa using hpa⟩
  unfold innerAct
  rw [hf]
  simp only [hinact, Bool.false_eq_true, if_false, hap, if_true, hsibs,
    List.foldl_nil, hf]

/-- **C2 (amended).** The first conjunct of the DAG active-path invariant is
refuted by the counterexample (two active children of one active node after
activating a node whose parents are all active).  The second conjunct holds
as a postcondition of activation in the direct case: activating a node `id`
with an active parent `p`, when the sibling-deactivation set computed by
`update_node_activity_in_place_inner` is empty, succeeds and leaves both `id`
and its parent `p` in the active store — an active node with a non-empty
parent set keeps an active parent. -/
theorem active_parent_preserved (w : IWeave) (id : Nat) (n : INode) (p : Nat)
    (hf : mfind w.nodes id = some n) (hinact : n.active = false)
    (hp : p ∈ n.fro) (hpa : p ∈ w.active)
    (hsibs : (siblingIdsAllParents w n).filter
      (fun s => decide (s ∈ w.active ∧ s ∉ n.fro ∧ s ∉ n.too)) = []) :
    (setActiveInPlace w id true).2 = true ∧
    id ∈ (setActiveInPlace w id true).1.active ∧
    p ∈ (setActiveInPlace w id true).1.active := by
  have hred : setActiveInPlace w id true =
      ({ w with
         nodes := madjust w.nodes id (fun m => { m with active := true }),
         active := sinsert w.active id }, true) := by
    show updateInPlace w id true = _
    unfold updateInPlace
    rw [show w.nodes.length + 2 = w.nodes.length + 1 + 1 from rfl,
      innerAct_easy_activation (w.nodes.length + 1) w id n p hf hinact hp hpa hsibs]
  rw [hred]
  exact ⟨rfl, mem_sinsert_self w.active id, mem_sinsert_of_mem w.active id p hpa⟩

/-- The child node of the C9 scenario as stored in the weave. -/
def c2an : INode := ⟨2, [1], [], false, false, nc0⟩

/-- Witness: activating the inactive child `2` under the active root `1`
keeps `1` in the active store alongside `2`. -/
theorem active_parent_preserved_witness :
    (setActiveInPlace c9w2.1 2 true).2 = true ∧
    2 ∈ (setActiveInPlace c9w2.1 2 true).1.active ∧
    1 ∈ (setActiveInPlace c9w2.1 2 true).1.active :=
  active_parent_preserved c9w2.1 2 c2an 1 (by decide) (by decide) (by decide)
    (by decide) (by decide)

end UWeave.Ind

namespace UWeave.Dep

/-- Longest common prefix length of two byte lists (the inner `while` loop of
`set_active_content`). -/
def lcp (a b : List Nat) : Nat :=
  match a, b with
  | x :: xs, y :: ys => if x = y then lcp xs ys + 1 else 0
  | _, _ => 0

/-- The active thread in root-first order, with fuel adequate for every
acyclic state. -/
def activeThreadR (w : DWeave) : List Nat :=
  (getActiveThread w (w.nodes.length + 1)).reverse

/-- Modelled from the spec: `v0::TapestryWeave::get_active_content`
(src/tapestry-weave/src/v0.rs) — the underlying `legacy_dependent` weave is
not among the repository's files, so the spec's tree weave (§2, §4.5),
embodied by this file's model of `src/src/dependent.rs`, stands in for it. -/
def getActiveContent (w : DWeave) : List Nat :=
  ((activeThreadR w).filterMap (mfind w.nodes)).flatMap
    (fun n => n.contents.content.asBytes)

/-- Modelled from the spec: `v0::TapestryWeave::add_node` — insert through
the underlying tree weave, then remove the node again if its contents
duplicate a sibling's, re-activating a duplicate when the new node was
active. -/
def v0AddNode (w : DWeave) (n : DNode) : DWeave × Bool :=
  let lastActiveSet := if n.active then getActiveThread w (w.nodes.length + 1) else []
  let r := addNode w n
  let dups := findDuplicates r.1 n.id
  if dups ≠ [] then
    let w2 :=
      if n.active then
        match dups.find? (fun d => decide (d ∈ lastActiveSet)) with
        | some d => (setActiveInPlace r.1 d true).1
        | none =>
          match dups.head? with
          | some d => (setActiveInPlace r.1 d true).1
          | none => r.1
      else r.1
    ((removeNode w2 n.id).1, r.2)
  else (r.1, r.2)

/-- The reconciliation walk of `set_active_content` (the `for` loop): walk
the root-first active thread, consuming matched content; on the first
mismatch split at the longest common prefix and stop.  Returns `none` when
the source would panic (`unwrap` on a missing thread node, or the
`split_node` assertion); otherwise the weave, the byte offset, the last kept
node and the `modified` flag. -/
def reconWalk (w : DWeave) (value : List Nat) (thread : List Nat)
    (offset0 : Nat) (last0 : Option Nat) (gen1 : Nat) :
    Option (DWeave × Nat × Option Nat × Bool) :=
  match thread with
  | [] => some (w, offset0, last0, false)
  | aid :: rest =>
    match mfind w.nodes aid with
    | none => none
    | some node =>
      let cb := node.contents.content.asBytes
      let cl := cb.length
      if value.length ≥ offset0 + cl ∧ (value.drop offset0).take cl = cb then
        reconWalk w value rest (offset0 + cl) (some node.id) gen1
      else
        let start := offset0
        let offset1 := start + lcp (value.drop start) cb
        if offset1 > start then
          if offset1 > 0 then
            match splitNode w node.id (offset1 - start) gen1 with
            | (w1, true) => some (w1, offset1, some node.id, true)
            | (_, false) => none
          else some (w, offset1, none, true)
        else some (w, offset1, last0, true)

/-- Modelled from the spec: `v0::TapestryWeave::set_active_content`
(src/tapestry-weave/src/v0.rs, §4.5 of the spec) over the tree weave.  The
caller's id generator is modelled by the two ids it would return: `gen1` for
the split call, `gen2` for the appended leaf.  `none` models a panic. -/
def setActiveContent (w : DWeave) (value : List Nat)
    (md : List (String × String)) (gen1 gen2 : Nat) : Option (DWeave × Bool) :=
  let thread := activeThreadR w
  let activeNode := thread.getLast?
  match reconWalk w value thread 0 none gen1 with
  | none => none
  | some (w1, offset, last1, modified) =>
    let w2 :=
      match last1 with
      | some ln => (setActive w1 ln true false).1
      | none =>
        match activeNode with
        | some an => (setActive w1 an false false).1
        | none => w1
    let step3 : DWeave × Nat × Option Nat :=
      match last1 with
      | some ln =>
        match mfind w2.nodes ln with
        | some node =>
          if node.too.length ≤ 1 ∧
              ((node.too.filterMap (mfind w2.nodes)).all fun child => child.too = []) = true ∧
              node.bookmarked = false ∧ node.contents.model = none ∧
              mapEquiv node.contents.metadata md = true then
            match removeNode w2 node.id with
            | (w2a, some rem) => (w2a, offset - rem.contents.content.byteLen, node.fro)
            | (w2a, none) => (w2a, offset, node.fro)
          else (w2, offset, some ln)
        | none => (w2, offset, some ln)
      | none => (w2, offset, none)
    if step3.2.1 < value.length then
      match v0AddNode step3.1
          ⟨gen2, step3.2.2, [], true, false,
            { content := .snippet (value.drop step3.2.1), metadata := md, model := none }⟩ with
      | (w4, true) => some (w4, true)
      | (_, false) => none
    else some (step3.1, modified)

end UWeave.Dep

namespace UWeave

theorem mfind_mem {α : Type} (m : List (Nat × α)) (k : Nat) (v : α)
    (h : mfind m k = some v) : (k, v) ∈ m := by
  induction m with
  | nil => simp [mfind] at h
  | cons kv rest ih =>
    rw [mfind_cons] at h
    by_cases hk : kv.1 = k
    · rw [if_pos hk] at h
      injection h with h1
      have he : kv = (k, v) := Prod.ext hk h1
      rw [← he]
      exact List.mem_cons_self kv rest
    · rw [if_neg hk] at h
      exact List.mem_cons_of_mem kv (ih h)

end UWeave

namespace UWeave.Dep

/-- The ancestor chain of a node: itself, then its parents up to a root. -/
inductive IsChain (nodes : List (Nat × DNode)) : Nat → List Nat → Prop where
  | root (id : Nat) (n : DNode) :
      mfind nodes id = some n → n.fro = none → IsChain nodes id [id]
  | step (id : Nat) (n : DNode) (p : Nat) (l : List Nat) :
      mfind nodes id = some n → n.fro = some p → IsChain nodes p l →
      IsChain nodes id (id :: l)

theorem isChain_head (nodes : List (Nat × DNode)) (id : Nat) (l : List Nat)
    (h : IsChain nodes id l) : ∃ t, l = id :: t := by
  cases h with
  | root id n hf hr => exact ⟨[], rfl⟩
  | step id n p t hf hp hc => exact ⟨t, rfl⟩

theorem isChain_unique (nodes : List (Nat × DNode)) (id : Nat) (l l' : List Nat)
    (h : IsChain nodes id l) (h' : IsChain nodes id l') : l = l' := by
  induction h generalizing l' with
  | root id n hf hr =>
    cases h' with
    | root id n' hf' hr' => rfl
    | step id n' p t hf' hp' hc' =>
      rw [hf] at hf'
      injection hf' with he
      rw [← he] at hp'
      rw [hr] at hp'
      exact absurd hp' (by simp)
  | step id n p t hf hp hc ih =>
    cases h' with
    | root id n' hf' hr' =>
      rw [hf] at hf'
      injection hf' with he
      rw [← he] at hr'
      rw [hp] at hr'
      exact absurd hr' (by simp)
    | step id n' p' t' hf' hp' hc' =>
      rw [hf] at hf'
      injection hf' with he
      rw [← he] at hp'
      rw [hp] at hp'
      injection hp' with hpe
      rw [← hpe] at hc'
      rw [ih t' hc']

theorem isChain_mem_suffix (nodes : List (Nat × DNode)) (id : Nat) (l : List Nat)
    (h : IsChain nodes id l) :
    ∀ k ∈ l, ∃ t pre, IsChain nodes k t ∧ l = pre ++ t := by
  induction h with
  | root id n hf hr =>
    intro k hk
    rw [List.mem_singleton] at hk
    subst hk
    exact ⟨[k], [], IsChain.root k n hf hr, rfl⟩
  | step id n p t hf hp hc ih =>
    intro k hk
    rw [List.mem_cons] at hk
    rcases hk with hk | hk
    · subst hk
      exact ⟨k :: t, [], IsChain.step k n p t hf hp hc, rfl⟩
    · obtain ⟨t', pre, hct, hsplit⟩ := ih k hk
      exact ⟨t', id :: pre, hct, by rw [List.cons_append, hsplit]⟩

theorem isChain_nodup (nodes : List (Nat × DNode)) (id : Nat) (l : List Nat)
    (h : IsChain nodes id l) : l.Nodup := by
  induction h with
  | root id n hf hr => exact List.nodup_singleton id
  | step id n p t hf hp hc ih =>
    rw [List.nodup_cons]
    refine ⟨?_, ih⟩
    intro hmem
    obtain ⟨t', pre, hct, hsplit⟩ := isChain_mem_suffix nodes p t hc id hmem
    have he : t' = id :: t := isChain_unique nodes id t' (id :: t) hct
      (IsChain.step id n p t hf hp hc)
    rw [he] at hsplit
    have : t.length = pre.length + (t.length + 1) := by
      calc t.length = (pre ++ id :: t).length := by rw [← hsplit]
      _ = pre.length + (t.length + 1) := by simp
    omega

theorem isChain_mem_keys (nodes : List (Nat × DNode)) (id : Nat) (l : List Nat)
    (h : IsChain nodes id l) : ∀ k ∈ l, ∃ n, mfind nodes k = some n := by
  induction h with
  | root id n hf hr =>
    intro k hk
    rw [List.mem_singleton] at hk
    subst hk
    exact ⟨n, hf⟩
  | step id n p t hf hp hc ih =>
    intro k hk
    rw [List.mem_cons] at hk
    rcases hk with hk | hk
    · subst hk; exact ⟨n, hf⟩
    · exact ih k hk

theorem isChain_length_le (nodes : List (Nat × DNode)) (id : Nat) (l : List Nat)
    (_hnd : NodupKeys nodes) (h : IsChain nodes id l) : l.length ≤ nodes.length := by
  have hsub : l ⊆ nodes.map Prod.fst := by
    intro k hk
    obtain ⟨n, hn⟩ := isChain_mem_keys nodes id l h k hk
    have := mfind_mem nodes k n hn
    exact List.mem_map.mpr ⟨(k, n), this, rfl⟩
  have := (List.subperm_of_subset (isChain_nodup nodes id l h) hsub).length_le
  simpa using this

theorem isChain_buildThread (nodes : List (Nat × DNode)) (id : Nat) (l : List Nat)
    (h : IsChain nodes id l) :
    ∀ fuel, l.length ≤ fuel → buildThread fuel nodes id = l := by
  induction h with
  | root id n hf hr =>
    intro fuel hfuel
    cases fuel with
    | zero => simp at hfuel
    | succ fuel =>
      unfold buildThread
      rw [hf]
      simp only []
      simp [hr]
  | step id n p t hf hp hc ih =>
    intro fuel hfuel
    cases fuel with
    | zero => simp at hfuel
    | succ fuel =>
      unfold buildThread
      rw [hf]
      simp only []
      simp [hp, ih fuel (by simp at hfuel; omega)]

theorem isChain_congr (nodes nodes' : List (Nat × DNode)) (id : Nat) (l : List Nat)
    (h : IsChain nodes id l)
    (hagree : ∀ k ∈ l, ∀ n, mfind nodes k = some n →
      ∃ n', mfind nodes' k = some n' ∧ n'.fro = n.fro) :
    IsChain nodes' id l := by
  induction h with
  | root id n hf hr =>
    obtain ⟨n', hf', he⟩ := hagree id (by simp) n hf
    exact IsChain.root id n' hf' (by rw [he, hr])
  | step id n p t hf hp hc ih =>
    obtain ⟨n', hf', he⟩ := hagree id (by simp) n hf
    exact IsChain.step id n' p t hf' (by rw [he, hp])
      (ih (fun k hk => hagree k (by simp [hk])))

/-- Fueled check that a node's parent chain reaches a root. -/
def chainOkB (fuel : Nat) (nodes : List (Nat × DNode)) (id : Nat) : Bool :=
  match fuel with
  | 0 => false
  | fuel + 1 =>
    match mfind nodes id with
    | none => false
    | some n =>
      match n.fro with
      | none => true
      | some p => chainOkB fuel nodes p

theorem chainOkB_isChain : ∀ (fuel : Nat) (nodes : List (Nat × DNode)) (id : Nat),
    chainOkB fuel nodes id = true → ∃ l, IsChain nodes id l := by
  intro fuel
  induction fuel with
  | zero => intro nodes id h; simp [chainOkB] at h
  | succ fuel ih =>
    intro nodes id h
    unfold chainOkB at h
    cases hf : mfind nodes id with
    | none => rw [hf] at h; simp at h
    | some n =>
      rw [hf] at h
      simp only [] at h
      cases hp : n.fro with
      | none => exact ⟨[id], IsChain.root id n hf hp⟩
      | some p =>
        rw [hp] at h
        simp only [] at h
        obtain ⟨l, hl⟩ := ih nodes p h
        exact ⟨id :: l, IsChain.step id n p l hf hp hl⟩

/-- Decidable well-formedness of a tree weave state: duplicate-free keys,
id coherence, edge symmetry, root membership, flag/store agreement, and
rooted acyclic parent chains.  Every state reachable by successful public
operations satisfies it (`validate` asserts the same facts). -/
def wfB (w : DWeave) : Bool :=
  decide (NodupKeys w.nodes) &&
  (match w.active with
   | some a => decide (mcontains w.nodes a)
   | none => true) &&
  w.roots.all (fun r =>
    match mfind w.nodes r with
    | some rn => decide (rn.fro = none)
    | none => false) &&
  decide w.roots.Nodup &&
  w.nodes.all (fun kv =>
    decide (kv.2.id = kv.1) &&
    decide (kv.1 ∉ kv.2.too) &&
    decide kv.2.too.Nodup &&
    (match kv.2.fro with
     | some p =>
       (match mfind w.nodes p with
        | some pn => decide (kv.1 ∈ pn.too)
        | none => false) && decide (kv.1 ∉ w.roots)
     | none => decide (kv.1 ∈ w.roots)) &&
    kv.2.too.all (fun c =>
      match mfind w.nodes c with
      | some cn => decide (cn.fro = some kv.1)
      | none => false) &&
    (kv.2.active == decide (w.active = some kv.1)) &&
    chainOkB (w.nodes.length + 1) w.nodes kv.1)

theorem wf_nodup (w : DWeave) (hwf : wfB w = true) : NodupKeys w.nodes := by
  unfold wfB at hwf
  simp only [Bool.and_eq_true, decide_eq_true_eq] at hwf
  exact hwf.1.1.1.1

theorem wf_roots_nodup (w : DWeave) (hwf : wfB w = true) : w.roots.Nodup := by
  unfold wfB at hwf
  simp only [Bool.and_eq_true, decide_eq_true_eq] at hwf
  exact hwf.1.2

theorem wf_active_present (w : DWeave) (hwf : wfB w = true) (a : Nat)
    (ha : w.active = some a) : ∃ n, mfind w.nodes a = some n := by
  unfold wfB at hwf
  simp only [Bool.and_eq_true, decide_eq_true_eq] at hwf
  have h2 := hwf.1.1.1.2
  rw [ha] at h2
  simp only [decide_eq_true_eq] at h2
  unfold mcontains at h2
  cases hm : mfind w.nodes a with
  | some n => exact ⟨n, rfl⟩
  | none =>
    rw [hm] at h2
    simp at h2

theorem wf_roots (w : DWeave) (hwf : wfB w = true) (r : Nat) (hr : r ∈ w.roots) :
    ∃ n, mfind w.nodes r = some n ∧ n.fro = none := by
  unfold wfB at hwf
  simp only [Bool.and_eq_true, decide_eq_true_eq] at hwf
  have h3 := List.all_eq_true.mp hwf.1.1.2 r hr
  cases hm : mfind w.nodes r with
  | some n =>
    rw [hm] at h3
    exact ⟨n, rfl, by simpa using h3⟩
  | none =>
    rw [hm] at h3
    simp at h3

theorem wf_node_facts (w : DWeave) (hwf : wfB w = true) (k : Nat) (n : DNode)
    (hf : mfind w.nodes k = some n) :
    n.id = k ∧
    k ∉ n.too ∧
    (∀ p, n.fro = some p →
      (∃ pn, mfind w.nodes p = some pn ∧ k ∈ pn.too) ∧ k ∉ w.roots) ∧
    (n.fro = none → k ∈ w.roots) ∧
    (∀ c ∈ n.too, ∃ cn, mfind w.nodes c = some cn ∧ cn.fro = some k) ∧
    (n.active = true ↔ w.active = some k) ∧
    (∃ l, IsChain w.nodes k l) ∧
    n.too.Nodup := by
  have hmem : (k, n) ∈ w.nodes := mfind_mem w.nodes k n hf
  unfold wfB at hwf
  simp only [Bool.and_eq_true, decide_eq_true_eq] at hwf
  have h4 := List.all_eq_true.mp hwf.2 (k, n) hmem
  simp only [Bool.and_eq_true, decide_eq_true_eq] at h4
  obtain ⟨⟨⟨⟨⟨⟨hid, hself⟩, htoond⟩, hfro⟩, hchild⟩, hflag⟩, hchain⟩ := h4
  refine ⟨hid, hself, ?_, ?_, ?_, ?_, chainOkB_isChain _ _ _ hchain, htoond⟩
  · intro p hp
    rw [hp] at hfro
    simp only [] at hfro
    cases hm : mfind w.nodes p with
    | some pn =>
      rw [hm] at hfro
      simp only [Bool.and_eq_true, decide_eq_true_eq] at hfro
      exact ⟨⟨pn, rfl, hfro.1⟩, hfro.2⟩
    | none =>
      rw [hm] at hfro
      simp at hfro
  · intro hr
    rw [hr] at hfro
    simpa using hfro
  · intro c hc
    have h5 := List.all_eq_true.mp hchild c hc
    cases hm : mfind w.nodes c with
    | some cn =>
      rw [hm] at h5
      exact ⟨cn, rfl, by simpa using h5⟩
    | none =>
      rw [hm] at h5
      simp at h5
  · rw [beq_iff_eq] at hflag
    rw [hflag]
    exact decide_eq_true_iff

end UWeave.Dep

namespace UWeave.V0

theorem take_app (a b : List Nat) (n : Nat) :
    (a ++ b).take (a.length + n) = a ++ b.take n := by
  induction a with
  | nil => simp
  | cons x xs ih => simp [List.take_succ_cons, Nat.succ_add, ih]

theorem drop_app (a b : List Nat) (n : Nat) :
    (a ++ b).drop (a.length + n) = b.drop n := by
  induction a with
  | nil => simp
  | cons x xs ih => simp [List.drop_succ_cons, Nat.succ_add, ih]

/-- Byte length of a token list. -/
def toksLen (toks : List (List Nat × List (String × String))) : Nat :=
  (toks.map fun t => t.1.length).sum

theorem toks_flat_len (toks : List (List Nat × List (String × String))) :
    (toks.flatMap fun t => t.1).length = toksLen toks := by
  induction toks with
  | nil => rfl
  | cons t rest ih => simp [toksLen, List.flatMap_cons, ih]

theorem byteLen_asBytes (c : InnerNodeContent) : c.byteLen = c.asBytes.length := by
  cases c with
  | snippet s => rfl
  | tokens toks => simpa [InnerNodeContent.byteLen, InnerNodeContent.asBytes] using
      (toks_flat_len toks).symm

theorem findTokenLoc_spec :
    ∀ (toks : List (List Nat × List (String × String))) (at_ loc0 ci0 : Nat),
    ci0 ≤ at_ → at_ < ci0 + toksLen toks →
    ∃ j t0 rest,
      findTokenLoc toks at_ loc0 ci0 = some (loc0 + j, ci0 + toksLen (toks.take j)) ∧
      toks.drop j = t0 :: rest ∧
      ci0 + toksLen (toks.take j) ≤ at_ ∧
      at_ < ci0 + toksLen (toks.take j) + t0.1.length := by
  intro toks
  induction toks with
  | nil =>
    intro at_ loc0 ci0 h1 h2
    simp [toksLen] at h2
    omega
  | cons t rest ih =>
    intro at_ loc0 ci0 h1 h2
    by_cases hc : at_ < ci0 + t.1.length
    · refine ⟨0, t, rest, ?_, rfl, ?_, ?_⟩
      · unfold findTokenLoc
        rw [if_pos hc]
        simp [toksLen]
      · simpa [toksLen] using h1
      · simpa [toksLen] using hc
    · have h2' : at_ < ci0 + t.1.length + toksLen rest := by
        have hc2 : toksLen (t :: rest) = t.1.length + toksLen rest := rfl
        rw [hc2] at h2
        omega
      obtain ⟨j, t0, rest', hfind, hdrop, hle, hlt⟩ :=
        ih at_ (loc0 + 1) (ci0 + t.1.length) (by omega) h2'
      refine ⟨j + 1, t0, rest', ?_, ?_, ?_, ?_⟩
      · unfold findTokenLoc
        rw [if_neg hc, hfind]
        have hc3 : toksLen ((t :: rest).take (j + 1)) = t.1.length + toksLen (rest.take j) := rfl
        congr 2
        · omega
        · rw [hc3]
          omega
      · simpa using hdrop
      · have hc3 : toksLen ((t :: rest).take (j + 1)) = t.1.length + toksLen (rest.take j) := rfl
        rw [hc3]
        omega
      · have hc3 : toksLen ((t :: rest).take (j + 1)) = t.1.length + toksLen (rest.take j) := rfl
        rw [hc3]
        omega

theorem toksLen_cons (t : List Nat × List (String × String))
    (rest : List (List Nat × List (String × String))) :
    toksLen (t :: rest) = t.1.length + toksLen rest := by
  simp [toksLen]

theorem v0_inner_split_interior (c : InnerNodeContent) (at_ : Nat)
    (h0 : 0 < at_) (hlt : at_ < c.byteLen) :
    ∃ l r, c.splitAt at_ = .two l r ∧
      l.asBytes = c.asBytes.take at_ ∧ r.asBytes = c.asBytes.drop at_ := by
  cases c with
  | snippet s =>
    refine ⟨.snippet (s.take at_), .snippet (s.drop at_), ?_, rfl, rfl⟩
    unfold InnerNodeContent.splitAt
    rw [if_neg (by omega)]
    simp only []
    rw [if_neg (by simp only [InnerNodeContent.byteLen] at hlt; omega)]
  | tokens toks =>
    have hlt' : at_ < 0 + toksLen toks := by
      simpa [InnerNodeContent.byteLen, toksLen] using hlt
    obtain ⟨j, t0, rrest, hfind, hdrop, hle, hltj⟩ :=
      findTokenLoc_spec toks at_ 0 0 (by omega) hlt'
    simp only [Nat.zero_add] at hfind hle hltj
    have hsplitlist : toks = toks.take j ++ t0 :: rrest := by
      rw [← hdrop, List.take_append_drop]
    have hflat : (toks.flatMap fun t => t.1) =
        ((toks.take j).flatMap fun t => t.1) ++ t0.1 ++ (rrest.flatMap fun t => t.1) := by
      calc (toks.flatMap fun t => t.1)
          = ((toks.take j ++ t0 :: rrest).flatMap fun t => t.1) := by rw [← hsplitlist]
        _ = ((toks.take j).flatMap fun t => t.1) ++ t0.1 ++ (rrest.flatMap fun t => t.1) := by
            simp [List.flatMap_append]
    unfold InnerNodeContent.splitAt
    rw [if_neg (by omega)]
    simp only []
    rw [if_neg (by simp only [InnerNodeContent.byteLen, toksLen] at hlt' ⊢; omega)]
    rw [hfind]
    simp only []
    rw [hdrop]
    simp only []
    by_cases hne : t0.1.take (at_ - toksLen (toks.take j)) ≠ []
    · rw [if_pos hne]
      refine ⟨_, _, rfl, ?_, ?_⟩
      · show ((toks.take j ++ [(t0.1.take (at_ - toksLen (toks.take j)), t0.2)]).flatMap
          fun t => t.1) = (toks.flatMap fun t => t.1).take at_
        rw [List.flatMap_append, hflat, List.append_assoc]
        conv_rhs => rw [show at_ = ((toks.take j).flatMap fun t => t.1).length +
          (at_ - toksLen (toks.take j)) from by rw [toks_flat_len]; omega]
        rw [take_app]
        rw [List.take_append_of_le_length (by omega)]
        simp
      · show t0.1.drop (at_ - toksLen (toks.take j)) ++ (rrest.flatMap fun t => t.1) =
          (toks.flatMap fun t => t.1).drop at_
        rw [hflat, List.append_assoc]
        conv_rhs => rw [show at_ = ((toks.take j).flatMap fun t => t.1).length +
          (at_ - toksLen (toks.take j)) from by rw [toks_flat_len]; omega]
        rw [drop_app]
        rw [List.drop_append_of_le_length (by omega)]
    · rw [if_neg hne]
      rw [not_not] at hne
      have hz : at_ - toksLen (toks.take j) = 0 := by
        rcases List.take_eq_nil_iff.mp hne with h | h
        · exact h
        · rw [h] at hltj
          simp at hltj
          omega
      refine ⟨_, _, rfl, ?_, ?_⟩
      · show ((toks.take j).flatMap fun t => t.1) = (toks.flatMap fun t => t.1).take at_
        rw [hflat, List.append_assoc]
        conv_rhs => rw [show at_ = ((toks.take j).flatMap fun t => t.1).length + 0 from by
          rw [toks_flat_len]; omega]
        rw [take_app]
        simp
      · show t0.1.drop (at_ - toksLen (toks.take j)) ++ (rrest.flatMap fun t => t.1) =
          (toks.flatMap fun t => t.1).drop at_
        rw [hz, List.drop_zero, hflat, List.append_assoc]
        conv_rhs => rw [show at_ = ((toks.take j).flatMap fun t => t.1).length + 0 from by
          rw [toks_flat_len]; omega]
        rw [drop_app]
        simp

theorem v0_split_interior (c : NodeContent) (at_ : Nat)
    (h0 : 0 < at_) (hlt : at_ < c.content.byteLen) :
    ∃ l r, c.splitAt at_ = .two l r ∧
      l.content.asBytes = c.content.asBytes.take at_ ∧
      r.content.asBytes = c.content.asBytes.drop at_ := by
  obtain ⟨il, ir, hsp, hbl, hbr⟩ := v0_inner_split_interior c.content at_ h0 hlt
  refine ⟨{ c with content := il },
    { content := ir, metadata := c.metadata, model := c.model }, ?_, hbl, hbr⟩
  unfold NodeContent.splitAt
  rw [hsp]

theorem tokListEq_bytes :
    ∀ (a b : List (List Nat × List (String × String))), tokListEq a b = true →
    (a.flatMap fun t => t.1) = (b.flatMap fun t => t.1) := by
  intro a
  induction a with
  | nil =>
    intro b h
    cases b with
    | nil => rfl
    | cons y ys => simp [tokListEq] at h
  | cons x xs ih =>
    intro b h
    cases b with
    | nil => simp [tokListEq] at h
    | cons y ys =>
      simp only [tokListEq, List.zip_cons_cons, List.all_cons, Bool.and_eq_true,
        beq_iff_eq, List.length_cons, Nat.succ.injEq, decide_eq_true_eq] at h
      obtain ⟨hlen, ⟨⟨hb, _⟩, htail⟩⟩ := h
      have htl : tokListEq xs ys = true := by
        simp only [tokListEq, Bool.and_eq_true, beq_iff_eq, decide_eq_true_eq]
        constructor
        · simpa using hlen
        · exact htail
      simp [List.flatMap_cons, hb, ih ys htl]

theorem ncEq_bytes (a b : NodeContent) (h : ncEq a b = true) :
    a.content.asBytes = b.content.asBytes := by
  unfold ncEq at h
  simp only [Bool.and_eq_true] at h
  have hinner := h.1.1
  unfold innerEq at hinner
  cases ha : a.content with
  | snippet x =>
    rw [ha] at hinner
    cases hb : b.content with
    | snippet y =>
      rw [hb] at hinner
      simp only [beq_iff_eq] at hinner
      simp [InnerNodeContent.asBytes, hinner]
    | tokens y => rw [hb] at hinner; simp at hinner
  | tokens x =>
    rw [ha] at hinner
    cases hb : b.content with
    | snippet y => rw [hb] at hinner; simp at hinner
    | tokens y =>
      rw [hb] at hinner
      simp only [InnerNodeContent.asBytes]
      exact tokListEq_bytes x y hinner

end UWeave.V0

namespace UWeave

/-- Erasing one key leaves every other key's binding unchanged, with no
duplicate-free hypothesis. -/
theorem mfind_merase_ne {α : Type} (m : List (Nat × α)) (k k' : Nat)
    (h : k' ≠ k) : mfind (merase m k) k' = mfind m k' := by
  induction m with
  | nil => rfl
  | cons kv rest ih =>
    rw [merase_cons]
    by_cases h1 : kv.1 = k
    · rw [if_pos h1, mfind_cons, if_neg (fun he => h (by rw [← he]; exact h1))]
    · rw [if_neg h1, mfind_cons, mfind_cons, ih]

theorem madjust_absent {α : Type} (m : List (Nat × α)) (k : Nat) (f : α → α)
    (h : k ∉ m.map Prod.fst) : madjust m k f = m := by
  induction m with
  | nil => rfl
  | cons kv rest ih =>
    simp only [List.map_cons, List.mem_cons, not_or] at h
    rw [madjust_cons, if_neg (fun he => h.1 he.symm), ih h.2]

end UWeave

namespace UWeave.Dep

/-- Concatenated payload bytes along a root-first node-id path. -/
def pathBytes (nodes : List (Nat × DNode)) (xs : List Nat) : List Nat :=
  (xs.filterMap (mfind nodes)).flatMap (fun n => n.contents.content.asBytes)

theorem pathBytes_nil (nodes : List (Nat × DNode)) : pathBytes nodes [] = [] := rfl

theorem pathBytes_cons (nodes : List (Nat × DNode)) (x : Nat) (xs : List Nat)
    (n : DNode) (hf : mfind nodes x = some n) :
    pathBytes nodes (x :: xs) =
      n.contents.content.asBytes ++ pathBytes nodes xs := by
  unfold pathBytes
  rw [List.filterMap_cons, hf]
  simp [List.flatMap_cons]

theorem pathBytes_append (nodes : List (Nat × DNode)) (xs ys : List Nat) :
    pathBytes nodes (xs ++ ys) = pathBytes nodes xs ++ pathBytes nodes ys := by
  unfold pathBytes
  rw [List.filterMap_append, List.flatMap_append]

/-- `pathBytes` only looks at presence and payloads of the path members. -/
theorem pathBytes_congr (nodes nodes' : List (Nat × DNode)) (xs : List Nat)
    (h : ∀ k ∈ xs, ∃ n n', mfind nodes k = some n ∧ mfind nodes' k = some n' ∧
      n'.contents.content.asBytes = n.contents.content.asBytes) :
    pathBytes nodes' xs = pathBytes nodes xs := by
  induction xs with
  | nil => rfl
  | cons x rest ih =>
    obtain ⟨n, n', hn, hn', hb⟩ := h x (by simp)
    rw [pathBytes_cons nodes x rest n hn, pathBytes_cons nodes' x rest n' hn',
      ih (fun k hk => h k (by simp [hk])), hb]

/-- The active content is the byte path along the active chain. -/
theorem gac_of_chain (w : DWeave) (a : Nat) (l : List Nat)
    (hact : w.active = some a) (hnd : NodupKeys w.nodes)
    (hch : IsChain w.nodes a l) :
    getActiveContent w = pathBytes w.nodes l.reverse := by
  show pathBytes w.nodes (activeThreadR w) = pathBytes w.nodes l.reverse
  unfold activeThreadR getActiveThread
  rw [hact]
  simp only []
  rw [isChain_buildThread w.nodes a l hch (w.nodes.length + 1)
    (by have := isChain_length_le w.nodes a l hnd hch; omega)]

theorem gac_none (w : DWeave) (hact : w.active = none) : getActiveContent w = [] := by
  show pathBytes w.nodes (activeThreadR w) = []
  unfold activeThreadR getActiveThread
  rw [hact]
  rfl

/-- The active thread is the reversed active chain. -/
theorem threadR_of_chain (w : DWeave) (a : Nat) (l : List Nat)
    (hact : w.active = some a) (hnd : NodupKeys w.nodes)
    (hch : IsChain w.nodes a l) : activeThreadR w = l.reverse := by
  unfold activeThreadR getActiveThread
  rw [hact]
  simp only []
  rw [isChain_buildThread w.nodes a l hch (w.nodes.length + 1)
    (by have := isChain_length_le w.nodes a l hnd hch; omega)]

theorem threadR_none (w : DWeave) (hact : w.active = none) : activeThreadR w = [] := by
  unfold activeThreadR getActiveThread
  rw [hact]
  rfl

/-- Explicit form of a successful activation when another node was active. -/
theorem act_eq_other (w : DWeave) (id : Nat) (n : DNode) (a0 : Nat)
    (hf : mfind w.nodes id = some n) (ha : w.active = some a0) (hne : a0 ≠ id) :
    setActiveInPlace w id true =
      ({ w with
         nodes := madjust (madjust w.nodes id (fun m => { m with active := true })) a0
           (fun m => { m with active := false }),
         active := some id }, true) := by
  unfold setActiveInPlace
  rw [hf]
  simp only [ha]
  rw [if_pos (by decide), if_pos (by simpa using hne)]

/-- Explicit form of a successful activation when the store was empty. -/
theorem act_eq_none (w : DWeave) (id : Nat) (n : DNode)
    (hf : mfind w.nodes id = some n) (ha : w.active = none) :
    setActiveInPlace w id true =
      ({ w with
         nodes := madjust w.nodes id (fun m => { m with active := true }),
         active := some id }, true) := by
  unfold setActiveInPlace
  rw [hf]
  simp only [ha]
  rw [if_pos (by decide), if_pos (by simp)]

/-- Explicit form of a successful activation of the already-active node. -/
theorem act_eq_self (w : DWeave) (id : Nat) (n : DNode)
    (hf : mfind w.nodes id = some n) (ha : w.active = some id) :
    setActiveInPlace w id true =
      ({ w with
         nodes := madjust w.nodes id (fun m => { m with active := true }),
         active := some id }, true) := by
  unfold setActiveInPlace
  rw [hf]
  simp only [ha]
  rw [if_pos (by decide), if_neg (by simp)]

/-- Explicit form of a successful deactivation of the active node. -/
theorem deact_eq_self (w : DWeave) (id : Nat) (n : DNode)
    (hf : mfind w.nodes id = some n) (ha : w.active = some id) :
    setActiveInPlace w id false =
      ({ w with
         nodes := madjust w.nodes id (fun m => { m with active := false }),
         active := none }, true) := by
  unfold setActiveInPlace
  rw [hf]
  simp only [ha]
  rw [if_neg (by decide), if_pos (by simp)]

end UWeave.Dep

namespace UWeave.Dep

theorem lcp_le_left : ∀ (a b : List Nat), lcp a b ≤ a.length := by
  intro a
  induction a with
  | nil => intro b; cases b <;> simp [lcp]
  | cons x xs ih =>
    intro b
    cases b with
    | nil => simp [lcp]
    | cons y ys =>
      unfold lcp
      by_cases h : x = y
      · rw [if_pos h]
        simpa using ih ys
      · rw [if_neg h]
        simp

theorem lcp_le_right : ∀ (a b : List Nat), lcp a b ≤ b.length := by
  intro a
  induction a with
  | nil => intro b; cases b <;> simp [lcp]
  | cons x xs ih =>
    intro b
    cases b with
    | nil => simp [lcp]
    | cons y ys =>
      unfold lcp
      by_cases h : x = y
      · rw [if_pos h]
        simpa using ih ys
      · rw [if_neg h]
        simp

theorem lcp_take_eq : ∀ (a b : List Nat), a.take (lcp a b) = b.take (lcp a b) := by
  intro a
  induction a with
  | nil => intro b; cases b <;> simp [lcp]
  | cons x xs ih =>
    intro b
    cases b with
    | nil => simp [lcp]
    | cons y ys =>
      unfold lcp
      by_cases h : x = y
      · rw [if_pos h]
        simp [List.take_succ_cons, h, ih ys]
      · rw [if_neg h]
        simp

/-- A root-first parent-linked path: `par` is the parent of the first node,
each node is the parent of the next, `tip` is the last node (or `par` when
the path is empty). -/
def IsPathDown (nodes : List (Nat × DNode)) : Option Nat → List Nat → Option Nat → Prop
  | par, [], tip => tip = par
  | par, x :: xs, tip =>
    ∃ n, mfind nodes x = some n ∧ n.fro = par ∧ IsPathDown nodes (some x) xs tip

theorem pathDown_snoc (nodes : List (Nat × DNode)) :
    ∀ (xs : List Nat) (par tip : Option Nat) (y : Nat) (ny : DNode),
    IsPathDown nodes par xs tip → mfind nodes y = some ny → ny.fro = tip →
    IsPathDown nodes par (xs ++ [y]) (some y) := by
  intro xs
  induction xs with
  | nil =>
    intro par tip y ny h hy hfro
    unfold IsPathDown at h
    exact ⟨ny, hy, by rw [hfro, h], rfl⟩
  | cons x rest ih =>
    intro par tip y ny h hy hfro
    obtain ⟨n, hx, hf, hrest⟩ := h
    exact ⟨n, hx, hf, ih (some x) tip y ny hrest hy hfro⟩

theorem isChain_pathDown (nodes : List (Nat × DNode)) (a : Nat) (l : List Nat)
    (h : IsChain nodes a l) : IsPathDown nodes none l.reverse (some a) := by
  induction h with
  | root id n hf hr => exact ⟨n, hf, hr, rfl⟩
  | step id n p t hf hp hc ih =>
    rw [List.reverse_cons]
    exact pathDown_snoc nodes t.reverse none (some p) id n ih hf hp

theorem pathDown_chain_acc (nodes : List (Nat × DNode)) :
    ∀ (xs : List Nat) (r : Nat) (lr : List Nat) (a : Nat),
    IsPathDown nodes (some r) xs (some a) → IsChain nodes r lr →
    IsChain nodes a (xs.reverse ++ lr) := by
  intro xs
  induction xs with
  | nil =>
    intro r lr a h hlr
    unfold IsPathDown at h
    injection h with he
    subst he
    simpa using hlr
  | cons x rest ih =>
    intro r lr a h hlr
    obtain ⟨n, hx, hf, hrest⟩ := h
    have hx1 : IsChain nodes x (x :: lr) := IsChain.step x n r lr hx hf hlr
    have := ih x (x :: lr) a hrest hx1
    simpa [List.reverse_cons, List.append_assoc] using this

theorem pathDown_chain (nodes : List (Nat × DNode)) (xs : List Nat) (a : Nat)
    (h : IsPathDown nodes none xs (some a)) : IsChain nodes a xs.reverse := by
  cases xs with
  | nil => unfold IsPathDown at h; exact absurd h (by simp)
  | cons x rest =>
    obtain ⟨n, hx, hf, hrest⟩ := h
    have hx1 : IsChain nodes x [x] := IsChain.root x n hx hf
    have := pathDown_chain_acc nodes rest x [x] a hrest hx1
    simpa [List.reverse_cons] using this

theorem mfind_foldl_madjust (f : DNode → DNode)
    (hidem : ∀ x, f (f x) = f x) :
    ∀ (l : List Nat) (m : List (Nat × DNode)) (c : Nat), NodupKeys m →
    mfind (l.foldl (fun acc x => madjust acc x f) m) c =
      if c ∈ l then (mfind m c).map f else mfind m c := by
  intro l
  induction l with
  | nil =>
    intro m c hnd
    simp
  | cons x rest ih =>
    intro m c hnd
    rw [List.foldl_cons, ih (madjust m x f) c (nodup_madjust _ _ _ hnd)]
    by_cases hc : c ∈ rest
    · rw [if_pos hc, if_pos (by simp [hc])]
      rw [mfind_madjust _ _ _ _ hnd]
      by_cases hx : c = x
      · rw [if_pos hx, hx, Option.map_map]
        cases hm : mfind m x with
        | none => rfl
        | some v => simp [Function.comp, hidem]
      · rw [if_neg hx]
    · rw [if_neg hc]
      rw [mfind_madjust _ _ _ _ hnd]
      by_cases hx : c = x
      · rw [if_pos hx, if_pos (by simp [hx])]
        rw [hx]
      · rw [if_neg hx, if_neg (by simp [hx, hc])]

theorem keys_foldl_madjust (f : DNode → DNode) :
    ∀ (l : List Nat) (m : List (Nat × DNode)),
    (l.foldl (fun acc x => madjust acc x f) m).map Prod.fst = m.map Prod.fst := by
  intro l
  induction l with
  | nil => intro m; rfl
  | cons x rest ih =>
    intro m
    rw [List.foldl_cons, ih, keys_madjust]

/-- The targeted invariants carried through the reconciliation stages. -/
structure Slim (w1 : DWeave) : Prop where
  nodup : NodupKeys w1.nodes
  idcoh : ∀ k n, mfind w1.nodes k = some n → n.id = k
  selfnc : ∀ k n, mfind w1.nodes k = some n → k ∉ n.too
  toond : ∀ k n, mfind w1.nodes k = some n → n.too.Nodup
  honest : ∀ k n, mfind w1.nodes k = some n → (n.active = true ↔ w1.active = some k)
  childedge : ∀ k n c, mfind w1.nodes k = some n → c ∈ n.too →
    ∃ nc, mfind w1.nodes c = some nc ∧ nc.fro = some k
  rootsfact : ∀ r ∈ w1.roots, ∃ nr, mfind w1.nodes r = some nr ∧ nr.fro = none
  rootsnd : w1.roots.Nodup
  actpres : ∀ a, w1.active = some a → ∃ na, mfind w1.nodes a = some na

theorem wf_slim (w : DWeave) (hwf : wfB w = true) : Slim w := by
  refine ⟨wf_nodup w hwf, ?_, ?_, ?_, ?_, ?_, ?_, wf_roots_nodup w hwf, ?_⟩
  · intro k n hf
    exact (wf_node_facts w hwf k n hf).1
  · intro k n hf
    exact (wf_node_facts w hwf k n hf).2.1
  · intro k n hf
    exact (wf_node_facts w hwf k n hf).2.2.2.2.2.2.2
  · intro k n hf
    exact (wf_node_facts w hwf k n hf).2.2.2.2.2.1
  · intro k n c hf hc
    exact (wf_node_facts w hwf k n hf).2.2.2.2.1 c hc
  · intro r hr
    exact wf_roots w hwf r hr
  · intro a ha
    exact wf_active_present w hwf a ha

end UWeave.Dep

namespace UWeave.Dep

theorem isChain_inv (nodes : List (Nat × DNode)) (id : Nat) (l : List Nat) (n : DNode)
    (hf : mfind nodes id = some n) (h : IsChain nodes id (id :: l)) :
    (n.fro = none ∧ l = []) ∨ (∃ p, n.fro = some p ∧ IsChain nodes p l) := by
  cases h with
  | root _ n' hf' hr' =>
    rw [hf] at hf'
    injection hf' with he
    exact Or.inl ⟨by rw [he]; exact hr', rfl⟩
  | step _ n' p t hf' hp' hc' =>
    rw [hf] at hf'
    injection hf' with he
    exact Or.inr ⟨p, by rw [he]; exact hp', hc'⟩

/-- A node whose own chain is longer than another chain cannot sit on the
latter: ancestor chains are suffix-closed and unique. -/
theorem chain_desc_not_mem (nodes : List (Nat × DNode)) (x : Nat) (xch : List Nat)
    (hch : IsChain nodes x xch) (k : Nat) (kch : List Nat)
    (hkch : IsChain nodes k kch) (hlen : xch.length < kch.length) : k ∉ xch := by
  intro hk
  obtain ⟨t, pre, hct, hsplit⟩ := isChain_mem_suffix nodes x xch hch k hk
  have he : t = kch := isChain_unique nodes k t kch hct hkch
  rw [he] at hsplit
  have : xch.length = pre.length + kch.length := by rw [hsplit]; simp
  omega

/-- Two weaves agreeing on node presence, parent links and payloads. -/
def SkelEq (w1 w2 : DWeave) : Prop :=
  (∀ k, mfind w1.nodes k = none → mfind w2.nodes k = none) ∧
  (∀ k n, mfind w1.nodes k = some n → ∃ n2, mfind w2.nodes k = some n2 ∧
    n2.fro = n.fro ∧ n2.contents = n.contents)

theorem skel_isChain (w1 w2 : DWeave) (hsk : SkelEq w1 w2) (id : Nat) (l : List Nat)
    (h : IsChain w1.nodes id l) : IsChain w2.nodes id l := by
  refine isChain_congr w1.nodes w2.nodes id l h ?_
  intro k hk n hn
  obtain ⟨n2, h2, hfro, _⟩ := hsk.2 k n hn
  exact ⟨n2, h2, hfro⟩

theorem skel_pathBytes (w1 w2 : DWeave) (hsk : SkelEq w1 w2) (xs : List Nat)
    (hmem : ∀ k ∈ xs, ∃ n, mfind w1.nodes k = some n) :
    pathBytes w2.nodes xs = pathBytes w1.nodes xs := by
  refine pathBytes_congr w1.nodes w2.nodes xs ?_
  intro k hk
  obtain ⟨n, hn⟩ := hmem k hk
  obtain ⟨n2, h2, _, hc⟩ := hsk.2 k n hn
  exact ⟨n, n2, hn, h2, by rw [hc]⟩

theorem skel_fresh (w1 w2 : DWeave) (hsk : SkelEq w1 w2) (k : Nat)
    (h : ¬ mcontains w1.nodes k) : ¬ mcontains w2.nodes k := by
  unfold mcontains at h ⊢
  cases hm : mfind w1.nodes k with
  | some n => rw [hm] at h; simp at h
  | none => rw [hsk.1 k hm]; simp

/-- Set only the active flag of a node. -/
def flagSet (b : Bool) (n : DNode) : DNode := { n with active := b }

theorem flagSet_self (n : DNode) : flagSet n.active n = n := rfl

theorem map_flag_self (o : Option DNode) : ∃ b, o = o.map (flagSet b) := by
  cases o with
  | none => exact ⟨true, rfl⟩
  | some n => exact ⟨n.active, rfl⟩

theorem skel_of_flags (w1 w2 : DWeave)
    (hlook : ∀ k, ∃ b, mfind w2.nodes k = (mfind w1.nodes k).map (flagSet b)) :
    SkelEq w1 w2 := by
  constructor
  · intro k hk
    obtain ⟨b, hb⟩ := hlook k
    rw [hk] at hb
    exact hb
  · intro k n hn
    obtain ⟨b, hb⟩ := hlook k
    rw [hn] at hb
    exact ⟨flagSet b n, hb, rfl, rfl⟩

/-- `Slim` survives a pure flag relabelling that restores flag honesty. -/
theorem slim_flags (w1 w2 : DWeave) (hs : Slim w1)
    (hroots : w2.roots = w1.roots)
    (hlook : ∀ k, ∃ b, mfind w2.nodes k = (mfind w1.nodes k).map (flagSet b))
    (hnd : NodupKeys w2.nodes)
    (hflag : ∀ k n2, mfind w2.nodes k = some n2 → (n2.active = true ↔ w2.active = some k))
    (hact : ∀ a, w2.active = some a → ∃ na, mfind w1.nodes a = some na) :
    Slim w2 := by
  have hup : ∀ k n2, mfind w2.nodes k = some n2 →
      ∃ n1 b, mfind w1.nodes k = some n1 ∧ n2 = flagSet b n1 := by
    intro k n2 h2
    obtain ⟨b, hb⟩ := hlook k
    rw [h2] at hb
    cases hm : mfind w1.nodes k with
    | none => rw [hm] at hb; simp at hb
    | some n1 =>
      rw [hm] at hb
      simp only [Option.map_some'] at hb
      injection hb with he
      exact ⟨n1, b, rfl, he⟩
  constructor
  · exact hnd
  · intro k n h2
    obtain ⟨n1, b, hm, he⟩ := hup k n h2
    rw [he]
    exact hs.idcoh k n1 hm
  · intro k n h2
    obtain ⟨n1, b, hm, he⟩ := hup k n h2
    rw [he]
    exact hs.selfnc k n1 hm
  · intro k n h2
    obtain ⟨n1, b, hm, he⟩ := hup k n h2
    rw [he]
    exact hs.toond k n1 hm
  · exact hflag
  · intro k n c h2 hc
    obtain ⟨n1, b, hm, he⟩ := hup k n h2
    rw [he] at hc
    obtain ⟨nc, hmc, hfc⟩ := hs.childedge k n1 c hm hc
    obtain ⟨b', hb'⟩ := hlook c
    rw [hmc] at hb'
    exact ⟨flagSet b' nc, by simpa using hb', hfc⟩
  · intro r hr
    rw [hroots] at hr
    obtain ⟨nr, hmr, hfr⟩ := hs.rootsfact r hr
    obtain ⟨b', hb'⟩ := hlook r
    rw [hmr] at hb'
    exact ⟨flagSet b' nr, by simpa using hb', hfr⟩
  · rw [hroots]
    exact hs.rootsnd
  · intro a ha
    obtain ⟨na, hma⟩ := hact a ha
    obtain ⟨b', hb'⟩ := hlook a
    rw [hma] at hb'
    exact ⟨flagSet b' na, by simpa using hb'⟩

/-- A successful activation: well-formedness and skeleton preservation, with
the store pointing at the target. -/
theorem act_post (w1 : DWeave) (lf : Nat) (nlf : DNode)
    (hs : Slim w1) (hf : mfind w1.nodes lf = some nlf) :
    ∃ w2, setActiveInPlace w1 lf true = (w2, true) ∧
      Slim w2 ∧ w2.active = some lf ∧ SkelEq w1 w2 ∧
      w2.roots = w1.roots ∧ w2.bookmarked = w1.bookmarked ∧ w2.metadata = w1.metadata := by
  cases ha : w1.active with
  | none =>
    rw [act_eq_none w1 lf nlf hf ha]
    refine ⟨_, rfl, ?_, rfl, ?_, rfl, rfl, rfl⟩
    all_goals
      have hlook : ∀ k,
          ∃ b, mfind (madjust w1.nodes lf (fun m => { m with active := true })) k =
            (mfind w1.nodes k).map (flagSet b) := by
        intro k
        rw [mfind_madjust w1.nodes lf k _ hs.nodup]
        by_cases hk : k = lf
        · exact ⟨true, by rw [if_pos hk, hk]; rfl⟩
        · rw [if_neg hk]
          exact map_flag_self _
    · refine slim_flags w1 _ hs rfl hlook
        (nodup_madjust _ _ _ hs.nodup) ?_ ?_
      · intro k n2 h2
        show n2.active = true ↔ some lf = some k
        rw [mfind_madjust w1.nodes lf k _ hs.nodup] at h2
        by_cases hk : k = lf
        · rw [if_pos hk] at h2
          rw [hf] at h2
          simp only [Option.map_some'] at h2
          injection h2 with he
          rw [← he]
          simp [flagSet, hk]
        · rw [if_neg hk] at h2
          have := hs.honest k n2 h2
          rw [ha] at this
          simp only [reduceCtorEq, iff_false] at this
          constructor
          · intro hb
            exact absurd hb this
          · intro hb
            injection hb with he
            exact absurd he.symm hk
      · intro a haa
        injection haa with he
        exact ⟨nlf, he ▸ hf⟩
    · exact skel_of_flags w1 _ hlook
  | some a0 =>
    by_cases hne : a0 = lf
    · subst hne
      rw [act_eq_self w1 a0 nlf hf ha]
      refine ⟨_, rfl, ?_, rfl, ?_, rfl, rfl, rfl⟩
      all_goals
        have hlook : ∀ k,
            ∃ b, mfind (madjust w1.nodes a0 (fun m => { m with active := true })) k =
              (mfind w1.nodes k).map (flagSet b) := by
          intro k
          rw [mfind_madjust w1.nodes a0 k _ hs.nodup]
          by_cases hk : k = a0
          · exact ⟨true, by rw [if_pos hk, hk]; rfl⟩
          · rw [if_neg hk]
            exact map_flag_self _
      · refine slim_flags w1 _ hs rfl hlook
          (nodup_madjust _ _ _ hs.nodup) ?_ ?_
        · intro k n2 h2
          show n2.active = true ↔ some a0 = some k
          rw [mfind_madjust w1.nodes a0 k _ hs.nodup] at h2
          by_cases hk : k = a0
          · rw [if_pos hk] at h2
            rw [hf] at h2
            simp only [Option.map_some'] at h2
            injection h2 with he
            rw [← he]
            simp [flagSet, hk]
          · rw [if_neg hk] at h2
            have := hs.honest k n2 h2
            rw [ha] at this
            simp only [Option.some_inj] at this
            constructor
            · intro hb
              exact absurd (this.mp hb) (fun he => hk he.symm)
            · intro hb
              injection hb with he
              exact absurd he (fun he => hk he.symm)
        · intro a haa
          injection haa with he
          exact ⟨nlf, he ▸ hf⟩
      · exact skel_of_flags w1 _ hlook
    · rw [act_eq_other w1 lf nlf a0 hf ha hne]
      obtain ⟨na0, hfa0⟩ := hs.actpres a0 ha
      refine ⟨_, rfl, ?_, rfl, ?_, rfl, rfl, rfl⟩
      all_goals
        have hnd1 : NodupKeys (madjust w1.nodes lf (fun m => { m with active := true })) :=
          nodup_madjust _ _ _ hs.nodup
        have hlook : ∀ k,
            ∃ b, mfind (madjust (madjust w1.nodes lf (fun m => { m with active := true }))
                a0 (fun m => { m with active := false })) k =
              (mfind w1.nodes k).map (flagSet b) := by
          intro k
          rw [mfind_madjust _ a0 k _ hnd1, mfind_madjust w1.nodes lf a0 _ hs.nodup,
            mfind_madjust w1.nodes lf k _ hs.nodup]
          by_cases hk : k = a0
          · rw [if_pos hk, if_neg hne, hk]
            exact ⟨false, rfl⟩
          · rw [if_neg hk]
            by_cases hk2 : k = lf
            · rw [if_pos hk2, hk2]
              exact ⟨true, rfl⟩
            · rw [if_neg hk2]
              exact map_flag_self _
      · refine slim_flags w1 _ hs rfl hlook
          (nodup_madjust _ _ _ hnd1) ?_ ?_
        · intro k n2 h2
          show n2.active = true ↔ some lf = some k
          rw [mfind_madjust _ a0 k _ hnd1, mfind_madjust w1.nodes lf a0 _ hs.nodup,
            mfind_madjust w1.nodes lf k _ hs.nodup] at h2
          by_cases hk : k = a0
          · rw [if_pos hk, if_neg hne] at h2
            rw [hfa0] at h2
            simp only [Option.map_some'] at h2
            injection h2 with he
            rw [← he]
            simp only [flagSet, Bool.false_eq_true, false_iff]
            intro hcon
            injection hcon with he2
            exact hne (he2.trans hk).symm
          · rw [if_neg hk] at h2
            by_cases hk2 : k = lf
            · rw [if_pos hk2] at h2
              rw [hf] at h2
              simp only [Option.map_some'] at h2
              injection h2 with he
              rw [← he]
              simp [flagSet, hk2]
            · rw [if_neg hk2] at h2
              have := hs.honest k n2 h2
              rw [ha] at this
              simp only [Option.some_inj] at this
              constructor
              · intro hb
                exact absurd (this.mp hb) (fun he => hk he.symm)
              · intro hb
                injection hb with he
                exact absurd he (fun he => hk2 he.symm)
        · intro a haa
          injection haa with he
          exact ⟨nlf, he ▸ hf⟩
      · exact skel_of_flags w1 _ hlook

/-- A successful deactivation of the active node: well-formedness and skeleton
preservation, with the store cleared. -/
theorem deact_post (w1 : DWeave) (a : Nat) (na : DNode)
    (hs : Slim w1) (hf : mfind w1.nodes a = some na) (ha : w1.active = some a) :
    ∃ w2, setActiveInPlace w1 a false = (w2, true) ∧
      Slim w2 ∧ w2.active = none ∧ SkelEq w1 w2 ∧
      w2.roots = w1.roots ∧ w2.bookmarked = w1.bookmarked ∧ w2.metadata = w1.metadata := by
  rw [deact_eq_self w1 a na hf ha]
  refine ⟨_, rfl, ?_, rfl, ?_, rfl, rfl, rfl⟩
  all_goals
    have hlook : ∀ k,
        ∃ b, mfind (madjust w1.nodes a (fun m => { m with active := false })) k =
          (mfind w1.nodes k).map (flagSet b) := by
      intro k
      rw [mfind_madjust w1.nodes a k _ hs.nodup]
      by_cases hk : k = a
      · exact ⟨false, by rw [if_pos hk, hk]; rfl⟩
      · rw [if_neg hk]
        exact map_flag_self _
  · refine slim_flags w1 _ hs rfl hlook
      (nodup_madjust _ _ _ hs.nodup) ?_ ?_
    · intro k n2 h2
      show n2.active = true ↔ none = some k
      simp only [reduceCtorEq, iff_false]
      rw [mfind_madjust w1.nodes a k _ hs.nodup] at h2
      by_cases hk : k = a
      · rw [if_pos hk] at h2
        rw [hf] at h2
        simp only [Option.map_some'] at h2
        injection h2 with he
        rw [← he]
        simp [flagSet]
      · rw [if_neg hk] at h2
        have := hs.honest k n2 h2
        rw [ha] at this
        simp only [Option.some_inj] at this
        intro hb
        exact hk ((this.mp hb).symm ▸ rfl)
    · intro a2 haa
      exact absurd haa (by simp)
  · exact skel_of_flags w1 _ hlook

end UWeave.Dep

namespace UWeave.Dep

/-- The reduced break node produced by `split_node`. -/
def splitLeft (node : DNode) (gen1 : Nat) (l : V0.NodeContent) : DNode :=
  { id := node.id, fro := node.fro, too := [gen1],
    active := node.active, bookmarked := node.bookmarked, contents := l }

/-- The freshly inserted tail node produced by `split_node`. -/
def splitRight (node : DNode) (gen1 : Nat) (r : V0.NodeContent) : DNode :=
  { id := gen1, fro := some node.id, too := node.too,
    active := false, bookmarked := false, contents := r }

/-- The weave produced by a successful two-way `split_node`. -/
def splitResult (w : DWeave) (aid : Nat) (node : DNode) (gen1 : Nat)
    (l r : V0.NodeContent) : DWeave :=
  { w with
    nodes := minsert (minsert
      (node.too.foldl (fun m c => madjust m c (fun cn => { cn with fro := some gen1 }))
        (merase w.nodes aid)) node.id (splitLeft node gen1 l)) gen1
      (splitRight node gen1 r) }

/-- Structural effect of a successful interior split on the break node of the
reconciliation walk: the weave stays well-formed, the break node keeps its
ancestor chain, and its payload shrinks to the matched prefix. -/
theorem split_facts (w : DWeave) (aid p gen1 : Nat) (node : DNode) (tch : List Nat)
    (hs : Slim w) (hf : mfind w.nodes aid = some node)
    (h0 : 0 < p) (hlt : p < node.contents.content.byteLen)
    (hfresh : ¬ mcontains w.nodes gen1)
    (hch : IsChain w.nodes aid (aid :: tch)) :
    ∃ w1 l r, node.contents.splitAt p = .two l r ∧
      splitNode w aid p gen1 = (w1, true) ∧
      Slim w1 ∧
      w1.active = w.active ∧ w1.roots = w.roots ∧
      w1.bookmarked = w.bookmarked ∧ w1.metadata = w.metadata ∧
      (∀ k, ¬ mcontains w.nodes k → k ≠ gen1 → ¬ mcontains w1.nodes k) ∧
      IsChain w1.nodes aid (aid :: tch) ∧
      pathBytes w1.nodes (aid :: tch).reverse =
        pathBytes w.nodes tch.reverse ++ node.contents.content.asBytes.take p := by
  have hpres : ∀ k n0, mfind w.nodes k = some n0 → k ≠ gen1 := by
    intro k n0 hk he
    subst he
    exact hfresh (by unfold mcontains; rw [hk]; simp)
  have haid : aid ≠ gen1 := hpres aid node hf
  obtain ⟨l, r, hsp, hbl, hbr⟩ := V0.v0_split_interior node.contents p h0 hlt
  have hid : node.id = aid := hs.idcoh aid node hf
  have hself : aid ∉ node.too := hs.selfnc aid node hf
  have htoopres : ∀ c ∈ node.too, ∃ nc, mfind w.nodes c = some nc ∧ nc.fro = some aid :=
    fun c hc => hs.childedge aid node c hf hc
  have hgen_too : gen1 ∉ node.too := by
    intro hg
    obtain ⟨nc, hmc, _⟩ := htoopres gen1 hg
    exact hpres gen1 nc hmc rfl
  have hcond : ¬ (mcontains w.nodes gen1 ∨ aid = gen1) := by
    rintro (h | h)
    · exact hfresh h
    · exact haid h
  have key : splitNode w aid p gen1 = (splitResult w aid node gen1 l r, true) := by
    unfold splitNode splitResult splitLeft splitRight
    rw [if_neg hcond, hf]
    simp only []
    rw [hsp]
  obtain ⟨w1, hsplit_eq, hw1n, hw1a, hw1r, hw1b, hw1m⟩ :
      ∃ w1, splitNode w aid p gen1 = (w1, true) ∧
        w1.nodes = minsert (minsert
            (node.too.foldl (fun m c => madjust m c (fun cn => { cn with fro := some gen1 }))
              (merase w.nodes aid)) node.id
            (splitLeft node gen1 l)) gen1 (splitRight node gen1 r) ∧
        w1.active = w.active ∧ w1.roots = w.roots ∧
        w1.bookmarked = w.bookmarked ∧ w1.metadata = w.metadata :=
    ⟨splitResult w aid node gen1 l r, key, rfl, rfl, rfl, rfl, rfl⟩
  have hndE : NodupKeys (merase w.nodes aid) := nodup_merase w.nodes aid hs.nodup
  have hnd2 : NodupKeys (node.too.foldl
      (fun m c => madjust m c (fun cn => { cn with fro := some gen1 }))
      (merase w.nodes aid)) := by
    unfold NodupKeys
    rw [keys_foldl_madjust]
    exact hndE
  have hndW : NodupKeys w1.nodes := by
    rw [hw1n]
    exact nodup_minsert _ _ _ (nodup_minsert _ _ _ hnd2)
  have hW1 : ∀ k, mfind w1.nodes k =
      if k = gen1 then some (splitRight node gen1 r)
      else if k = aid then some (splitLeft node gen1 l)
      else if k ∈ node.too then
        (mfind w.nodes k).map (fun cn => { cn with fro := some gen1 })
      else mfind w.nodes k := by
    intro k
    rw [hw1n, mfind_minsert, mfind_minsert]
    by_cases h1 : k = gen1
    · rw [if_pos h1, if_pos h1]
    · rw [if_neg h1, if_neg h1]
      by_cases h2 : k = aid
      · rw [if_pos (by rw [hid]; exact h2), if_pos h2]
      · rw [if_neg (by rw [hid]; exact h2), if_neg h2]
        rw [mfind_foldl_madjust (fun cn => { cn with fro := some gen1 })
          (fun x => rfl) node.too _ k hndE]
        by_cases h3 : k ∈ node.too
        · rw [if_pos h3, if_pos h3, mfind_merase _ aid k hs.nodup, if_neg h2]
        · rw [if_neg h3, if_neg h3, mfind_merase _ aid k hs.nodup, if_neg h2]
  have hfindaid : mfind w1.nodes aid = some (splitLeft node gen1 l) := by
    rw [hW1 aid, if_neg haid, if_pos rfl]
  have hcase : ∀ k n, mfind w1.nodes k = some n →
      (k = gen1 ∧ n = splitRight node gen1 r) ∨
      (k = aid ∧ n = splitLeft node gen1 l) ∨
      (k ≠ gen1 ∧ k ≠ aid ∧ k ∈ node.too ∧ ∃ n0, mfind w.nodes k = some n0 ∧
        n = { n0 with fro := some gen1 }) ∨
      (k ≠ gen1 ∧ k ≠ aid ∧ k ∉ node.too ∧ mfind w.nodes k = some n) := by
    intro k n h
    rw [hW1 k] at h
    by_cases h1 : k = gen1
    · rw [if_pos h1] at h
      injection h with he
      exact Or.inl ⟨h1, he.symm⟩
    · rw [if_neg h1] at h
      by_cases h2 : k = aid
      · rw [if_pos h2] at h
        injection h with he
        exact Or.inr (Or.inl ⟨h2, he.symm⟩)
      · rw [if_neg h2] at h
        by_cases h3 : k ∈ node.too
        · rw [if_pos h3] at h
          cases hm : mfind w.nodes k with
          | none => rw [hm] at h; simp at h
          | some n0 =>
            rw [hm] at h
            simp only [Option.map_some'] at h
            injection h with he
            exact Or.inr (Or.inr (Or.inl ⟨h1, h2, h3, n0, rfl, he.symm⟩))
        · rw [if_neg h3] at h
          exact Or.inr (Or.inr (Or.inr ⟨h1, h2, h3, h⟩))
  have htail : ∀ k n0 c, k ≠ aid → mfind w.nodes k = some n0 → c ∈ n0.too →
      ∃ nc2, mfind w1.nodes c = some nc2 ∧ nc2.fro = some k := by
    intro k n0 c hk2 h4 hc
    obtain ⟨nc, hmc, hfc⟩ := hs.childedge k n0 c h4 hc
    have hcg : c ≠ gen1 := hpres c nc hmc
    by_cases hca : c = aid
    · subst hca
      rw [hf] at hmc
      injection hmc with he
      refine ⟨_, hfindaid, ?_⟩
      show node.fro = some k
      rw [he]
      exact hfc
    · by_cases hct : c ∈ node.too
      · obtain ⟨nc2, hmc2, hfc2⟩ := htoopres c hct
        rw [hmc] at hmc2
        injection hmc2 with he
        rw [← he] at hfc2
        rw [hfc] at hfc2
        injection hfc2 with he2
        exact absurd he2 hk2
      · refine ⟨nc, ?_, hfc⟩
        rw [hW1 c, if_neg hcg, if_neg hca, if_neg hct]
        exact hmc
  have hslim1 : Slim w1 := by
    constructor
    · exact hndW
    · intro k n h
      rcases hcase k n h with ⟨h1, h2⟩ | ⟨h1, h2⟩ | ⟨h1, h2, h3, n0, h4, h5⟩ | ⟨h1, h2, h3, h4⟩
      · rw [h2, h1]
        rfl
      · rw [h2, h1]
        exact hid
      · rw [h5]
        exact hs.idcoh k n0 h4
      · exact hs.idcoh k n h4
    · intro k n h
      rcases hcase k n h with ⟨h1, h2⟩ | ⟨h1, h2⟩ | ⟨h1, h2, h3, n0, h4, h5⟩ | ⟨h1, h2, h3, h4⟩
      · rw [h2, h1]
        exact hgen_too
      · rw [h2, h1]
        simp [splitLeft, haid]
      · rw [h5]
        exact hs.selfnc k n0 h4
      · exact hs.selfnc k n h4
    · intro k n h
      rcases hcase k n h with ⟨h1, h2⟩ | ⟨h1, h2⟩ | ⟨h1, h2, h3, n0, h4, h5⟩ | ⟨h1, h2, h3, h4⟩
      · rw [h2]
        exact hs.toond aid node hf
      · rw [h2]
        simp [splitLeft]
      · rw [h5]
        exact hs.toond k n0 h4
      · exact hs.toond k n h4
    · intro k n h
      rw [hw1a]
      rcases hcase k n h with ⟨h1, h2⟩ | ⟨h1, h2⟩ | ⟨h1, h2, h3, n0, h4, h5⟩ | ⟨h1, h2, h3, h4⟩
      · rw [h2, h1]
        simp only [splitRight, Bool.false_eq_true, false_iff]
        intro hcon
        obtain ⟨na, hna⟩ := hs.actpres gen1 hcon
        exact hpres gen1 na hna rfl
      · rw [h2, h1]
        exact hs.honest aid node hf
      · rw [h5]
        exact hs.honest k n0 h4
      · exact hs.honest k n h4
    · intro k n c h hc
      rcases hcase k n h with ⟨h1, h2⟩ | ⟨h1, h2⟩ | ⟨h1, h2, h3, n0, h4, h5⟩ | ⟨h1, h2, h3, h4⟩
      · rw [h2] at hc
        rw [h1]
        have hc2 : c ∈ node.too := hc
        obtain ⟨nc, hmc, hfc⟩ := htoopres c hc2
        have hcg : c ≠ gen1 := hpres c nc hmc
        have hca : c ≠ aid := fun he => hself (he ▸ hc2)
        refine ⟨{ nc with fro := some gen1 }, ?_, rfl⟩
        rw [hW1 c, if_neg hcg, if_neg hca, if_pos hc2, hmc]
        rfl
      · rw [h2] at hc
        rw [h1]
        simp only [splitLeft, List.mem_singleton] at hc
        rw [hc]
        refine ⟨_, by rw [hW1 gen1, if_pos rfl], ?_⟩
        show some node.id = some aid
        rw [hid]
      · subst h5
        exact htail k n0 c h2 h4 hc
      · exact htail k n c h2 h4 hc
    · intro rt hr
      rw [hw1r] at hr
      obtain ⟨nr, hmr, hfr⟩ := hs.rootsfact rt hr
      have hrg : rt ≠ gen1 := hpres rt nr hmr
      by_cases hra : rt = aid
      · subst hra
        rw [hf] at hmr
        injection hmr with he
        refine ⟨_, hfindaid, ?_⟩
        show node.fro = none
        rw [he]
        exact hfr
      · by_cases hrt : rt ∈ node.too
        · obtain ⟨nc, hmc, hfc⟩ := htoopres rt hrt
          rw [hmr] at hmc
          injection hmc with he
          rw [← he] at hfc
          rw [hfr] at hfc
          exact absurd hfc (by simp)
        · refine ⟨nr, ?_, hfr⟩
          rw [hW1 rt, if_neg hrg, if_neg hra, if_neg hrt]
          exact hmr
    · rw [hw1r]
      exact hs.rootsnd
    · intro a ha
      rw [hw1a] at ha
      obtain ⟨na, hna⟩ := hs.actpres a ha
      have hag : a ≠ gen1 := hpres a na hna
      by_cases haa : a = aid
      · subst haa
        exact ⟨_, hfindaid⟩
      · by_cases hat : a ∈ node.too
        · refine ⟨{ na with fro := some gen1 }, ?_⟩
          rw [hW1 a, if_neg hag, if_neg haa, if_pos hat, hna]
          rfl
        · refine ⟨na, ?_⟩
          rw [hW1 a, if_neg hag, if_neg haa, if_neg hat]
          exact hna
  have hmem_surv : ∀ k ∈ tch, mfind w1.nodes k = mfind w.nodes k := by
    intro k hk
    have hk' : k ∈ aid :: tch := List.mem_cons_of_mem aid hk
    obtain ⟨nk, hnk⟩ := isChain_mem_keys w.nodes aid (aid :: tch) hch k hk'
    have hkg : k ≠ gen1 := hpres k nk hnk
    have hka : k ≠ aid := by
      intro he
      subst he
      have := isChain_nodup w.nodes k (k :: tch) hch
      rw [List.nodup_cons] at this
      exact this.1 hk
    have hkt : k ∉ node.too := by
      intro hkt
      have hchk : IsChain w.nodes k (k :: aid :: tch) := by
        obtain ⟨nc, hmc, hfc⟩ := htoopres k hkt
        exact IsChain.step k nc aid (aid :: tch) hmc hfc hch
      have := chain_desc_not_mem w.nodes aid (aid :: tch) hch k (k :: aid :: tch) hchk
        (by simp)
      exact this hk'
    rw [hW1 k, if_neg hkg, if_neg hka, if_neg hkt]
  have hchain1 : IsChain w1.nodes aid (aid :: tch) := by
    rcases isChain_inv w.nodes aid tch node hf hch with ⟨hfr, htch⟩ | ⟨pr, hpr, hctch⟩
    · subst htch
      exact IsChain.root aid _ hfindaid hfr
    · refine IsChain.step aid _ pr tch hfindaid hpr ?_
      refine isChain_congr w.nodes w1.nodes pr tch hctch ?_
      intro k hk n hn
      exact ⟨n, by rw [hmem_surv k hk]; exact hn, rfl⟩
  have hbytes_t : pathBytes w1.nodes tch.reverse = pathBytes w.nodes tch.reverse := by
    refine pathBytes_congr w.nodes w1.nodes tch.reverse ?_
    intro k hk
    have hk' : k ∈ tch := List.mem_reverse.mp hk
    obtain ⟨nk, hnk⟩ := isChain_mem_keys w.nodes aid (aid :: tch) hch k
      (List.mem_cons_of_mem aid hk')
    exact ⟨nk, nk, hnk, by rw [hmem_surv k hk']; exact hnk, rfl⟩
  refine ⟨w1, l, r, hsp, hsplit_eq, hslim1, hw1a, hw1r, hw1b, hw1m, ?_, hchain1, ?_⟩
  · intro k hnk hkg
    unfold mcontains
    have hka : k ≠ aid := by
      intro he
      subst he
      exact hnk (by unfold mcontains; rw [hf]; simp)
    have hkt : k ∉ node.too := by
      intro hkt
      obtain ⟨nc, hmc, _⟩ := htoopres k hkt
      exact hnk (by unfold mcontains; rw [hmc]; simp)
    rw [hW1 k, if_neg hkg, if_neg hka, if_neg hkt]
    exact hnk
  · rw [List.reverse_cons, pathBytes_append, hbytes_t]
    congr 1
    rw [pathBytes_cons w1.nodes aid [] _ hfindaid, pathBytes_nil, List.append_nil]
    exact hbl

end UWeave.Dep

namespace UWeave.Dep

/-- Specification of the reconciliation walk: it never panics on a parent
path, consumes a prefix of the target value, and ends either untouched with
no kept node, or well-formed with the kept node's chain spelling exactly the
consumed prefix. -/
theorem walk_spec :
    ∀ (thread : List Nat) (w : DWeave) (value : List Nat) (offset0 : Nat)
      (last0 tip : Option Nat) (gen1 : Nat),
    Slim w → ¬ mcontains w.nodes gen1 →
    IsPathDown w.nodes last0 thread tip →
    offset0 ≤ value.length →
    ((last0 = none ∧ offset0 = 0) ∨
      (∃ lp lch, last0 = some lp ∧ IsChain w.nodes lp (lp :: lch) ∧
        pathBytes w.nodes (lp :: lch).reverse = value.take offset0)) →
    ∃ w1 offsetF lastF m,
      reconWalk w value thread offset0 last0 gen1 = some (w1, offsetF, lastF, m) ∧
      offsetF ≤ value.length ∧
      ((lastF = none ∧ w1 = w ∧ offsetF = 0) ∨
        (∃ lf lch, lastF = some lf ∧ Slim w1 ∧
          (∀ k, ¬ mcontains w.nodes k → k ≠ gen1 → ¬ mcontains w1.nodes k) ∧
          IsChain w1.nodes lf (lf :: lch) ∧
          pathBytes w1.nodes (lf :: lch).reverse = value.take offsetF)) := by
  intro thread
  induction thread with
  | nil =>
    intro w value offset0 last0 tip gen1 hs hfresh hpath hoff hchain
    refine ⟨w, offset0, last0, false, rfl, hoff, ?_⟩
    rcases hchain with ⟨h1, h2⟩ | ⟨lp, lch, h1, h2, h3⟩
    · exact Or.inl ⟨h1, rfl, h2⟩
    · exact Or.inr ⟨lp, lch, h1, hs, fun k hk _ => hk, h2, h3⟩
  | cons aid rest ih =>
    intro w value offset0 last0 tip gen1 hs hfresh hpath hoff hchain
    obtain ⟨n, hn, hfro, hrest⟩ := hpath
    have hid : n.id = aid := hs.idcoh aid n hn
    have hex : ∃ tch, IsChain w.nodes aid (aid :: tch) ∧
        pathBytes w.nodes tch.reverse = value.take offset0 := by
      rcases hchain with ⟨h1, h2⟩ | ⟨lp, lch, h1, h2, h3⟩
      · refine ⟨[], IsChain.root aid n hn (by rw [hfro, h1]), ?_⟩
        rw [h2]
        simp [pathBytes]
      · exact ⟨lp :: lch, IsChain.step aid n lp (lp :: lch) hn (by rw [hfro, h1]) h2, h3⟩
    obtain ⟨tch, hch0, hpb0⟩ := hex
    simp only [reconWalk]
    rw [hn]
    simp only []
    by_cases hm : value.length ≥ offset0 + n.contents.content.asBytes.length ∧
        (value.drop offset0).take n.contents.content.asBytes.length =
          n.contents.content.asBytes
    · rw [if_pos hm]
      refine ih w value (offset0 + n.contents.content.asBytes.length) (some n.id) tip gen1
        hs hfresh (by rw [hid]; exact hrest) (by omega) (Or.inr ⟨aid, tch, by rw [hid],
        hch0, ?_⟩)
      rw [List.reverse_cons, pathBytes_append, hpb0,
        pathBytes_cons w.nodes aid [] n hn, pathBytes_nil, List.append_nil,
        List.take_add, hm.2]
    · rw [if_neg hm]
      have hlcpA : lcp (value.drop offset0) n.contents.content.asBytes ≤
          (value.drop offset0).length := lcp_le_left _ _
      have hlcpB : lcp (value.drop offset0) n.contents.content.asBytes ≤
          n.contents.content.asBytes.length := lcp_le_right _ _
      rw [List.length_drop] at hlcpA
      by_cases hp : 0 < lcp (value.drop offset0) n.contents.content.asBytes
      · have hplt : lcp (value.drop offset0) n.contents.content.asBytes <
            n.contents.content.asBytes.length := by
          rcases Nat.lt_or_ge (lcp (value.drop offset0) n.contents.content.asBytes)
            n.contents.content.asBytes.length with h | h
          · exact h
          · exfalso
            have heq : lcp (value.drop offset0) n.contents.content.asBytes =
                n.contents.content.asBytes.length := by omega
            refine hm ⟨by omega, ?_⟩
            have := lcp_take_eq (value.drop offset0) n.contents.content.asBytes
            rw [heq] at this
            rw [this, List.take_length]
        have hblt : lcp (value.drop offset0) n.contents.content.asBytes <
            n.contents.content.byteLen := by
          rw [V0.byteLen_asBytes]
          exact hplt
        obtain ⟨w1, l, r, hsp, hsplit_eq, hslim1, hw1a, hw1r, hw1b, hw1m, hfr1,
          hchain1, hbytes1⟩ := split_facts w aid
            (lcp (value.drop offset0) n.contents.content.asBytes) gen1 n tch
            hs hn hp hblt hfresh hch0
        rw [if_pos (show offset0 + lcp (value.drop offset0) n.contents.content.asBytes >
          offset0 by omega)]
        rw [if_pos (show offset0 + lcp (value.drop offset0) n.contents.content.asBytes >
          0 by omega)]
        rw [show offset0 + lcp (value.drop offset0) n.contents.content.asBytes - offset0 =
          lcp (value.drop offset0) n.contents.content.asBytes by omega]
        rw [hid, hsplit_eq]
        simp only []
        refine ⟨w1, offset0 + lcp (value.drop offset0) n.contents.content.asBytes,
          some aid, true, rfl, by omega, Or.inr ⟨aid, tch, rfl, hslim1, hfr1, hchain1, ?_⟩⟩
        rw [hbytes1, hpb0, List.take_add]
        congr 1
        exact (lcp_take_eq (value.drop offset0) n.contents.content.asBytes).symm
      · rw [if_neg (show ¬ (offset0 + lcp (value.drop offset0)
          n.contents.content.asBytes > offset0) by omega)]
        rw [show offset0 + lcp (value.drop offset0) n.contents.content.asBytes =
          offset0 by omega]
        refine ⟨w, offset0, last0, true, rfl, hoff, ?_⟩
        rcases hchain with ⟨h1, h2⟩ | ⟨lp, lch, h1, h2, h3⟩
        · exact Or.inl ⟨h1, rfl, h2⟩
        · exact Or.inr ⟨lp, lch, h1, hs, fun k hk _ => hk, h2, h3⟩

end UWeave.Dep

namespace UWeave.Dep

/-- Shared tail of the cleanup removal: active handoff and parent child-set
repair, starting from the state with the node and its children erased. -/
theorem cleanup_tail (w2 : DWeave) (lf : Nat) (nlf : DNode) (lch : List Nat) (w2' : DWeave)
    (hs : Slim w2) (hact : w2.active = some lf) (hf : mfind w2.nodes lf = some nlf)
    (hch : IsChain w2.nodes lf (lf :: lch))
    (hnd' : NodupKeys w2'.nodes)
    (hW : ∀ k, mfind w2'.nodes k = if k = lf ∨ k ∈ nlf.too then none else mfind w2.nodes k)
    (hroots' : ∀ r ∈ w2'.roots, r ∈ w2.roots ∧ ¬(r = lf ∨ r ∈ nlf.too))
    (hrootsnd : w2'.roots.Nodup)
    (hact' : w2'.active = some lf) :
    ∃ w3, removeStage4 nlf lf (removeStage3 nlf w2') = w3 ∧
      Slim w3 ∧
      (∀ k, ¬ mcontains w2.nodes k → ¬ mcontains w3.nodes k) ∧
      (nlf.fro = none → w3.active = none ∧ lch = []) ∧
      (∀ pr, nlf.fro = some pr → w3.active = some pr ∧ IsChain w3.nodes pr lch ∧
        pathBytes w3.nodes lch.reverse = pathBytes w2.nodes lch.reverse) := by
  have hnact : nlf.active = true := (hs.honest lf nlf hf).mpr hact
  have hup' : ∀ k n, mfind w2'.nodes k = some n →
      ¬(k = lf ∨ k ∈ nlf.too) ∧ mfind w2.nodes k = some n := by
    intro k n h
    rw [hW k] at h
    by_cases hc : k = lf ∨ k ∈ nlf.too
    · rw [if_pos hc] at h
      simp at h
    · rw [if_neg hc] at h
      exact ⟨hc, h⟩
  have hlfnotch : lf ∉ lch := by
    have := isChain_nodup w2.nodes lf (lf :: lch) hch
    rw [List.nodup_cons] at this
    exact this.1
  have hchmem : ∀ k ∈ lch, ∃ nk, mfind w2.nodes k = some nk := by
    intro k hk
    exact isChain_mem_keys w2.nodes lf (lf :: lch) hch k (List.mem_cons_of_mem lf hk)
  have hlchsurv : ∀ k ∈ lch, ¬(k = lf ∨ k ∈ nlf.too) := by
    intro k hk
    rintro (he | ht)
    · exact hlfnotch (he ▸ hk)
    · obtain ⟨nk, hmk, hfk⟩ := hs.childedge lf nlf k hf ht
      have hchk : IsChain w2.nodes k (k :: lf :: lch) :=
        IsChain.step k nk lf (lf :: lch) hmk hfk hch
      exact chain_desc_not_mem w2.nodes lf (lf :: lch) hch k (k :: lf :: lch) hchk
        (by simp) (List.mem_cons_of_mem lf hk)
  cases hfro : nlf.fro with
  | none =>
    have hlch : lch = [] := by
      rcases isChain_inv w2.nodes lf lch nlf hf hch with ⟨_, hlch⟩ | ⟨pr, hpr, _⟩
      · exact hlch
      · rw [hfro] at hpr
        exact absurd hpr (by simp)
    have hstage : removeStage4 nlf lf (removeStage3 nlf w2') =
        { w2' with active := none } := by
      unfold removeStage3 removeStage4
      rw [if_pos hnact, hfro]
    refine ⟨{ w2' with active := none }, hstage, ?_, ?_, fun _ => ⟨rfl, hlch⟩,
      fun pr hpr => absurd hpr (by simp)⟩
    · constructor
      · exact hnd'
      · intro k n h
        exact hs.idcoh k n (hup' k n h).2
      · intro k n h
        exact hs.selfnc k n (hup' k n h).2
      · intro k n h
        exact hs.toond k n (hup' k n h).2
      · intro k n h
        obtain ⟨hne, hm⟩ := hup' k n h
        have := hs.honest k n hm
        rw [hact] at this
        show n.active = true ↔ none = some k
        simp only [reduceCtorEq, iff_false]
        intro hb
        have := this.mp hb
        injection this with he
        exact hne (Or.inl he.symm)
      · intro k n c h hc
        obtain ⟨hne, hm⟩ := hup' k n h
        obtain ⟨nc, hmc, hfc⟩ := hs.childedge k n c hm hc
        have hcs : ¬(c = lf ∨ c ∈ nlf.too) := by
          rintro (he | ht)
          · subst he
            rw [hf] at hmc
            injection hmc with he2
            rw [← he2] at hfc
            rw [hfro] at hfc
            exact absurd hfc (by simp)
          · obtain ⟨nc2, hmc2, hfc2⟩ := hs.childedge lf nlf c hf ht
            rw [hmc] at hmc2
            injection hmc2 with he2
            rw [← he2] at hfc2
            rw [hfc] at hfc2
            injection hfc2 with he3
            exact hne (Or.inl he3)
        refine ⟨nc, ?_, hfc⟩
        show mfind w2'.nodes c = some nc
        rw [hW c, if_neg hcs]
        exact hmc
      · intro r hr
        obtain ⟨hr2, hrs⟩ := hroots' r hr
        obtain ⟨nr, hmr, hfr⟩ := hs.rootsfact r hr2
        refine ⟨nr, ?_, hfr⟩
        show mfind w2'.nodes r = some nr
        rw [hW r, if_neg hrs]
        exact hmr
      · exact hrootsnd
      · intro a ha
        exact absurd ha (by simp)
    · intro k hk
      unfold mcontains at hk ⊢
      show ¬ (mfind w2'.nodes k).isSome = true
      rw [hW k]
      by_cases hc : k = lf ∨ k ∈ nlf.too
      · rw [if_pos hc]
        simp
      · rw [if_neg hc]
        exact hk
  | some pr =>
    obtain ⟨hctch⟩ : ∃ _ : IsChain w2.nodes pr lch, True := by
      rcases isChain_inv w2.nodes lf lch nlf hf hch with ⟨hfn, _⟩ | ⟨pr0, hpr0, hctch⟩
      · rw [hfro] at hfn
        exact absurd hfn (by simp)
      · rw [hfro] at hpr0
        injection hpr0 with he
        exact ⟨he ▸ hctch, trivial⟩
    obtain ⟨rest, hrest⟩ := isChain_head w2.nodes pr lch hctch
    have hprmem : pr ∈ lch := by rw [hrest]; simp
    have hprs : ¬(pr = lf ∨ pr ∈ nlf.too) := hlchsurv pr hprmem
    obtain ⟨npr, hnpr⟩ := hchmem pr hprmem
    have hpr' : mfind w2'.nodes pr = some npr := by
      rw [hW pr, if_neg hprs]
      exact hnpr
    have hcont : mcontains w2'.nodes pr := by
      unfold mcontains
      rw [hpr']
      simp
    have hstage : removeStage4 nlf lf (removeStage3 nlf w2') =
        { w2' with
          nodes := madjust (madjust w2'.nodes pr (fun m => { m with active := true })) pr
            (fun m => { m with too := m.too.erase lf }),
          active := some pr } := by
      unfold removeStage3 removeStage4
      rw [if_pos hnact, hfro]
      simp only []
      rw [if_pos hcont]
    have hnd1 : NodupKeys (madjust w2'.nodes pr (fun m => { m with active := true })) :=
      nodup_madjust _ _ _ hnd'
    have hndW : NodupKeys (madjust (madjust w2'.nodes pr
        (fun m => { m with active := true })) pr
        (fun m => { m with too := m.too.erase lf })) := nodup_madjust _ _ _ hnd1
    have hW3 : ∀ k, mfind (madjust (madjust w2'.nodes pr
        (fun m => { m with active := true })) pr
        (fun m => { m with too := m.too.erase lf })) k =
        if k = pr then some { npr with active := true, too := npr.too.erase lf }
        else mfind w2'.nodes k := by
      intro k
      by_cases hk : k = pr
      · rw [if_pos hk, hk, mfind_madjust _ pr pr _ hnd1, if_pos rfl,
          mfind_madjust w2'.nodes pr pr _ hnd', if_pos rfl, hpr']
        rfl
      · rw [if_neg hk, mfind_madjust _ pr k _ hnd1, if_neg hk,
          mfind_madjust w2'.nodes pr k _ hnd', if_neg hk]
    have hup3 : ∀ k n, mfind (madjust (madjust w2'.nodes pr
        (fun m => { m with active := true })) pr
        (fun m => { m with too := m.too.erase lf })) k = some n →
        (k = pr ∧ n = { npr with active := true, too := npr.too.erase lf }) ∨
        (k ≠ pr ∧ ¬(k = lf ∨ k ∈ nlf.too) ∧ mfind w2.nodes k = some n) := by
      intro k n h
      rw [hW3 k] at h
      by_cases hk : k = pr
      · rw [if_pos hk] at h
        injection h with he
        exact Or.inl ⟨hk, he.symm⟩
      · rw [if_neg hk] at h
        exact Or.inr ⟨hk, (hup' k n h).1, (hup' k n h).2⟩
    have hprnd : npr.too.Nodup := hs.toond pr npr hnpr
    refine ⟨_, hstage, ?_, ?_, fun hn => absurd hn (by simp), ?_⟩
    · constructor
      · exact hndW
      · intro k n h
        rcases hup3 k n h with ⟨h1, h2⟩ | ⟨h1, h2, h3⟩
        · rw [h2, h1]
          exact hs.idcoh pr npr hnpr
        · exact hs.idcoh k n h3
      · intro k n h
        rcases hup3 k n h with ⟨h1, h2⟩ | ⟨h1, h2, h3⟩
        · rw [h2, h1]
          intro hmem
          exact hs.selfnc pr npr hnpr (List.mem_of_mem_erase hmem)
        · exact hs.selfnc k n h3
      · intro k n h
        rcases hup3 k n h with ⟨h1, h2⟩ | ⟨h1, h2, h3⟩
        · rw [h2]
          exact hprnd.erase lf
        · exact hs.toond k n h3
      · intro k n h
        show n.active = true ↔ some pr = some k
        rcases hup3 k n h with ⟨h1, h2⟩ | ⟨h1, h2, h3⟩
        · rw [h2, h1]
          simp
        · have := hs.honest k n h3
          rw [hact] at this
          constructor
          · intro hb
            have := this.mp hb
            injection this with he
            exact absurd (Or.inl he.symm) h2
          · intro hb
            injection hb with he
            exact absurd he.symm h1
      · intro k n c h hc
        rcases hup3 k n h with ⟨h1, h2⟩ | ⟨h1, h2, h3⟩
        · rw [h2] at hc
          subst h1
          have hc2 : c ≠ lf ∧ c ∈ npr.too := (hprnd.mem_erase_iff).mp hc
          obtain ⟨nc, hmc, hfc⟩ := hs.childedge k npr c hnpr hc2.2
          have hcs : ¬(c = lf ∨ c ∈ nlf.too) := by
            rintro (he | ht)
            · exact hc2.1 he
            · obtain ⟨nc2, hmc2, hfc2⟩ := hs.childedge lf nlf c hf ht
              rw [hmc] at hmc2
              injection hmc2 with he2
              rw [← he2] at hfc2
              rw [hfc] at hfc2
              injection hfc2 with he3
              exact absurd (Or.inl he3) hprs
          have hcpr : c ≠ k := fun he => hs.selfnc k npr hnpr (he ▸ hc2.2)
          refine ⟨nc, ?_, hfc⟩
          rw [hW3 c, if_neg hcpr, hW c, if_neg hcs]
          exact hmc
        · obtain ⟨nc, hmc, hfc⟩ := hs.childedge k n c h3 hc
          have hcs : ¬(c = lf ∨ c ∈ nlf.too) := by
            rintro (he | ht)
            · subst he
              rw [hf] at hmc
              injection hmc with he2
              rw [← he2] at hfc
              rw [hfro] at hfc
              injection hfc with he3
              exact h1 he3.symm
            · obtain ⟨nc2, hmc2, hfc2⟩ := hs.childedge lf nlf c hf ht
              rw [hmc] at hmc2
              injection hmc2 with he2
              rw [← he2] at hfc2
              rw [hfc] at hfc2
              injection hfc2 with he3
              exact h2 (Or.inl he3)
          by_cases hcpr : c = pr
          · rw [hcpr] at hmc
            rw [hnpr] at hmc
            injection hmc with he2
            refine ⟨{ npr with active := true, too := npr.too.erase lf }, ?_, ?_⟩
            · rw [hcpr, hW3 pr, if_pos rfl]
            · show npr.fro = some k
              rw [he2]
              exact hfc
          · refine ⟨nc, ?_, hfc⟩
            rw [hW3 c, if_neg hcpr, hW c, if_neg hcs]
            exact hmc
      · intro r hr
        obtain ⟨hr2, hrs⟩ := hroots' r hr
        obtain ⟨nr, hmr, hfr⟩ := hs.rootsfact r hr2
        by_cases hrpr : r = pr
        · subst hrpr
          rw [hnpr] at hmr
          injection hmr with he2
          refine ⟨{ npr with active := true, too := npr.too.erase lf }, ?_, ?_⟩
          · rw [hW3 r, if_pos rfl]
          · show npr.fro = none
            rw [he2]
            exact hfr
        · refine ⟨nr, ?_, hfr⟩
          rw [hW3 r, if_neg hrpr, hW r, if_neg hrs]
          exact hmr
      · exact hrootsnd
      · intro a ha
        injection ha with he
        refine ⟨{ npr with active := true, too := npr.too.erase lf }, ?_⟩
        rw [hW3 a, if_pos he.symm]
    · intro k hk
      unfold mcontains at hk ⊢
      have hkpr : k ≠ pr := by
        intro he
        subst he
        rw [hnpr] at hk
        simp at hk
      rw [hW3 k, if_neg hkpr, hW k]
      by_cases hc : k = lf ∨ k ∈ nlf.too
      · rw [if_pos hc]
        simp
      · rw [if_neg hc]
        exact hk
    · intro pr2 hpr2
      injection hpr2 with he
      refine ⟨by rw [he], ?_, ?_⟩
      · rw [← he]
        refine isChain_congr w2.nodes _ pr lch hctch ?_
        intro k hk n hn
        by_cases hkpr : k = pr
        · have hn2 := hn
          rw [hkpr, hnpr] at hn2
          injection hn2 with he2
          refine ⟨{ npr with active := true, too := npr.too.erase lf }, ?_, ?_⟩
          · rw [hkpr, hW3 pr, if_pos rfl]
          · show npr.fro = n.fro
            rw [he2]
        · refine ⟨n, ?_, rfl⟩
          rw [hW3 k, if_neg hkpr, hW k, if_neg (hlchsurv k hk)]
          exact hn
      · refine pathBytes_congr w2.nodes _ lch.reverse ?_
        intro k hk
        have hk' : k ∈ lch := List.mem_reverse.mp hk
        obtain ⟨nk, hnk⟩ := hchmem k hk'
        by_cases hkpr : k = pr
        · have hnk2 := hnk
          rw [hkpr, hnpr] at hnk2
          injection hnk2 with he2
          refine ⟨nk, { npr with active := true, too := npr.too.erase lf }, hnk, ?_, ?_⟩
          · rw [hkpr, hW3 pr, if_pos rfl]
          · show npr.contents.content.asBytes = nk.contents.content.asBytes
            rw [he2]
        · refine ⟨nk, nk, hnk, ?_, rfl⟩
          rw [hW3 k, if_neg hkpr, hW k, if_neg (hlchsurv k hk')]
          exact hnk

end UWeave.Dep

namespace UWeave.Dep

/-- Removal of the active node when it has at most one child and every child
is childless: the cascade is finite and concrete, and the active state lands
on the parent (or clears at a root). -/
theorem cleanup_remove (w2 : DWeave) (lf : Nat) (nlf : DNode) (lch : List Nat)
    (hs : Slim w2) (hact : w2.active = some lf)
    (hf : mfind w2.nodes lf = some nlf)
    (hlen : nlf.too.length ≤ 1)
    (hkids : ∀ c ∈ nlf.too, ∃ nc, mfind w2.nodes c = some nc ∧ nc.too = [])
    (hch : IsChain w2.nodes lf (lf :: lch)) :
    ∃ w3, removeNode w2 lf = (w3, some nlf) ∧
      Slim w3 ∧
      (∀ k, ¬ mcontains w2.nodes k → ¬ mcontains w3.nodes k) ∧
      (nlf.fro = none → w3.active = none ∧ lch = []) ∧
      (∀ pr, nlf.fro = some pr → w3.active = some pr ∧ IsChain w3.nodes pr lch ∧
        pathBytes w3.nodes lch.reverse = pathBytes w2.nodes lch.reverse) := by
  have hred : removeNode w2 lf =
      (removeStage4 nlf lf (removeStage3 nlf (nlf.too.foldl
        (fun acc c => (removeAux w2.nodes.length acc c).1)
        { w2 with
          nodes := merase w2.nodes lf,
          roots := w2.roots.erase lf,
          bookmarked := w2.bookmarked.erase lf })), some nlf) := by
    show removeAux (w2.nodes.length + 1) w2 lf = _
    rw [show removeAux (w2.nodes.length + 1) w2 lf =
      (match mfind w2.nodes lf with
       | none => (w2, none)
       | some n =>
         (removeStage4 n lf (removeStage3 n (n.too.foldl
           (fun acc c => (removeAux w2.nodes.length acc c).1)
           { w2 with
             nodes := merase w2.nodes lf,
             roots := w2.roots.erase lf,
             bookmarked := w2.bookmarked.erase lf })), some n)) from rfl]
    rw [hf]
  have hselflf : lf ∉ nlf.too := hs.selfnc lf nlf hf
  cases htoo : nlf.too with
  | nil =>
    rw [htoo] at hred
    simp only [List.foldl_nil] at hred
    obtain ⟨w3, hw3eq, hslim, hfr, hnone, hsome⟩ := cleanup_tail w2 lf nlf lch
      { w2 with
        nodes := merase w2.nodes lf,
        roots := w2.roots.erase lf,
        bookmarked := w2.bookmarked.erase lf }
      hs hact hf hch
      (nodup_merase w2.nodes lf hs.nodup)
      (by
        intro k
        show mfind (merase w2.nodes lf) k = _
        rw [mfind_merase w2.nodes lf k hs.nodup]
        by_cases hc : k = lf ∨ k ∈ nlf.too
        · rcases hc with hc | hc
          · rw [if_pos hc, if_pos (Or.inl hc)]
          · rw [htoo] at hc
            exact absurd hc (by simp)
        · rw [if_neg (fun he => hc (Or.inl he)), if_neg hc])
      (by
        intro r hr
        replace hr : r ∈ w2.roots.erase lf := hr
        rw [hs.rootsnd.mem_erase_iff] at hr
        refine ⟨hr.2, ?_⟩
        rintro (he | he)
        · exact hr.1 he
        · rw [htoo] at he
          simp at he)
      (hs.rootsnd.erase lf)
      hact
    refine ⟨w3, ?_, hslim, hfr, hnone, hsome⟩
    rw [hred, hw3eq]
  | cons c rest =>
    cases rest with
    | cons d rest2 =>
      rw [htoo] at hlen
      simp at hlen
    | nil =>
      rw [htoo] at hred
      simp only [List.foldl_cons, List.foldl_nil] at hred
      have hcmem : c ∈ nlf.too := by rw [htoo]; simp
      have hclf : c ≠ lf := fun he => hselflf (he ▸ hcmem)
      obtain ⟨nc, hmc, hfc⟩ := hs.childedge lf nlf c hf hcmem
      obtain ⟨nc2, hmc2, hctoo⟩ := hkids c hcmem
      have hnceq : nc2 = nc := by
        rw [hmc] at hmc2
        injection hmc2 with he
        exact he.symm
      rw [hnceq] at hctoo
      have hncact : nc.active = false := by
        cases hb : nc.active with
        | false => rfl
        | true =>
          have := (hs.honest c nc hmc).mp hb
          rw [hact] at this
          injection this with he
          exact absurd he.symm hclf
      have hpos : 0 < w2.nodes.length :=
        List.length_pos_of_mem (mfind_mem w2.nodes lf nlf hf)
      obtain ⟨N, hN⟩ : ∃ N, w2.nodes.length = N + 1 := ⟨w2.nodes.length - 1, by omega⟩
      have hmcA : mfind (merase w2.nodes lf) c = some nc := by
        rw [mfind_merase w2.nodes lf c hs.nodup, if_neg hclf]
        exact hmc
      have hnotin : lf ∉ (merase (merase w2.nodes lf) c).map Prod.fst := by
        intro hmem
        have h1 : mfind (merase (merase w2.nodes lf) c) lf =
            mfind (merase w2.nodes lf) lf :=
          mfind_merase_ne (merase w2.nodes lf) c lf hclf.symm
        rw [mfind_merase w2.nodes lf lf hs.nodup, if_pos rfl] at h1
        have h2 := (mcontains_iff_mem (merase (merase w2.nodes lf) c) lf).mpr hmem
        unfold mcontains at h2
        rw [h1] at h2
        simp at h2
      have hinner : removeAux w2.nodes.length
          { w2 with
            nodes := merase w2.nodes lf,
            roots := w2.roots.erase lf,
            bookmarked := w2.bookmarked.erase lf } c =
          ({ w2 with
             nodes := merase (merase w2.nodes lf) c,
             roots := (w2.roots.erase lf).erase c,
             bookmarked := (w2.bookmarked.erase lf).erase c }, some nc) := by
        rw [hN]
        rw [show removeAux (N + 1)
          { w2 with
            nodes := merase w2.nodes lf,
            roots := w2.roots.erase lf,
            bookmarked := w2.bookmarked.erase lf } c =
          (match mfind (merase w2.nodes lf) c with
           | none =>
             ({ w2 with
                nodes := merase w2.nodes lf,
                roots := w2.roots.erase lf,
                bookmarked := w2.bookmarked.erase lf }, none)
           | some n =>
             (removeStage4 n c (removeStage3 n (n.too.foldl
               (fun acc c2 => (removeAux N acc c2).1)
               { w2 with
                 nodes := merase (merase w2.nodes lf) c,
                 roots := (w2.roots.erase lf).erase c,
                 bookmarked := (w2.bookmarked.erase lf).erase c })), some n))
          from rfl]
        rw [hmcA]
        simp only []
        rw [hctoo]
        simp only [List.foldl_nil]
        unfold removeStage3 removeStage4
        rw [if_neg (by simp [hncact]), hfc]
        simp only []
        rw [madjust_absent _ lf _ hnotin]
      rw [hinner] at hred
      simp only [] at hred
      obtain ⟨w3, hw3eq, hslim, hfr, hnone, hsome⟩ := cleanup_tail w2 lf nlf lch
        { w2 with
          nodes := merase (merase w2.nodes lf) c,
          roots := (w2.roots.erase lf).erase c,
          bookmarked := (w2.bookmarked.erase lf).erase c }
        hs hact hf hch
        (nodup_merase _ c (nodup_merase w2.nodes lf hs.nodup))
        (by
          intro k
          show mfind (merase (merase w2.nodes lf) c) k = _
          rw [mfind_merase _ c k (nodup_merase w2.nodes lf hs.nodup)]
          by_cases hkc : k = c
          · rw [if_pos hkc, if_pos (Or.inr (by rw [htoo, hkc]; simp))]
          · rw [if_neg hkc, mfind_merase w2.nodes lf k hs.nodup]
            by_cases hkl : k = lf
            · rw [if_pos hkl, if_pos (Or.inl hkl)]
            · rw [if_neg hkl, if_neg (by
                rintro (he | he)
                · exact hkl he
                · rw [htoo] at he
                  simp at he
                  exact hkc he)]
          )
        (by
          intro r hr
          replace hr : r ∈ (w2.roots.erase lf).erase c := hr
          rw [(hs.rootsnd.erase lf).mem_erase_iff] at hr
          obtain ⟨hrc, hr2⟩ := hr
          rw [hs.rootsnd.mem_erase_iff] at hr2
          refine ⟨hr2.2, ?_⟩
          rintro (he | he)
          · exact hr2.1 he
          · rw [htoo] at he
            simp at he
            exact hrc he)
        ((hs.rootsnd.erase lf).erase c)
        hact
      refine ⟨w3, ?_, hslim, hfr, hnone, hsome⟩
      rw [hred, hw3eq]

end UWeave.Dep

namespace UWeave

theorem filterMap_ext {α β : Type} (l : List α) (f g : α → Option β)
    (h : ∀ a ∈ l, f a = g a) : l.filterMap f = l.filterMap g := by
  induction l with
  | nil => rfl
  | cons a rest ih =>
    rw [List.filterMap_cons, List.filterMap_cons, h a (by simp),
      ih (fun b hb => h b (by simp [hb]))]

theorem sinsert_fresh (l : List Nat) (x : Nat) (h : x ∉ l) : sinsert l x = l ++ [x] := by
  unfold sinsert
  rw [if_neg h]

theorem filter_append_ne (l : List Nat) (y : Nat) (h : ∀ c ∈ l, c ≠ y) :
    (l ++ [y]).filter (fun z => decide (z ≠ y)) = l := by
  rw [List.filter_append]
  have h1 : l.filter (fun z => decide (z ≠ y)) = l :=
    List.filter_eq_self.mpr (fun a ha => by simpa using h a ha)
  have h2 : [y].filter (fun z => decide (z ≠ y)) = [] := by simp
  rw [h1, h2, List.append_nil]

end UWeave

namespace UWeave.Dep

theorem addNodeFinish_some (w1 : DWeave) (n : DNode) (a : Nat) (hna : n.active = true)
    (hnb : n.bookmarked = false) (ha : w1.active = some a) :
    addNode.addNodeFinish w1 n =
      { w1 with
        nodes := minsert (madjust w1.nodes a (fun m => { m with active := false })) n.id n,
        active := some n.id } := by
  unfold addNode.addNodeFinish
  rw [hna, ha, hnb]
  simp

theorem addNodeFinish_none (w1 : DWeave) (n : DNode) (hna : n.active = true)
    (hnb : n.bookmarked = false) (ha : w1.active = none) :
    addNode.addNodeFinish w1 n =
      { w1 with
        nodes := minsert w1.nodes n.id n,
        active := some n.id } := by
  unfold addNode.addNodeFinish
  rw [hna, ha, hnb]
  simp

theorem addNode_eq_parent (w3 : DWeave) (n : DNode) (x : Nat) (nx : DNode)
    (hinv : addNodeInvalid w3 n = false) (hfx : n.fro = some x)
    (hfindx : mfind w3.nodes x = some nx) (hna : n.active = true)
    (hnb : n.bookmarked = false) (hact3 : w3.active = some x) :
    addNode w3 n =
      ({ w3 with
         nodes := minsert (madjust (madjust w3.nodes x
           (fun pn => { pn with too := sinsert pn.too n.id })) x
           (fun m => { m with active := false })) n.id n,
         active := some n.id }, true) := by
  unfold addNode
  rw [if_neg (by rw [hinv]; simp), hfx]
  simp only []
  rw [hfindx]
  simp only []
  rw [addNodeFinish_some
    { w3 with nodes := madjust w3.nodes x (fun pn => { pn with too := sinsert pn.too n.id }) }
    n x hna hnb hact3]

theorem addNode_eq_root (w3 : DWeave) (n : DNode)
    (hinv : addNodeInvalid w3 n = false) (hfx : n.fro = none)
    (hna : n.active = true) (hnb : n.bookmarked = false) (hact3 : w3.active = none) :
    addNode w3 n =
      ({ w3 with
         nodes := minsert w3.nodes n.id n,
         roots := sinsert w3.roots n.id,
         active := some n.id }, true) := by
  unfold addNode
  rw [if_neg (by rw [hinv]; simp), hfx]
  simp only []
  rw [addNodeFinish_none { w3 with roots := sinsert w3.roots n.id } n hna hnb hact3]

/-- Removing a childless inactive leaf is a one-step cascade. -/
theorem remove_fresh_leaf (W : DWeave) (gen2 : Nat) (ng : DNode)
    (hfind : mfind W.nodes gen2 = some ng) (htoo : ng.too = [])
    (hact : ng.active = false) :
    removeNode W gen2 =
      (removeStage4 ng gen2
        { W with
          nodes := merase W.nodes gen2,
          roots := W.roots.erase gen2,
          bookmarked := W.bookmarked.erase gen2 }, some ng) := by
  show removeAux (W.nodes.length + 1) W gen2 = _
  rw [show removeAux (W.nodes.length + 1) W gen2 =
    (match mfind W.nodes gen2 with
     | none => (W, none)
     | some n =>
       (removeStage4 n gen2 (removeStage3 n (n.too.foldl
         (fun acc c => (removeAux W.nodes.length acc c).1)
         { W with
           nodes := merase W.nodes gen2,
           roots := W.roots.erase gen2,
           bookmarked := W.bookmarked.erase gen2 })), some n)) from rfl]
  rw [hfind]
  simp only []
  rw [htoo]
  simp only [List.foldl_nil]
  unfold removeStage3
  rw [if_neg (by simp [hact])]

end UWeave.Dep

namespace UWeave.Dep

/-- Appending the remaining content under the kept node: with or without
deduplication, the call succeeds and the new active chain spells the whole
target value. -/
theorem append_parent (w3 : DWeave) (gen2 : Nat) (value : List Nat) (offset3 : Nat)
    (md : List (String × String)) (x : Nat) (xch : List Nat)
    (hs : Slim w3) (hfresh : ¬ mcontains w3.nodes gen2)
    (hact3 : w3.active = some x)
    (hch : IsChain w3.nodes x (x :: xch))
    (hpb : pathBytes w3.nodes (x :: xch).reverse = value.take offset3) :
    ∃ w4, v0AddNode w3
        ⟨gen2, some x, [], true, false,
          { content := .snippet (value.drop offset3), metadata := md, model := none }⟩ =
        (w4, true) ∧
      getActiveContent w4 = value.take offset3 ++ value.drop offset3 := by
  have hpres : ∀ k n0, mfind w3.nodes k = some n0 → k ≠ gen2 := by
    intro k n0 hk he
    subst he
    exact hfresh (by unfold mcontains; rw [hk]; simp)
  have hchkeys := isChain_mem_keys w3.nodes x (x :: xch) hch
  obtain ⟨nx, hnx⟩ := hchkeys x (by simp)
  have hxg : x ≠ gen2 := hpres x nx hnx
  have hchnd := isChain_nodup w3.nodes x (x :: xch) hch
  have hxsel : x ∉ nx.too := hs.selfnc x nx hnx
  have htooK : ∀ c ∈ nx.too, ∃ nc, mfind w3.nodes c = some nc ∧ nc.fro = some x :=
    fun c hc => hs.childedge x nx c hnx hc
  have hgen_too : gen2 ∉ nx.too := by
    intro hg
    obtain ⟨nc, hmc, _⟩ := htooK gen2 hg
    exact hpres gen2 nc hmc rfl
  have htooNotCh : ∀ c ∈ nx.too, c ∉ x :: xch := by
    intro c hc
    obtain ⟨nc, hmc, hfc⟩ := htooK c hc
    exact chain_desc_not_mem w3.nodes x (x :: xch) hch c (c :: x :: xch)
      (IsChain.step c nc x (x :: xch) hmc hfc hch) (by simp)
  have hinv : addNodeInvalid w3
      ⟨gen2, some x, [], true, false,
        { content := .snippet (value.drop offset3), metadata := md, model := none }⟩
      = false := by
    unfold addNodeInvalid DNode.validate
    simp [hfresh, fun he : x = gen2 => hxg he]
  obtain ⟨R, haddR, hRn, hRa, hRr, hRb⟩ :
      ∃ R, addNode w3 ⟨gen2, some x, [], true, false,
          { content := .snippet (value.drop offset3), metadata := md, model := none }⟩ =
        (R, true) ∧
        R.nodes = minsert (madjust (madjust w3.nodes x
          (fun pn => { pn with too := sinsert pn.too gen2 })) x
          (fun m => { m with active := false })) gen2
          ⟨gen2, some x, [], true, false,
            { content := .snippet (value.drop offset3), metadata := md, model := none }⟩ ∧
        R.active = some gen2 ∧ R.roots = w3.roots ∧ R.bookmarked = w3.bookmarked :=
    ⟨_, addNode_eq_parent w3 _ x nx hinv rfl hnx rfl rfl hact3, rfl, rfl, rfl, rfl⟩
  have hndR : NodupKeys R.nodes := by
    rw [hRn]
    exact nodup_minsert _ _ _ (nodup_madjust _ _ _ (nodup_madjust _ _ _ hs.nodup))
  have hRl : ∀ k, mfind R.nodes k =
      if k = gen2 then some ⟨gen2, some x, [], true, false,
        { content := .snippet (value.drop offset3), metadata := md, model := none }⟩
      else if k = x then some { nx with too := sinsert nx.too gen2, active := false }
      else mfind w3.nodes k := by
    intro k
    by_cases h1 : k = gen2
    · rw [if_pos h1, hRn, mfind_minsert, if_pos h1]
    · rw [if_neg h1, hRn, mfind_minsert, if_neg h1]
      by_cases h2 : k = x
      · rw [if_pos h2, h2, mfind_madjust _ x x _ (nodup_madjust _ _ _ hs.nodup), if_pos rfl,
          mfind_madjust w3.nodes x x _ hs.nodup, if_pos rfl, hnx]
        rfl
      · rw [if_neg h2, mfind_madjust _ x k _ (nodup_madjust _ _ _ hs.nodup), if_neg h2,
          mfind_madjust w3.nodes x k _ hs.nodup, if_neg h2]
  have hfindg : mfind R.nodes gen2 = some ⟨gen2, some x, [], true, false,
      { content := .snippet (value.drop offset3), metadata := md, model := none }⟩ := by
    rw [hRl gen2, if_pos rfl]
  have hfindx' : mfind R.nodes x =
      some { nx with too := sinsert nx.too gen2, active := false } := by
    rw [hRl x, if_neg hxg, if_pos rfl]
  have hlas : getActiveThread w3 (w3.nodes.length + 1) = x :: xch := by
    unfold getActiveThread
    rw [hact3]
    exact isChain_buildThread w3.nodes x (x :: xch) hch _
      (by have := isChain_length_le w3.nodes x (x :: xch) hs.nodup hch; omega)
  have hfilter : (sinsert nx.too gen2).filter (fun z => decide (z ≠ gen2)) = nx.too := by
    rw [sinsert_fresh _ _ hgen_too]
    refine filter_append_ne nx.too gen2 ?_
    intro c hc
    obtain ⟨nc, hmc, _⟩ := htooK c hc
    exact hpres c nc hmc
  have hsibs : nx.too.filterMap (mfind R.nodes) = nx.too.filterMap (mfind w3.nodes) := by
    refine filterMap_ext _ _ _ ?_
    intro c hc
    have hcg : c ≠ gen2 := by
      obtain ⟨nc, hmc, _⟩ := htooK c hc
      exact hpres c nc hmc
    have hcx : c ≠ x := fun he => hxsel (he ▸ hc)
    rw [hRl c, if_neg hcg, if_neg hcx]
  have hdups : findDuplicates R gen2 =
      ((nx.too.filterMap (mfind w3.nodes)).filter
        (fun s => V0.ncEq { content := .snippet (value.drop offset3), metadata := md, model := none } s.contents)).map (fun s => s.id) := by
    unfold findDuplicates
    rw [hfindg]
    simp only []
    rw [hfindx']
    simp only []
    rw [hfilter, hsibs]
  have hdupmem : ∀ d ∈ ((nx.too.filterMap (mfind w3.nodes)).filter
      (fun s => V0.ncEq { content := .snippet (value.drop offset3), metadata := md, model := none } s.contents)).map (fun s => s.id),
      d ∈ nx.too ∧ ∃ nd, mfind w3.nodes d = some nd ∧
        V0.ncEq { content := .snippet (value.drop offset3), metadata := md, model := none } nd.contents = true := by
    intro d hd
    simp only [List.mem_map, List.mem_filter, List.mem_filterMap] at hd
    obtain ⟨s, ⟨⟨c, hc, hcs⟩, hnceq⟩, hsid⟩ := hd
    have hidc : s.id = c := hs.idcoh c s hcs
    rw [← hsid, hidc]
    exact ⟨hc, s, hcs, hnceq⟩
  have hpbR : pathBytes R.nodes (x :: xch).reverse = value.take offset3 := by
    rw [← hpb]
    refine pathBytes_congr w3.nodes R.nodes (x :: xch).reverse ?_
    intro k hk
    have hk' : k ∈ x :: xch := List.mem_reverse.mp hk
    obtain ⟨nk, hnk⟩ := hchkeys k hk'
    by_cases hkx : k = x
    · have hnk2 := hnk
      rw [hkx, hnx] at hnk2
      injection hnk2 with he
      refine ⟨nk, { nx with too := sinsert nx.too gen2, active := false }, hnk, ?_, ?_⟩
      · rw [hkx]
        exact hfindx'
      · show nx.contents.content.asBytes = nk.contents.content.asBytes
        rw [he]
    · have hkg : k ≠ gen2 := hpres k nk hnk
      refine ⟨nk, nk, hnk, ?_, rfl⟩
      rw [hRl k, if_neg hkg, if_neg hkx]
      exact hnk
  by_cases hdnil : ((nx.too.filterMap (mfind w3.nodes)).filter
      (fun s => V0.ncEq { content := .snippet (value.drop offset3), metadata := md, model := none } s.contents)).map (fun s => s.id) = []
  · have hv0eq : v0AddNode w3 ⟨gen2, some x, [], true, false,
        { content := .snippet (value.drop offset3), metadata := md, model := none }⟩ =
        (R, true) := by
      unfold v0AddNode
      simp only []
      rw [haddR]
      simp only []
      rw [hdups, if_neg (by simp [hdnil])]
    refine ⟨R, hv0eq, ?_⟩
    have hchR : IsChain R.nodes gen2 (gen2 :: x :: xch) := by
      refine IsChain.step gen2 _ x (x :: xch) hfindg rfl ?_
      refine isChain_congr w3.nodes R.nodes x (x :: xch) hch ?_
      intro k hk nk hnk
      by_cases hkx : k = x
      · have hnk2 := hnk
        rw [hkx, hnx] at hnk2
        injection hnk2 with he
        refine ⟨{ nx with too := sinsert nx.too gen2, active := false }, ?_, ?_⟩
        · rw [hkx]
          exact hfindx'
        · show nx.fro = nk.fro
          rw [he]
      · have hkg : k ≠ gen2 := hpres k nk hnk
        refine ⟨nk, ?_, rfl⟩
        rw [hRl k, if_neg hkg, if_neg hkx]
        exact hnk
    rw [gac_of_chain R gen2 (gen2 :: x :: xch) hRa hndR hchR]
    rw [List.reverse_cons, pathBytes_append, hpbR]
    congr 1
    rw [pathBytes_cons R.nodes gen2 [] _ hfindg, pathBytes_nil, List.append_nil]
    rfl
  · obtain ⟨d0, dtl, hdl⟩ : ∃ d0 dtl, ((nx.too.filterMap (mfind w3.nodes)).filter
        (fun s => V0.ncEq { content := .snippet (value.drop offset3), metadata := md, model := none } s.contents)).map (fun s => s.id) = d0 :: dtl := by
      cases hcase : ((nx.too.filterMap (mfind w3.nodes)).filter
          (fun s => V0.ncEq { content := .snippet (value.drop offset3), metadata := md, model := none } s.contents)).map (fun s => s.id) with
      | nil => exact absurd hcase hdnil
      | cons a b => exact ⟨a, b, rfl⟩
    obtain ⟨hd0too, nd0, hnd0, hnceq0⟩ := hdupmem d0 (by rw [hdl]; simp)
    have hd0g : d0 ≠ gen2 := hpres d0 nd0 hnd0
    have hd0x : d0 ≠ x := fun he => hxsel (he ▸ hd0too)
    have hd0notch : d0 ∉ x :: xch := htooNotCh d0 hd0too
    have hd0fro : nd0.fro = some x := by
      obtain ⟨nc, hmc, hfc⟩ := htooK d0 hd0too
      rw [hnd0] at hmc
      injection hmc with he
      rw [he]
      exact hfc
    have hfindnone : (d0 :: dtl).find? (fun d => decide (d ∈ x :: xch)) = none := by
      rw [List.find?_eq_none]
      intro d hd
      simp only [decide_eq_true_eq]
      exact htooNotCh d (hdupmem d (by rw [hdl]; exact hd)).1
    have hfindRd0 : mfind R.nodes d0 = some nd0 := by
      rw [hRl d0, if_neg hd0g, if_neg hd0x]
      exact hnd0
    have hsetact := act_eq_other R d0 nd0 gen2 hfindRd0 hRa (fun he => hd0g he.symm)
    obtain ⟨W5, hsetW5, hW5n, hW5a⟩ : ∃ W5, setActiveInPlace R d0 true = (W5, true) ∧
        W5.nodes = madjust (madjust R.nodes d0 (fun m => { m with active := true })) gen2
          (fun m => { m with active := false }) ∧
        W5.active = some d0 := by
      rw [hsetact]
      exact ⟨_, rfl, rfl, rfl⟩
    have hndW5 : NodupKeys W5.nodes := by
      rw [hW5n]
      exact nodup_madjust _ _ _ (nodup_madjust _ _ _ hndR)
    have hW5l : ∀ k, mfind W5.nodes k =
        if k = gen2 then some ⟨gen2, some x, [], false, false,
          { content := .snippet (value.drop offset3), metadata := md, model := none }⟩
        else if k = d0 then some { nd0 with active := true }
        else mfind R.nodes k := by
      intro k
      rw [hW5n]
      by_cases h1 : k = gen2
      · rw [if_pos h1, h1, mfind_madjust _ gen2 gen2 _ (nodup_madjust _ _ _ hndR),
          if_pos rfl, mfind_madjust R.nodes d0 gen2 _ hndR,
          if_neg (fun he => hd0g he.symm), hfindg]
        rfl
      · rw [if_neg h1, mfind_madjust _ gen2 k _ (nodup_madjust _ _ _ hndR), if_neg h1]
        by_cases h2 : k = d0
        · rw [if_pos h2, h2, mfind_madjust R.nodes d0 d0 _ hndR, if_pos rfl, hfindRd0]
          rfl
        · rw [if_neg h2, mfind_madjust R.nodes d0 k _ hndR, if_neg h2]
    have hrem := remove_fresh_leaf W5 gen2
      ⟨gen2, some x, [], false, false,
        { content := .snippet (value.drop offset3), metadata := md, model := none }⟩
      (by rw [hW5l gen2, if_pos rfl]) rfl rfl
    obtain ⟨W6, hW6eq, hW6n, hW6a⟩ : ∃ W6, (removeNode W5 gen2).1 = W6 ∧
        W6.nodes = madjust (merase W5.nodes gen2) x
          (fun m => { m with too := m.too.erase gen2 }) ∧
        W6.active = some d0 := by
      rw [hrem]
      refine ⟨_, rfl, rfl, ?_⟩
      show W5.active = some d0
      exact hW5a
    have hndW6 : NodupKeys W6.nodes := by
      rw [hW6n]
      exact nodup_madjust _ _ _ (nodup_merase _ _ hndW5)
    have hW6l : ∀ k, mfind W6.nodes k =
        if k = gen2 then none
        else if k = x then
          some { nx with too := (sinsert nx.too gen2).erase gen2, active := false }
        else if k = d0 then some { nd0 with active := true }
        else mfind w3.nodes k := by
      intro k
      rw [hW6n]
      by_cases h1 : k = gen2
      · rw [if_pos h1, h1, mfind_madjust _ x gen2 _ (nodup_merase _ _ hndW5),
          if_neg (fun he => hxg he.symm), mfind_merase _ gen2 gen2 hndW5, if_pos rfl]
      · rw [if_neg h1]
        by_cases h2 : k = x
        · rw [if_pos h2, h2, mfind_madjust _ x x _ (nodup_merase _ _ hndW5), if_pos rfl,
            mfind_merase _ gen2 x hndW5, if_neg hxg, hW5l x, if_neg hxg,
            if_neg (fun he => hd0x he.symm), hfindx']
          rfl
        · rw [if_neg h2, mfind_madjust _ x k _ (nodup_merase _ _ hndW5), if_neg h2,
            mfind_merase _ gen2 k hndW5, if_neg h1, hW5l k, if_neg h1]
          by_cases h3 : k = d0
          · rw [if_pos h3, if_pos h3]
          · rw [if_neg h3, if_neg h3, hRl k, if_neg h1, if_neg h2]
    have hchW6 : IsChain W6.nodes d0 (d0 :: x :: xch) := by
      refine IsChain.step d0 { nd0 with active := true } x (x :: xch) ?_ hd0fro ?_
      · rw [hW6l d0, if_neg hd0g, if_neg hd0x, if_pos rfl]
      · refine isChain_congr w3.nodes W6.nodes x (x :: xch) hch ?_
        intro k hk nk hnk
        have hkg : k ≠ gen2 := hpres k nk hnk
        by_cases hkx : k = x
        · have hnk2 := hnk
          rw [hkx, hnx] at hnk2
          injection hnk2 with he
          refine ⟨{ nx with too := (sinsert nx.too gen2).erase gen2, active := false },
            ?_, ?_⟩
          · rw [hkx, hW6l x, if_neg hxg, if_pos rfl]
          · show nx.fro = nk.fro
            rw [he]
        · have hkd : k ≠ d0 := fun he => hd0notch (he ▸ hk)
          refine ⟨nk, ?_, rfl⟩
          rw [hW6l k, if_neg hkg, if_neg hkx, if_neg hkd]
          exact hnk
    have hpbW6x : pathBytes W6.nodes (x :: xch).reverse = value.take offset3 := by
      rw [← hpb]
      refine pathBytes_congr w3.nodes W6.nodes (x :: xch).reverse ?_
      intro k hk
      have hk' : k ∈ x :: xch := List.mem_reverse.mp hk
      obtain ⟨nk, hnk⟩ := hchkeys k hk'
      have hkg : k ≠ gen2 := hpres k nk hnk
      by_cases hkx : k = x
      · have hnk2 := hnk
        rw [hkx, hnx] at hnk2
        injection hnk2 with he
        refine ⟨nk, { nx with too := (sinsert nx.too gen2).erase gen2, active := false },
          hnk, ?_, ?_⟩
        · rw [hkx, hW6l x, if_neg hxg, if_pos rfl]
        · show nx.contents.content.asBytes = nk.contents.content.asBytes
          rw [he]
      · have hkd : k ≠ d0 := fun he => hd0notch (he ▸ hk')
        refine ⟨nk, nk, hnk, ?_, rfl⟩
        rw [hW6l k, if_neg hkg, if_neg hkx, if_neg hkd]
        exact hnk
    have hbytes0 : nd0.contents.content.asBytes = value.drop offset3 := by
      have hb := V0.ncEq_bytes _ _ hnceq0
      rw [← hb]
      rfl
    have hv0eq : v0AddNode w3 ⟨gen2, some x, [], true, false,
        { content := .snippet (value.drop offset3), metadata := md, model := none }⟩ =
        (W6, true) := by
      unfold v0AddNode
      simp only []
      rw [haddR]
      simp only []
      rw [hdups, hdl, if_pos (by simp), if_pos trivial]
      simp only [if_true, hlas]
      rw [hfindnone]
      simp only [List.head?_cons]
      rw [hsetW5]
      simp only []
      rw [hW6eq]
    refine ⟨W6, hv0eq, ?_⟩
    rw [gac_of_chain W6 d0 (d0 :: x :: xch) hW6a hndW6 hchW6]
    rw [List.reverse_cons, pathBytes_append, hpbW6x]
    congr 1
    rw [pathBytes_cons W6.nodes d0 [] { nd0 with active := true }
      (by rw [hW6l d0, if_neg hd0g, if_neg hd0x, if_pos rfl]), pathBytes_nil,
      List.append_nil]
    exact hbytes0

end UWeave.Dep

namespace UWeave.Dep

/-- Appending the whole content as a new root when nothing was kept: with or
without deduplication, the call succeeds and the active chain is a single
node spelling the whole target value. -/
theorem append_root (w3 : DWeave) (gen2 : Nat) (value : List Nat) (offset3 : Nat)
    (md : List (String × String))
    (hs : Slim w3) (hfresh : ¬ mcontains w3.nodes gen2)
    (hact3 : w3.active = none) (hoff : offset3 = 0) :
    ∃ w4, v0AddNode w3
        ⟨gen2, none, [], true, false,
          { content := .snippet (value.drop offset3), metadata := md, model := none }⟩ =
        (w4, true) ∧
      getActiveContent w4 = value := by
  subst hoff
  have hpres : ∀ k n0, mfind w3.nodes k = some n0 → k ≠ gen2 := by
    intro k n0 hk he
    subst he
    exact hfresh (by unfold mcontains; rw [hk]; simp)
  have hinv : addNodeInvalid w3
      ⟨gen2, none, [], true, false,
        { content := .snippet (value.drop 0), metadata := md, model := none }⟩
      = false := by
    unfold addNodeInvalid DNode.validate
    simp [hfresh]
  obtain ⟨R, haddR, hRn, hRa, hRr, hRb⟩ :
      ∃ R, addNode w3 ⟨gen2, none, [], true, false,
          { content := .snippet (value.drop 0), metadata := md, model := none }⟩ =
        (R, true) ∧
        R.nodes = minsert w3.nodes gen2
          ⟨gen2, none, [], true, false,
            { content := .snippet (value.drop 0), metadata := md, model := none }⟩ ∧
        R.active = some gen2 ∧ R.roots = sinsert w3.roots gen2 ∧
        R.bookmarked = w3.bookmarked :=
    ⟨_, addNode_eq_root w3 _ hinv rfl rfl rfl hact3, rfl, rfl, rfl, rfl⟩
  have hndR : NodupKeys R.nodes := by
    rw [hRn]
    exact nodup_minsert _ _ _ hs.nodup
  have hRl : ∀ k, mfind R.nodes k =
      if k = gen2 then some ⟨gen2, none, [], true, false,
        { content := .snippet (value.drop 0), metadata := md, model := none }⟩
      else mfind w3.nodes k := by
    intro k
    rw [hRn, mfind_minsert]
  have hfindg : mfind R.nodes gen2 = some ⟨gen2, none, [], true, false,
      { content := .snippet (value.drop 0), metadata := md, model := none }⟩ := by
    rw [hRl gen2, if_pos rfl]
  have hgen_roots : gen2 ∉ w3.roots := by
    intro hg
    obtain ⟨nr, hmr, _⟩ := hs.rootsfact gen2 hg
    exact hpres gen2 nr hmr rfl
  have hlas : getActiveThread w3 (w3.nodes.length + 1) = [] := by
    unfold getActiveThread
    rw [hact3]
  have hfilter : (sinsert w3.roots gen2).filter (fun z => decide (z ≠ gen2)) =
      w3.roots := by
    rw [sinsert_fresh _ _ hgen_roots]
    refine filter_append_ne w3.roots gen2 ?_
    intro r hr
    obtain ⟨nr, hmr, _⟩ := hs.rootsfact r hr
    exact hpres r nr hmr
  have hsibs : w3.roots.filterMap (mfind R.nodes) =
      w3.roots.filterMap (mfind w3.nodes) := by
    refine filterMap_ext _ _ _ ?_
    intro r hr
    have hrg : r ≠ gen2 := by
      obtain ⟨nr, hmr, _⟩ := hs.rootsfact r hr
      exact hpres r nr hmr
    rw [hRl r, if_neg hrg]
  have hdups : findDuplicates R gen2 =
      ((w3.roots.filterMap (mfind w3.nodes)).filter
        (fun s => V0.ncEq { content := .snippet (value.drop 0), metadata := md, model := none } s.contents)).map (fun s => s.id) := by
    unfold findDuplicates
    rw [hfindg]
    simp only []
    rw [hRr, hfilter, hsibs]
  have hdupmem : ∀ d ∈ ((w3.roots.filterMap (mfind w3.nodes)).filter
      (fun s => V0.ncEq { content := .snippet (value.drop 0), metadata := md, model := none } s.contents)).map (fun s => s.id),
      d ∈ w3.roots ∧ ∃ nd, mfind w3.nodes d = some nd ∧
        V0.ncEq { content := .snippet (value.drop 0), metadata := md, model := none } nd.contents = true := by
    intro d hd
    simp only [List.mem_map, List.mem_filter, List.mem_filterMap] at hd
    obtain ⟨s, ⟨⟨r, hr, hrs⟩, hnceq⟩, hsid⟩ := hd
    have hidc : s.id = r := hs.idcoh r s hrs
    rw [← hsid, hidc]
    exact ⟨hr, s, hrs, hnceq⟩
  by_cases hdnil : ((w3.roots.filterMap (mfind w3.nodes)).filter
      (fun s => V0.ncEq { content := .snippet (value.drop 0), metadata := md, model := none } s.contents)).map (fun s => s.id) = []
  · have hv0eq : v0AddNode w3 ⟨gen2, none, [], true, false,
        { content := .snippet (value.drop 0), metadata := md, model := none }⟩ =
        (R, true) := by
      unfold v0AddNode
      simp only []
      rw [haddR]
      simp only []
      rw [hdups, if_neg (by simp only [hdnil]; simp)]
    refine ⟨R, hv0eq, ?_⟩
    have hchR : IsChain R.nodes gen2 [gen2] := IsChain.root gen2 _ hfindg rfl
    rw [gac_of_chain R gen2 [gen2] hRa hndR hchR]
    rw [show ([gen2] : List Nat).reverse = [gen2] from rfl]
    rw [pathBytes_cons R.nodes gen2 [] _ hfindg, pathBytes_nil, List.append_nil]
    exact List.drop_zero value
  · obtain ⟨d0, dtl, hdl⟩ : ∃ d0 dtl, ((w3.roots.filterMap (mfind w3.nodes)).filter
        (fun s => V0.ncEq { content := .snippet (value.drop 0), metadata := md, model := none } s.contents)).map (fun s => s.id) = d0 :: dtl := by
      cases hcase : ((w3.roots.filterMap (mfind w3.nodes)).filter
          (fun s => V0.ncEq { content := .snippet (value.drop 0), metadata := md, model := none } s.contents)).map (fun s => s.id) with
      | nil => exact absurd hcase hdnil
      | cons a b => exact ⟨a, b, rfl⟩
    obtain ⟨hd0root, nd0, hnd0, hnceq0⟩ := hdupmem d0 (by rw [hdl]; simp)
    have hd0g : d0 ≠ gen2 := hpres d0 nd0 hnd0
    have hd0fro : nd0.fro = none := by
      obtain ⟨nr, hmr, hfr⟩ := hs.rootsfact d0 hd0root
      rw [hnd0] at hmr
      injection hmr with he
      rw [he]
      exact hfr
    have hfindnone : (d0 :: dtl).find? (fun d => decide (d ∈ ([] : List Nat))) =
        none := by
      rw [List.find?_eq_none]
      intro d hd
      simp
    have hfindRd0 : mfind R.nodes d0 = some nd0 := by
      rw [hRl d0, if_neg hd0g]
      exact hnd0
    have hsetact := act_eq_other R d0 nd0 gen2 hfindRd0 hRa (fun he => hd0g he.symm)
    obtain ⟨W5, hsetW5, hW5n, hW5a⟩ : ∃ W5, setActiveInPlace R d0 true = (W5, true) ∧
        W5.nodes = madjust (madjust R.nodes d0 (fun m => { m with active := true })) gen2
          (fun m => { m with active := false }) ∧
        W5.active = some d0 := by
      rw [hsetact]
      exact ⟨_, rfl, rfl, rfl⟩
    have hndW5 : NodupKeys W5.nodes := by
      rw [hW5n]
      exact nodup_madjust _ _ _ (nodup_madjust _ _ _ hndR)
    have hW5l : ∀ k, mfind W5.nodes k =
        if k = gen2 then some ⟨gen2, none, [], false, false,
          { content := .snippet (value.drop 0), metadata := md, model := none }⟩
        else if k = d0 then some { nd0 with active := true }
        else mfind R.nodes k := by
      intro k
      rw [hW5n]
      by_cases h1 : k = gen2
      · rw [if_pos h1, h1, mfind_madjust _ gen2 gen2 _ (nodup_madjust _ _ _ hndR),
          if_pos rfl, mfind_madjust R.nodes d0 gen2 _ hndR,
          if_neg (fun he => hd0g he.symm), hfindg]
        rfl
      · rw [if_neg h1, mfind_madjust _ gen2 k _ (nodup_madjust _ _ _ hndR), if_neg h1]
        by_cases h2 : k = d0
        · rw [if_pos h2, h2, mfind_madjust R.nodes d0 d0 _ hndR, if_pos rfl, hfindRd0]
          rfl
        · rw [if_neg h2, mfind_madjust R.nodes d0 k _ hndR, if_neg h2]
    have hrem := remove_fresh_leaf W5 gen2
      ⟨gen2, none, [], false, false,
        { content := .snippet (value.drop 0), metadata := md, model := none }⟩
      (by rw [hW5l gen2, if_pos rfl]) rfl rfl
    obtain ⟨W6, hW6eq, hW6n, hW6a⟩ : ∃ W6, (removeNode W5 gen2).1 = W6 ∧
        W6.nodes = merase W5.nodes gen2 ∧
        W6.active = some d0 := by
      rw [hrem]
      refine ⟨_, rfl, rfl, ?_⟩
      show W5.active = some d0
      exact hW5a
    have hndW6 : NodupKeys W6.nodes := by
      rw [hW6n]
      exact nodup_merase _ _ hndW5
    have hfindW6d0 : mfind W6.nodes d0 = some { nd0 with active := true } := by
      rw [hW6n, mfind_merase _ gen2 d0 hndW5, if_neg hd0g, hW5l d0,
        if_neg hd0g, if_pos rfl]
    have hchW6 : IsChain W6.nodes d0 [d0] :=
      IsChain.root d0 { nd0 with active := true } hfindW6d0 hd0fro
    have hbytes0 : nd0.contents.content.asBytes = value.drop 0 := by
      have hb := V0.ncEq_bytes _ _ hnceq0
      rw [← hb]
      rfl
    have hv0eq : v0AddNode w3 ⟨gen2, none, [], true, false,
        { content := .snippet (value.drop 0), metadata := md, model := none }⟩ =
        (W6, true) := by
      unfold v0AddNode
      simp only []
      rw [haddR]
      simp only []
      rw [hdups, hdl, if_pos (by simp), if_pos trivial]
      simp only [if_true, hlas]
      rw [hfindnone]
      simp only [List.head?_cons]
      rw [hsetW5]
      simp only []
      rw [hW6eq]
    refine ⟨W6, hv0eq, ?_⟩
    rw [gac_of_chain W6 d0 [d0] hW6a hndW6 hchW6]
    rw [show ([d0] : List Nat).reverse = [d0] from rfl]
    rw [pathBytes_cons W6.nodes d0 [] _ hfindW6d0, pathBytes_nil, List.append_nil]
    show nd0.contents.content.asBytes = value
    rw [hbytes0]
    exact List.drop_zero value

end UWeave.Dep

namespace UWeave.Dep

/-- **C1** (explicit, functional_correctness): for every well-formed weave
state (`wfB`, satisfied by every state reachable by successful public
operations), every target byte sequence `value`, every metadata bundle `md`,
and every fresh-id generator (modelled by the two fresh distinct ids `gen1`
and `gen2` it would produce), `set_active_content value md` on the v0
tapestry weave succeeds without panicking, and `get_active_content` on the
resulting weave returns exactly `value`, byte for byte. -/
theorem set_active_content_postcondition (w : DWeave) (value : List Nat)
    (md : List (String × String)) (gen1 gen2 : Nat)
    (hwf : wfB w = true)
    (hg1 : ¬ mcontains w.nodes gen1) (hg2 : ¬ mcontains w.nodes gen2)
    (hgne : gen1 ≠ gen2) :
    ∃ w4 m, setActiveContent w value md gen1 gen2 = some (w4, m) ∧
      getActiveContent w4 = value := by
  have hs : Slim w := wf_slim w hwf
  obtain ⟨tip, hpath⟩ : ∃ tip, IsPathDown w.nodes none (activeThreadR w) tip := by
    cases hact0 : w.active with
    | none =>
      rw [threadR_none w hact0]
      exact ⟨none, rfl⟩
    | some a =>
      obtain ⟨na, hna⟩ := hs.actpres a hact0
      obtain ⟨l, hchl⟩ := (wf_node_facts w hwf a na hna).2.2.2.2.2.2.1
      rw [threadR_of_chain w a l hact0 hs.nodup hchl]
      exact ⟨some a, isChain_pathDown w.nodes a l hchl⟩
  obtain ⟨w1, offsetF, lastF, m, hwalk, hoffF, hconc⟩ :=
    walk_spec (activeThreadR w) w value 0 none tip gen1 hs hg1 hpath
      (Nat.zero_le _) (Or.inl ⟨rfl, rfl⟩)
  unfold setActiveContent
  simp only []
  rw [hwalk]
  simp only []
  rcases hconc with ⟨hlf, hw1, hoff0⟩ | ⟨lf, lch, hlf, hslim1, hfr1, hchain1, hpb1⟩
  · subst hlf
    subst hw1
    subst hoff0
    simp only []
    cases hact : w1.active with
    | none =>
      rw [threadR_none w1 hact]
      simp only [List.getLast?_nil]
      by_cases hvl : 0 < value.length
      · rw [if_pos hvl]
        obtain ⟨w4, hv0, hgac⟩ := append_root w1 gen2 value 0 md hs hg2 hact rfl
        rw [hv0]
        exact ⟨w4, true, rfl, hgac⟩
      · rw [if_neg hvl]
        refine ⟨w1, m, rfl, ?_⟩
        rw [gac_none w1 hact]
        have hl0 : value.length = 0 := by omega
        exact (List.eq_nil_of_length_eq_zero hl0).symm
    | some a =>
      obtain ⟨na, hna⟩ := hs.actpres a hact
      obtain ⟨l, hchl⟩ := (wf_node_facts w1 hwf a na hna).2.2.2.2.2.2.1
      obtain ⟨t, hlt⟩ := isChain_head w1.nodes a l hchl
      have hthr : activeThreadR w1 = t.reverse ++ [a] := by
        rw [threadR_of_chain w1 a l hact hs.nodup hchl, hlt, List.reverse_cons]
      rw [hthr, List.getLast?_concat]
      simp only []
      obtain ⟨w2, hdeq, hslim2, hact2, hskel2, _, _, _⟩ := deact_post w1 a na hs hna hact
      unfold setActive
      rw [hdeq]
      simp only []
      by_cases hvl : 0 < value.length
      · rw [if_pos hvl]
        obtain ⟨w4, hv0, hgac⟩ := append_root w2 gen2 value 0 md hslim2
          (skel_fresh w1 w2 hskel2 gen2 hg2) hact2 rfl
        rw [hv0]
        exact ⟨w4, true, rfl, hgac⟩
      · rw [if_neg hvl]
        refine ⟨w2, m, rfl, ?_⟩
        rw [gac_none w2 hact2]
        have hl0 : value.length = 0 := by omega
        exact (List.eq_nil_of_length_eq_zero hl0).symm
  · subst hlf
    simp only []
    obtain ⟨nlf1, hnlf1⟩ := isChain_mem_keys w1.nodes lf (lf :: lch) hchain1 lf (by simp)
    obtain ⟨w2, hacteq, hslim2, hact2, hskel2, _, _, _⟩ := act_post w1 lf nlf1 hslim1 hnlf1
    unfold setActive
    rw [hacteq]
    simp only []
    have hch2 : IsChain w2.nodes lf (lf :: lch) := skel_isChain w1 w2 hskel2 lf _ hchain1
    have hpb2 : pathBytes w2.nodes (lf :: lch).reverse = value.take offsetF := by
      rw [← hpb1]
      exact skel_pathBytes w1 w2 hskel2 (lf :: lch).reverse
        (fun k hk => isChain_mem_keys w1.nodes lf (lf :: lch) hchain1 k
          (List.mem_reverse.mp hk))
    have hfresh2 : ¬ mcontains w2.nodes gen2 :=
      skel_fresh w1 w2 hskel2 gen2 (hfr1 gen2 hg2 (fun he => hgne he.symm))
    obtain ⟨nlf2, hnlf2⟩ := hslim2.actpres lf hact2
    rw [hnlf2]
    simp only []
    have hid2 : nlf2.id = lf := hslim2.idcoh lf nlf2 hnlf2
    by_cases hcond : nlf2.too.length ≤ 1 ∧
        ((nlf2.too.filterMap (mfind w2.nodes)).all fun child => child.too = []) = true ∧
        nlf2.bookmarked = false ∧ nlf2.contents.model = none ∧
        mapEquiv nlf2.contents.metadata md = true
    · rw [if_pos hcond, hid2]
      have hkids : ∀ c ∈ nlf2.too, ∃ nc, mfind w2.nodes c = some nc ∧ nc.too = [] := by
        intro c hc
        obtain ⟨nc, hmc, _⟩ := hslim2.childedge lf nlf2 c hnlf2 hc
        refine ⟨nc, hmc, ?_⟩
        have := List.all_eq_true.mp hcond.2.1 nc (List.mem_filterMap.mpr ⟨c, hc, hmc⟩)
        simpa using this
      obtain ⟨w3, hremEq, hslim3, hfr3, hnone3, hsome3⟩ :=
        cleanup_remove w2 lf nlf2 lch hslim2 hact2 hnlf2 hcond.1 hkids hch2
      rw [hremEq]
      simp only []
      have h1 : pathBytes w2.nodes ((lf :: lch).reverse) =
          pathBytes w2.nodes lch.reverse ++ nlf2.contents.content.asBytes := by
        rw [List.reverse_cons, pathBytes_append,
          pathBytes_cons w2.nodes lf [] nlf2 hnlf2, pathBytes_nil, List.append_nil]
      have hsplit : pathBytes w2.nodes lch.reverse ++ nlf2.contents.content.asBytes =
          value.take offsetF := by
        rw [← h1]
        exact hpb2
      have hlen1 : (pathBytes w2.nodes lch.reverse).length +
          nlf2.contents.content.asBytes.length = offsetF := by
        have hc := congrArg List.length hsplit
        rw [List.length_append, List.length_take] at hc
        omega
      have hL : nlf2.contents.content.byteLen = nlf2.contents.content.asBytes.length :=
        V0.byteLen_asBytes _
      have htake3 : value.take (offsetF - nlf2.contents.content.byteLen) =
          pathBytes w2.nodes lch.reverse := by
        rw [hL]
        rw [show offsetF - nlf2.contents.content.asBytes.length =
          (pathBytes w2.nodes lch.reverse).length from by omega]
        calc value.take (pathBytes w2.nodes lch.reverse).length
            = (value.take offsetF).take (pathBytes w2.nodes lch.reverse).length := by
              rw [List.take_take, min_eq_left (by omega)]
          _ = (pathBytes w2.nodes lch.reverse ++
                nlf2.contents.content.asBytes).take
                (pathBytes w2.nodes lch.reverse).length := by rw [hsplit]
          _ = pathBytes w2.nodes lch.reverse := List.take_left _ _
      rcases isChain_inv w2.nodes lf lch nlf2 hnlf2 hch2 with ⟨hfro, hlch⟩ |
        ⟨pr, hfro, hchpr⟩
      · obtain ⟨hact3, _⟩ := hnone3 hfro
        rw [hfro]
        have hoff3 : offsetF - nlf2.contents.content.byteLen = 0 := by
          subst hlch
          have hplen : (pathBytes w2.nodes (([] : List Nat)).reverse).length = 0 := rfl
          omega
        by_cases hvl : offsetF - nlf2.contents.content.byteLen < value.length
        · rw [if_pos hvl]
          obtain ⟨w4, hv0, hgac⟩ := append_root w3 gen2 value
            (offsetF - nlf2.contents.content.byteLen) md hslim3
            (hfr3 gen2 hfresh2) hact3 hoff3
          rw [hv0]
          exact ⟨w4, true, rfl, hgac⟩
        · rw [if_neg hvl]
          refine ⟨w3, m, rfl, ?_⟩
          rw [gac_none w3 hact3]
          have hl0 : value.length = 0 := by omega
          exact (List.eq_nil_of_length_eq_zero hl0).symm
      · obtain ⟨hact3, hch3, hpb3⟩ := hsome3 pr hfro
        rw [hfro]
        obtain ⟨lrest, hlrest⟩ := isChain_head w2.nodes pr lch hchpr
        by_cases hvl : offsetF - nlf2.contents.content.byteLen < value.length
        · rw [if_pos hvl]
          obtain ⟨w4, hv0, hgac⟩ := append_parent w3 gen2 value
            (offsetF - nlf2.contents.content.byteLen) md pr lrest hslim3
            (hfr3 gen2 hfresh2) hact3 (by rw [← hlrest]; exact hch3)
            (by rw [← hlrest, hpb3, htake3])
          rw [hv0]
          refine ⟨w4, true, rfl, ?_⟩
          rw [hgac, List.take_append_drop]
        · rw [if_neg hvl]
          refine ⟨w3, m, rfl, ?_⟩
          rw [gac_of_chain w3 pr lch hact3 hslim3.nodup hch3, hpb3, ← htake3]
          have hoeq : offsetF - nlf2.contents.content.byteLen = value.length := by omega
          rw [hoeq, List.take_length]
    · rw [if_neg hcond]
      simp only []
      by_cases hvl : offsetF < value.length
      · rw [if_pos hvl]
        obtain ⟨w4, hv0, hgac⟩ := append_parent w2 gen2 value offsetF md lf lch hslim2
          hfresh2 hact2 hch2 hpb2
        rw [hv0]
        refine ⟨w4, true, rfl, ?_⟩
        rw [hgac, List.take_append_drop]
      · rw [if_neg hvl]
        refine ⟨w2, m, rfl, ?_⟩
        rw [gac_of_chain w2 lf (lf :: lch) hact2 hslim2.nodup hch2, hpb2]
        have hoeq : offsetF = value.length := by omega
        rw [hoeq, List.take_length]

/-- Witness: on the empty tapestry weave with fresh ids 1 and 2, setting the
active content to the byte sequence `[7]` succeeds and the active content
reads back as `[7]`. -/
theorem set_active_content_postcondition_witness :
    wfB emptyWeave = true ∧ ¬ mcontains emptyWeave.nodes 1 ∧
    ¬ mcontains emptyWeave.nodes 2 ∧ (1 : Nat) ≠ 2 ∧
    ∃ w4 m, setActiveContent emptyWeave [7] [] 1 2 = some (w4, m) ∧
      getActiveContent w4 = [7] :=
  ⟨by decide, by decide, by decide, by decide,
    set_active_content_postcondition emptyWeave [7] [] 1 2 (by decide) (by decide)
      (by decide) (by decide)⟩

end UWeave.Dep
